import Mathlib

/-!
Matrix.cpp (hill-cipher): a shallow embedding and its verified properties

The C++ class `Matrix` (src/Matrix.cpp) is a square grid of `int` owned through an
`int**`.  The embedding below follows the source function by function.

Modelling conventions

* `int` data (elements, scalars, moduli, the row and column arguments of
  `getSubmatrix`) are `Int`.  Two layers of arithmetic are kept apart.  The functions
  with the plain names of the source (`findDeterminant`, `findAdjoint`,
  `modMultiplyVector`, `modMultiplyScalar`, `findMaxMagnitude`, and `operator_plus`,
  `operator_minus` on matrices) compute exactly; the properties stated with them are
  those the specification gives for exact integer arithmetic, or for a positive
  modulus, or concern only the shape of the result.  The functions whose names end in
  `Int` (`findDeterminantInt`, `findAdjointInt`, `findMaxMagnitudeInt`,
  `modMultiplyScalarInt`) and `MatrixRef.operator_plus`, `MatrixRef.operator_minus`
  compute as the machine does on 32-bit `int`: every sum, difference, product and
  negation is reduced by `wrapInt`, `abs` is `cAbsInt` (`abs(INT_MIN)` is `INT_MIN`),
  and `%` is `cRemTrap`, which has no result for a zero divisor or for `INT_MIN % -1`
  (the program is ended by the trap).  `isInt`, `Matrix.AllInt` and `Matrix.NoIntMin`
  say that values lie in the range of `int`.
* `_size` and loop counters, which only ever count upwards from `0`, are `Nat`.
* `int** _matrix` is a list of rows, each a list of `Int`.
* `for (int i = 0; i < n; ++i) body` is a left fold of `body` over `List.range n`,
  the loop state being threaded through the fold.
* `new int[n]` yields storage with indeterminate contents.  Every function that
  allocates takes the contents the fresh storage happens to hold as an argument
  (`junk`), and `findDeterminant` takes the indeterminate initial value of its local
  `det` (`det0`); properties are proved for every such argument.
* An access outside the allocated rows or columns is undefined behaviour in the
  source.  `Matrix.elem` and `Matrix.put` are total (a read gives `0`, a write does
  nothing there); the properties below are stated for well-formed matrices
  (`Matrix.WF`), on which the loops never leave the grid.
* The C++ `%` truncates towards zero: `cRem` is `Int.tmod`, the operator for a
  non-zero divisor; `cRemTrap` adds the cases in which the division traps.
* What a function writes on `cerr` is given by a function of its own
  (`findDeterminantCerr`, `findAdjointCerr`) next to the one giving the value returned.
  No function of the source raises an error: there is no `throw` in it.
* Where sharing of storage matters (the copy constructor followed by the in-place
  `modMultiplyScalar`), the object is a `MatrixRef`, its row pointers into a `Store` of
  `int` arrays, and the functions pass the store along; `MatrixRef.value` reads back
  the matrix an object denotes, and `MatrixRef.modMultiplyScalar_value` relates the
  method on the store to the method on matrices.
* Streams are lists of characters.  `operator<<` returns the characters on the output
  stream after the call; the text constructor takes the characters left in the file and
  returns those it leaves.  Formatting and extraction follow the default stream state
  and the "C" locale: `intText`, `putField`, `extractString`, `extractInt`.  The
  extraction of an `int` fails on text that has no digits or denotes a number outside
  the range of `int`, and the parsing loop stops there.  `operator<<` computes its
  field width from `findMaxMagnitudeInt`.
* The text of an input file is described by `joinWith` (texts joined by a separator)
  and `decimalValue` (the integer a text denotes as an optionally signed decimal
  integer); `isIntText` says that the integer is in the range of `int`.
-/

namespace HillCipher

/-- The C++ remainder operator on `int`, for a non-zero divisor: truncated division
remainder. -/
def cRem (a b : Int) : Int := Int.tmod a b

/-- The class `Matrix`: its two data members. -/
structure Matrix where
  _size : Nat
  _matrix : List (List Int)
deriving DecidableEq, Repr

namespace Matrix

/-- The grid has exactly `_size` rows of exactly `_size` integers. -/
def WF (M : Matrix) : Prop :=
  M._matrix.length = M._size ∧ ∀ row ∈ M._matrix, row.length = M._size

instance (M : Matrix) : Decidable M.WF := by
  unfold WF; infer_instance

/-- The read `_matrix[i][j]`. -/
def elem (M : Matrix) (i j : Nat) : Int := (M._matrix.getD i []).getD j 0

/-- The write `_matrix[i][j] = v`. -/
def put (M : Matrix) (i j : Nat) (v : Int) : Matrix :=
  { M with _matrix := M._matrix.set i ((M._matrix.getD i []).set j v) }

/-- One freshly allocated row, `new int[size]`, with the contents it happens to hold. -/
def allocRow (size i : Nat) (junk : Nat → Nat → Int) : List Int :=
  (List.range size).map (junk i)

/-- The constructor `Matrix(int size, bool identity)`: row `i` is allocated and, when
`identity` holds, filled with `(i == j ? 1 : 0)`; otherwise it is left as allocated. -/
def new (size : Nat) (identity : Bool) (junk : Nat → Nat → Int) : Matrix :=
  { _size := size
    _matrix := (List.range size).map fun i =>
      let row := allocRow size i junk
      if identity then
        (List.range size).foldl (fun row j => row.set j (if i = j then 1 else 0)) row
      else row }

/-- The inner loop body of `getSubmatrix`: skip column `j`, otherwise copy one element
and advance `subCol`. -/
def getSubmatrixCol (M : Matrix) (j : Int) (thisRow subRow : Nat)
    (st : Matrix × Nat) (thisCol : Nat) : Matrix × Nat :=
  if (thisCol : Int) = j then st
  else (st.1.put subRow st.2 (M.elem thisRow thisCol), st.2 + 1)

/-- The outer loop body of `getSubmatrix`: skip row `i`, otherwise run the column loop
with `subCol` starting at `0` and advance `subRow`. -/
def getSubmatrixRow (M : Matrix) (i j : Int) (st : Matrix × Nat) (thisRow : Nat) :
    Matrix × Nat :=
  if (thisRow : Int) = i then st
  else
    (((List.range M._size).foldl (getSubmatrixCol M j thisRow st.2) (st.1, 0)).1,
      st.2 + 1)

/-- The method `Matrix::getSubmatrix(int i, int j)`.  The result is allocated with size
`_size - 1`; on a receiver of size 0 the source asks for a negative length, which
`new[]` rejects, while the truncated subtraction here gives 0 (the properties below
concern receivers of size at least 1). -/
def getSubmatrix (M : Matrix) (i j : Int) (junk : Nat → Nat → Int) : Matrix :=
  let sub := Matrix.new (M._size - 1) false junk
  ((List.range M._size).foldl (getSubmatrixRow M i j) (sub, 0)).1

/-- The method `Matrix::findDeterminant()`.  In the last branch the source prints a
warning on `cerr` and returns the local `det` as it was declared, never assigned. -/
def findDeterminant (M : Matrix) (det0 : Int) : Int :=
  if M._size = 1 then
    M.elem 0 0
  else if M._size = 2 then
    M.elem 0 0 * M.elem 1 1 - M.elem 0 1 * M.elem 1 0
  else if M._size = 3 then
    let term1 := M.elem 0 0 * M.elem 1 1 * M.elem 2 2
    let term2 := M.elem 0 1 * M.elem 1 2 * M.elem 2 0
    let term3 := M.elem 0 2 * M.elem 1 0 * M.elem 2 1
    let term4 := M.elem 0 2 * M.elem 1 1 * M.elem 2 0
    let term5 := M.elem 0 0 * M.elem 1 2 * M.elem 2 1
    let term6 := M.elem 0 1 * M.elem 1 0 * M.elem 2 2
    term1 + term2 + term3 - term4 - term5 - term6
  else
    det0

/-- The body of the two nested loops of `findAdjoint` for size 3. -/
def findAdjointCell (M : Matrix) (junk : Nat → Nat → Int) (det0 : Int)
    (i : Nat) (adj : Matrix) (j : Nat) : Matrix :=
  let submatrix := M.getSubmatrix j i junk
  let adj := adj.put i j (submatrix.findDeterminant det0)
  adj.put i j (adj.elem i j * (if (i + j) % 2 = 0 then 1 else -1))

/-- The method `Matrix::findAdjoint()`.  In the last branch the source prints a warning
on `cerr` and returns `adj` as allocated. -/
def findAdjoint (M : Matrix) (junk : Nat → Nat → Int) (det0 : Int) : Matrix :=
  let adj := Matrix.new M._size false junk
  if M._size = 2 then
    let adj := adj.put 0 0 (M.elem 1 1)
    let adj := adj.put 0 1 (-1 * M.elem 0 1)
    let adj := adj.put 1 0 (-1 * M.elem 1 0)
    adj.put 1 1 (M.elem 0 0)
  else if M._size = 3 then
    (List.range M._size).foldl
      (fun adj i => (List.range M._size).foldl (findAdjointCell M junk det0 i) adj) adj
  else
    adj

/-- The inner loop body of `modMultiplyVector`: `result[i] += _matrix[i][j] * arr[j]`. -/
def modMultiplyVectorAcc (M : Matrix) (arr : List Int) (i : Nat)
    (result : List Int) (j : Nat) : List Int :=
  result.set i (result.getD i 0 + M.elem i j * arr.getD j 0)

/-- The outer loop body of `modMultiplyVector`: zero `result[i]`, accumulate the row
product, take the remainder and add `mod` when it is negative. -/
def modMultiplyVectorRow (M : Matrix) (arr : List Int) (mod : Int)
    (result : List Int) (i : Nat) : List Int :=
  let result := result.set i 0
  let result := (List.range M._size).foldl (modMultiplyVectorAcc M arr i) result
  let result := result.set i (cRem (result.getD i 0) mod)
  if result.getD i 0 < 0 then result.set i (result.getD i 0 + mod) else result

/-- The method `Matrix::modMultiplyVector(int* arr, int mod)`; `junk` is what the fresh
`new int[n]` holds. -/
def modMultiplyVector (M : Matrix) (arr : List Int) (mod : Int) (junk : Nat → Int) :
    List Int :=
  let n := M._size
  let result := (List.range n).map junk
  (List.range n).foldl (modMultiplyVectorRow M arr mod) result

/-- The loop body of `modMultiplyScalar` on element `(i, j)`. -/
def modMultiplyScalarCell (val mod : Int) (i : Nat) (M : Matrix) (j : Nat) : Matrix :=
  let M := M.put i j (M.elem i j * val)
  let M := M.put i j (cRem (M.elem i j) mod)
  if M.elem i j < 0 then M.put i j (M.elem i j + mod) else M

/-- The method `Matrix::modMultiplyScalar(int val, int mod)`; the receiver after the
call is the value returned. -/
def modMultiplyScalar (M : Matrix) (val mod : Int) : Matrix :=
  (List.range M._size).foldl
    (fun M i => (List.range M._size).foldl (modMultiplyScalarCell val mod i) M) M

/-- The function `operator+(const Matrix& m1, const Matrix& m2)`. -/
def operator_plus (m1 m2 : Matrix) (junk : Nat → Nat → Int) : Matrix :=
  let n := m1._size
  let pSumMatrix := Matrix.new n false junk
  (List.range n).foldl
    (fun acc i => (List.range n).foldl
      (fun acc j => acc.put i j (m1.elem i j + m2.elem i j)) acc) pSumMatrix

/-- The function `operator-(const Matrix& m1, const Matrix& m2)`. -/
def operator_minus (m1 m2 : Matrix) (junk : Nat → Nat → Int) : Matrix :=
  let n := m1._size
  let pDifferenceMatrix := Matrix.new n false junk
  (List.range n).foldl
    (fun acc i => (List.range n).foldl
      (fun acc j => acc.put i j (m1.elem i j - m2.elem i j)) acc) pDifferenceMatrix

/-- The index of the source row (or column) that lands at position `r` once row
(column) `i` is deleted. -/
def skipIdx (i r : Nat) : Nat := r + (if r ≥ i then 1 else 0)

/-- A loop body `cell i A j` that rewrites exactly element `(i, j)` of a well-formed
matrix of size `n`, the new value being `g i j` of the old one. -/
def CellUpdate (n : Nat) (cell : Nat → Matrix → Nat → Matrix)
    (g : Nat → Nat → Int → Int) : Prop :=
  ∀ (A : Matrix) (i j : Nat), A.WF → A._size = n → i < n → j < n →
    (cell i A j).WF ∧ (cell i A j)._size = n ∧
    ∀ r c, (cell i A j).elem r c = if r = i ∧ c = j then g i j (A.elem i j) else A.elem r c

end Matrix

/-- The value an `int` holds when the exact result of an arithmetic operation is `x`:
32 bits, two's complement.  (Signed overflow is undefined in the language; this is what
the additions, subtractions, multiplications and negations of the compiled program
leave.) -/
def wrapInt (x : Int) : Int := (x + 2147483648) % 4294967296 - 2147483648

/-- The integer `x` is a value of the type `int`. -/
def isInt (x : Int) : Prop := -2147483648 ≤ x ∧ x ≤ 2147483647

instance (x : Int) : Decidable (isInt x) := by
  unfold isInt; infer_instance

namespace Matrix

/-- Every element of the grid is a value of the type `int`. -/
def AllInt (M : Matrix) : Prop := ∀ row ∈ M._matrix, ∀ x ∈ row, isInt x

instance (M : Matrix) : Decidable M.AllInt := by
  unfold AllInt; infer_instance

/-- No element of the grid is `INT_MIN`. -/
def NoIntMin (M : Matrix) : Prop := ∀ row ∈ M._matrix, ∀ x ∈ row, x ≠ -2147483648

instance (M : Matrix) : Decidable M.NoIntMin := by
  unfold NoIntMin; infer_instance

/-- The method `Matrix::findDeterminant()` with the arithmetic of `int`: every product,
sum and difference is reduced by `wrapInt`, in the order the source evaluates them. -/
def findDeterminantInt (M : Matrix) (det0 : Int) : Int :=
  if M._size = 1 then
    M.elem 0 0
  else if M._size = 2 then
    wrapInt (wrapInt (M.elem 0 0 * M.elem 1 1) - wrapInt (M.elem 0 1 * M.elem 1 0))
  else if M._size = 3 then
    let term1 := wrapInt (wrapInt (M.elem 0 0 * M.elem 1 1) * M.elem 2 2)
    let term2 := wrapInt (wrapInt (M.elem 0 1 * M.elem 1 2) * M.elem 2 0)
    let term3 := wrapInt (wrapInt (M.elem 0 2 * M.elem 1 0) * M.elem 2 1)
    let term4 := wrapInt (wrapInt (M.elem 0 2 * M.elem 1 1) * M.elem 2 0)
    let term5 := wrapInt (wrapInt (M.elem 0 0 * M.elem 1 2) * M.elem 2 1)
    let term6 := wrapInt (wrapInt (M.elem 0 1 * M.elem 1 0) * M.elem 2 2)
    wrapInt (wrapInt (wrapInt (wrapInt (wrapInt (term1 + term2) + term3) - term4) - term5)
      - term6)
  else
    det0

/-- The body of the two nested loops of `findAdjoint` for size 3, with the arithmetic of
`int`. -/
def findAdjointCellInt (M : Matrix) (junk : Nat → Nat → Int) (det0 : Int)
    (i : Nat) (adj : Matrix) (j : Nat) : Matrix :=
  let submatrix := M.getSubmatrix j i junk
  let adj := adj.put i j (submatrix.findDeterminantInt det0)
  adj.put i j (wrapInt (adj.elem i j * (if (i + j) % 2 = 0 then 1 else -1)))

/-- The method `Matrix::findAdjoint()` with the arithmetic of `int`. -/
def findAdjointInt (M : Matrix) (junk : Nat → Nat → Int) (det0 : Int) : Matrix :=
  let adj := Matrix.new M._size false junk
  if M._size = 2 then
    let adj := adj.put 0 0 (M.elem 1 1)
    let adj := adj.put 0 1 (wrapInt (-1 * M.elem 0 1))
    let adj := adj.put 1 0 (wrapInt (-1 * M.elem 1 0))
    adj.put 1 1 (M.elem 0 0)
  else if M._size = 3 then
    (List.range M._size).foldl
      (fun adj i => (List.range M._size).foldl (findAdjointCellInt M junk det0 i) adj) adj
  else
    adj

/-- The C library `abs` on `int` (exact arithmetic). -/
def cAbs (x : Int) : Int := if x < 0 then -x else x

/-- The loop body of `findMaxMagnitude`: raise `maxVal` to `abs(_matrix[i][j])` when
that is larger. -/
def findMaxMagnitudeCell (M : Matrix) (i : Nat) (maxVal : Int) (j : Nat) : Int :=
  if cAbs (M.elem i j) > maxVal then cAbs (M.elem i j) else maxVal

/-- The method `Matrix::findMaxMagnitude() const`. -/
def findMaxMagnitude (M : Matrix) : Int :=
  (List.range M._size).foldl
    (fun maxVal i => (List.range M._size).foldl (findMaxMagnitudeCell M i) maxVal) 0

/-- The C library `abs` on `int` as the machine computes it: the negation wraps, so
`abs(INT_MIN)` is `INT_MIN`. -/
def cAbsInt (x : Int) : Int := if x < 0 then wrapInt (-x) else x

/-- The loop body of `findMaxMagnitude` with the `abs` of `int`. -/
def findMaxMagnitudeCellInt (M : Matrix) (i : Nat) (maxVal : Int) (j : Nat) : Int :=
  if cAbsInt (M.elem i j) > maxVal then cAbsInt (M.elem i j) else maxVal

/-- The method `Matrix::findMaxMagnitude() const` with the `abs` of `int`. -/
def findMaxMagnitudeInt (M : Matrix) : Int :=
  (List.range M._size).foldl
    (fun maxVal i => (List.range M._size).foldl (findMaxMagnitudeCellInt M i) maxVal) 0

/-- What `findDeterminant` writes on `cerr`: nothing for sizes 1 to 3, the warning of its
last branch otherwise. -/
def findDeterminantCerr (M : Matrix) : List String :=
  if M._size = 1 then []
  else if M._size = 2 then []
  else if M._size = 3 then []
  else ["Warning: stubbornly refusing to find the determinant of a matrix larger than 3x3."]

/-- What `findAdjoint` writes on `cerr`: nothing for sizes 2 and 3, the warning of its
last branch otherwise. -/
def findAdjointCerr (M : Matrix) : List String :=
  if M._size = 2 then []
  else if M._size = 3 then []
  else ["Warning: stubbornly refusing to find the adjoint of a matrix larger than 3x3."]

/-- The three statements `x *= val; x %= mod; if (x < 0) x += mod;` of
`modMultiplyScalar`, as a function of the element `x`. -/
def scalarStep (val mod x : Int) : Int :=
  if cRem (x * val) mod < 0 then cRem (x * val) mod + mod else cRem (x * val) mod

end Matrix

/-- The free store: the `int` arrays obtained from `new int[n]` so far.  A pointer to
an array is its position in this list, so a fresh array never shares storage with an
earlier one. -/
structure Store where
  arrays : List (List Int)
deriving DecidableEq, Repr

namespace Store

/-- The read `p[j]` through the row pointer `p`. -/
def load (s : Store) (p j : Nat) : Int := (s.arrays.getD p []).getD j 0

/-- The write `p[j] = v` through the row pointer `p`. -/
def store (s : Store) (p j : Nat) (v : Int) : Store :=
  ⟨s.arrays.set p ((s.arrays.getD p []).set j v)⟩

/-- The allocation `new int[n]`: a new array, holding whatever it holds, and the
pointer to it. -/
def newArray (s : Store) (n : Nat) (junk : Nat → Int) : Store × Nat :=
  (⟨s.arrays ++ [(List.range n).map junk]⟩, s.arrays.length)

end Store

/-- A `Matrix` object seen with its storage: `_size` and the row pointers
`_matrix[0]`, `_matrix[1]`, ... into the free store. -/
structure MatrixRef where
  _size : Nat
  _matrix : List Nat
deriving DecidableEq, Repr

namespace MatrixRef

/-- The object owns valid storage in `s`: one row pointer per row, each to an array of
`_size` integers. -/
def Valid (o : MatrixRef) (s : Store) : Prop :=
  o._matrix.length = o._size ∧
  ∀ p ∈ o._matrix, p < s.arrays.length ∧ (s.arrays.getD p []).length = o._size

instance (o : MatrixRef) (s : Store) : Decidable (o.Valid s) := by
  unfold Valid; infer_instance

/-- The matrix an object denotes in a store: its size and the rows its pointers lead
to. -/
def value (o : MatrixRef) (s : Store) : Matrix :=
  ⟨o._size, o._matrix.map fun p => s.arrays.getD p []⟩

/-- The inner loop body of the copy constructor:
`this->_matrix[i][j] = other._matrix[i][j]`. -/
def copyCell (other this : MatrixRef) (i : Nat) (s : Store) (j : Nat) : Store :=
  s.store (this._matrix.getD i 0) j (s.load (other._matrix.getD i 0) j)

/-- The outer loop body of the copy constructor: allocate row `i`, then copy its
elements. -/
def copyRow (other : MatrixRef) (junk : Nat → Nat → Int) (st : Store × MatrixRef)
    (i : Nat) : Store × MatrixRef :=
  let a := st.1.newArray st.2._size (junk i)
  let this : MatrixRef := { st.2 with _matrix := st.2._matrix.set i a.2 }
  ((List.range this._size).foldl (copyCell other this i) a.1, this)

/-- The copy constructor `Matrix(const Matrix& other)` run in the store `s`: the store
afterwards and the object constructed.  `junkPtr` is what the fresh `new int*[size]`
holds and `junk` what each fresh `new int[size]` holds. -/
def copy (other : MatrixRef) (s : Store) (junkPtr : Nat → Nat) (junk : Nat → Nat → Int) :
    Store × MatrixRef :=
  let this : MatrixRef := ⟨other._size, (List.range other._size).map junkPtr⟩
  (List.range this._size).foldl (copyRow other junk) (s, this)

/-- The loop body of `modMultiplyScalar` on element `(i, j)`, acting on the storage of
the receiver. -/
def modMultiplyScalarCell (this : MatrixRef) (val mod : Int) (i : Nat) (s : Store)
    (j : Nat) : Store :=
  let p := this._matrix.getD i 0
  let s := s.store p j (s.load p j * val)
  let s := s.store p j (cRem (s.load p j) mod)
  if s.load p j < 0 then s.store p j (s.load p j + mod) else s

/-- The method `Matrix::modMultiplyScalar(int val, int mod)` acting on the storage of
the receiver: the store after the call. -/
def modMultiplyScalar (this : MatrixRef) (s : Store) (val mod : Int) : Store :=
  (List.range this._size).foldl
    (fun s i => (List.range this._size).foldl (modMultiplyScalarCell this val mod i) s) s

end MatrixRef

namespace Matrix

/-- The decimal text `os << x` writes for an `int` (default flags, "C" locale): the
digits of the magnitude, after a `-` when negative. -/
def intText (x : Int) : List Char :=
  if x < 0 then '-' :: Nat.toDigits 10 x.natAbs else Nat.toDigits 10 x.natAbs

/-- The output of `os << right << setw(w) << x`: the text of `x` after enough spaces to
fill `w` characters; a longer text is written whole. -/
def putField (w : Nat) (x : Int) : List Char :=
  List.replicate (w - (intText x).length) ' ' ++ intText x

/-- The outer loop body of `operator<<`: the fields of row `i`, then `endl`. -/
def printRow (m : Matrix) (fieldWidth : Nat) (os : List Char) (i : Nat) : List Char :=
  (List.range m._size).foldl (fun os j => os ++ putField fieldWidth (m.elem i j)) os
    ++ ['\n']

/-- The function `operator<<(ostream& os, const Matrix& m)`: the characters on `os`
after the call, `os` being those written before.  The maximum is the one the machine
computes, with the `abs` of `int`. -/
def operator_out (os : List Char) (m : Matrix) : List Char :=
  let maxVal := m.findMaxMagnitudeInt
  let maxValString := intText maxVal
  let extraSpace := 2
  let fieldWidth := extraSpace + maxValString.length
  (List.range m._size).foldl (printRow m fieldWidth) os

/-- The white space of the "C" locale: space, `\t`, `\n`, `\v`, `\f`, `\r`. -/
def isSpace (c : Char) : Bool := c.toNat = 32 || (9 ≤ c.toNat && c.toNat ≤ 13)

/-- The extraction `inFile >> line` into a `std::string`: leading white space is
skipped and the characters up to the next white space are taken.  The result is the
string read (empty when the stream is exhausted, as `line` was set to `""`) and the rest
of the stream. -/
def extractString (inFile : List Char) : List Char × List Char :=
  let rest := inFile.dropWhile isSpace
  (rest.takeWhile (fun c => !isSpace c), rest.dropWhile (fun c => !isSpace c))

/-- The value of a decimal digit character. -/
def digitValue (c : Char) : Nat := c.toNat - 48

/-- The value of a run of decimal digits, most significant first. -/
def digitsValue (ds : List Char) : Nat := ds.foldl (fun a c => 10 * a + digitValue c) 0

/-- The digits of an `int` extraction, after the sign: the longest run of decimal
digits.  The extraction fails when there is none, and when the number read is not in the
range of `int` (the stream then sets `failbit` and the loop around it stores nothing). -/
def extractDigits (negative : Bool) (ss : List Char) : Option (Int × List Char) :=
  let digits := ss.takeWhile Char.isDigit
  if digits = [] then none
  else
    let magnitude : Int := digitsValue digits
    let num := if negative then -magnitude else magnitude
    if isInt num then some (num, ss.dropWhile Char.isDigit) else none

/-- The extraction `ss >> num` into an `int`: leading white space is skipped, then an
optional sign and decimal digits are read.  The result is `none` when the extraction
fails, otherwise the number and the rest of the stream. -/
def extractInt (ss : List Char) : Option (Int × List Char) :=
  match ss.dropWhile isSpace with
  | '-' :: rest => extractDigits true rest
  | '+' :: rest => extractDigits false rest
  | rest => extractDigits false rest

/-- The loop `while (ss >> num) { _matrix[i][j] = num; j++; if (ss.peek() == ',')
ss.ignore(); }` of the text constructor.  Every iteration consumes at least one
character, so `fuel` above the length of `ss` never runs out. -/
def parseLine (i : Nat) : Nat → Matrix → Nat → List Char → Matrix
  | 0, M, _, _ => M
  | fuel + 1, M, j, ss =>
    match extractInt ss with
    | none => M
    | some (num, rest) =>
      parseLine i fuel (M.put i j num) (j + 1)
        (if rest.head? = some ',' then rest.tail else rest)

/-- The second loop body of the text constructor: read one string from the file and
parse it into row `i`. -/
def newFromFileRow (st : Matrix × List Char) (i : Nat) : Matrix × List Char :=
  let r := extractString st.2
  (parseLine i (r.1.length + 1) st.1 0 r.1, r.2)

/-- The constructor `Matrix(ifstream& inFile, int size)`: the matrix constructed and the
rest of the file.  The first loop allocates the rows, the second fills them. -/
def newFromFile (inFile : List Char) (size : Nat) (junk : Nat → Nat → Int) :
    Matrix × List Char :=
  let this : Matrix := ⟨size, (List.range size).map fun i => allocRow size i junk⟩
  (List.range size).foldl newFromFileRow (this, inFile)

/-- The integers `xs` stored into row `i` from column `j` on, one write each. -/
def putRow (i : Nat) : Matrix → Nat → List Int → Matrix
  | M, _, [] => M
  | M, j, x :: xs => putRow i (M.put i j x) (j + 1) xs

/-- The texts `ts` written one after the other with the character `sep` between
neighbours and nothing else: `1,2,3` for the texts `1`, `2`, `3` and a comma. -/
def joinWith (sep : Char) : List (List Char) → List Char
  | [] => []
  | [t] => t
  | t :: u :: ts => t ++ sep :: joinWith sep (u :: ts)

/-- The integer a text denotes as a decimal integer: an optional sign `+` or `-`
followed by one or more decimal digits and nothing else; `none` for any other text. -/
def decimalValue : List Char → Option Int
  | '-' :: ds =>
    if ds ≠ [] ∧ ds.all Char.isDigit = true then some (-(digitsValue ds : Int)) else none
  | '+' :: ds =>
    if ds ≠ [] ∧ ds.all Char.isDigit = true then some (digitsValue ds : Int) else none
  | ds =>
    if ds ≠ [] ∧ ds.all Char.isDigit = true then some (digitsValue ds : Int) else none

/-- A text is a decimal integer in the range of `int`. -/
def isIntText (t : List Char) : Prop :=
  match decimalValue t with
  | some x => isInt x
  | none => False

instance (t : List Char) : Decidable (isIntText t) := by
  unfold isIntText
  split <;> infer_instance

/-- The integer a decimal text denotes, `0` for any other text. -/
def tokenValue (t : List Char) : Int := (decimalValue t).getD 0

end Matrix

namespace MatrixRef

/-- The loop body of the constructor `Matrix(int size, bool identity)` on the store:
row `i` is allocated and, when `identity` holds, filled with `(i == j ? 1 : 0)`. -/
def newRow (identity : Bool) (junk : Nat → Nat → Int) (st : Store × MatrixRef) (i : Nat) :
    Store × MatrixRef :=
  let a := st.1.newArray st.2._size (junk i)
  let this : MatrixRef := { st.2 with _matrix := st.2._matrix.set i a.2 }
  (if identity then
      (List.range this._size).foldl
        (fun s j => s.store (this._matrix.getD i 0) j (if i = j then 1 else 0)) a.1
    else a.1, this)

/-- The constructor `Matrix(int size, bool identity)` run in the store `s`: the store
afterwards and the object constructed. -/
def new (size : Nat) (identity : Bool) (s : Store) (junkPtr : Nat → Nat)
    (junk : Nat → Nat → Int) : Store × MatrixRef :=
  (List.range size).foldl (newRow identity junk)
    (s, ⟨size, (List.range size).map junkPtr⟩)

/-- The loop body of `operator+`:
`pSumMatrix->_matrix[i][j] = (m1._matrix[i][j] + m2._matrix[i][j])`, an `int` sum. -/
def operator_plusCell (m1 m2 pSumMatrix : MatrixRef) (i : Nat) (s : Store) (j : Nat) :
    Store :=
  s.store (pSumMatrix._matrix.getD i 0) j
    (wrapInt (s.load (m1._matrix.getD i 0) j + s.load (m2._matrix.getD i 0) j))

/-- The function `operator+(const Matrix& m1, const Matrix& m2)` run in the store `s`,
with the arithmetic of `int`: the store afterwards and the matrix returned. -/
def operator_plus (m1 m2 : MatrixRef) (s : Store) (junkPtr : Nat → Nat)
    (junk : Nat → Nat → Int) : Store × MatrixRef :=
  let n := m1._size
  let a := MatrixRef.new n false s junkPtr junk
  ((List.range n).foldl
    (fun s i => (List.range n).foldl (operator_plusCell m1 m2 a.2 i) s) a.1, a.2)

/-- The loop body of `operator-`:
`pDifferenceMatrix->_matrix[i][j] = (m1._matrix[i][j] - m2._matrix[i][j])`. -/
def operator_minusCell (m1 m2 pDifferenceMatrix : MatrixRef) (i : Nat) (s : Store)
    (j : Nat) : Store :=
  s.store (pDifferenceMatrix._matrix.getD i 0) j
    (wrapInt (s.load (m1._matrix.getD i 0) j - s.load (m2._matrix.getD i 0) j))

/-- The function `operator-(const Matrix& m1, const Matrix& m2)` run in the store `s`,
with the arithmetic of `int`. -/
def operator_minus (m1 m2 : MatrixRef) (s : Store) (junkPtr : Nat → Nat)
    (junk : Nat → Nat → Int) : Store × MatrixRef :=
  let n := m1._size
  let a := MatrixRef.new n false s junkPtr junk
  ((List.range n).foldl
    (fun s i => (List.range n).foldl (operator_minusCell m1 m2 a.2 i) s) a.1, a.2)

end MatrixRef

namespace Matrix

end Matrix

/-- The C++ remainder operator on `int` as the machine executes it: the division
instruction traps on a zero divisor and on `INT_MIN % -1`, and the program ends there
(`none`); otherwise the remainder of the truncated division. -/
def cRemTrap (a b : Int) : Option Int :=
  if b = 0 then none
  else if a = -2147483648 ∧ b = -1 then none
  else some (Int.tmod a b)

namespace Matrix

/-- The loop body of `modMultiplyScalar` on element `(i, j)` with the arithmetic of
`int`: `*= val` wraps, `%= mod` may trap, `+= mod` wraps. -/
def modMultiplyScalarCellInt (val mod : Int) (i : Nat) (M : Matrix) (j : Nat) :
    Option Matrix :=
  let M := M.put i j (wrapInt (M.elem i j * val))
  match cRemTrap (M.elem i j) mod with
  | none => none
  | some r =>
    let M := M.put i j r
    some (if M.elem i j < 0 then M.put i j (wrapInt (M.elem i j + mod)) else M)

/-- The method `Matrix::modMultiplyScalar(int val, int mod)` with the arithmetic of
`int`: the receiver after the call, or `none` when the call does not return. -/
def modMultiplyScalarInt (M : Matrix) (val mod : Int) : Option Matrix :=
  (List.range M._size).foldlM
    (fun M i => (List.range M._size).foldlM (modMultiplyScalarCellInt val mod i) M) M

end Matrix

end HillCipher

/-! ## Lemmas on the grid, the loops and the remainder -/

namespace HillCipher
namespace Matrix

theorem put_size (M : Matrix) (i j : Nat) (v : Int) : (M.put i j v)._size = M._size := rfl

theorem row_length {M : Matrix} (h : M.WF) {i : Nat} (hi : i < M._size) :
    (M._matrix.getD i []).length = M._size := by
  obtain ⟨h1, h2⟩ := h
  rw [List.getD_eq_getElem _ _ (by omega)]
  exact h2 _ (List.getElem_mem _)

theorem put_WF {M : Matrix} (h : M.WF) (i j : Nat) (v : Int) : (M.put i j v).WF := by
  have h1 := h.1
  have h2 := h.2
  refine ⟨by simp [put, h1], ?_⟩
  intro row hrow
  simp only [put] at hrow ⊢
  rcases List.mem_or_eq_of_mem_set hrow with h3 | h3
  · exact h2 row h3
  · subst h3
    rw [List.length_set]
    by_cases hi : i < M._size
    · exact row_length h hi
    · rw [List.set_eq_of_length_le (by omega)] at hrow
      have := h2 _ hrow
      rwa [List.length_set] at this

theorem elem_put {M : Matrix} (h : M.WF) {i j : Nat} (hi : i < M._size) (hj : j < M._size)
    (v : Int) (r c : Nat) :
    (M.put i j v).elem r c = if r = i ∧ c = j then v else M.elem r c := by
  have hrow := row_length h hi
  have h1 := h.1
  simp only [elem, put, List.getD_eq_getElem?_getD, List.getElem?_set] at hrow ⊢
  by_cases e1 : i = r
  · subst e1
    simp only [h1, hi, if_true, Option.getD_some, List.getElem?_set, true_and, hrow]
    by_cases e2 : j = c
    · subst e2
      simp [hj]
    · have : ¬ c = j := fun h => e2 h.symm
      simp [e2, this]
  · have : ¬ r = i := fun h => e1 h.symm
    simp [e1, this]

theorem new_size (size : Nat) (identity : Bool) (junk : Nat → Nat → Int) :
    (Matrix.new size identity junk)._size = size := rfl

theorem set_fold_length (i : Nat) (row : List Int) (k : Nat) :
    ((List.range k).foldl (fun row j => row.set j (if i = j then (1 : Int) else 0)) row).length
      = row.length := by
  induction k with
  | zero => simp
  | succ k ih => simp [List.range_succ, List.foldl_append, ih]

theorem new_WF (size : Nat) (identity : Bool) (junk : Nat → Nat → Int) :
    (Matrix.new size identity junk).WF := by
  refine ⟨by simp [Matrix.new], ?_⟩
  intro row hrow
  simp only [Matrix.new, List.mem_map, List.mem_range] at hrow
  obtain ⟨i, _, rfl⟩ := hrow
  cases identity
  · simp [allocRow, new_size]
  · simp [allocRow, set_fold_length, new_size]

theorem ext_elem {A B : Matrix} (hA : A.WF) (hB : B.WF) (hs : A._size = B._size)
    (h : ∀ i j, i < A._size → j < A._size → A.elem i j = B.elem i j) : A = B := by
  obtain ⟨n, ga⟩ := A
  obtain ⟨m, gb⟩ := B
  simp only at hs
  subst hs
  obtain ⟨a1, a2⟩ := hA
  obtain ⟨b1, b2⟩ := hB
  simp only at a1 a2 b1 b2 h
  congr 1
  apply List.ext_getElem (by omega)
  intro i h1 h2
  apply List.ext_getElem
  · rw [a2 _ (List.getElem_mem _), b2 _ (List.getElem_mem _)]
  intro j h3 h4
  have hi : i < n := by omega
  have hj : j < n := by
    have := a2 _ (List.getElem_mem h1); omega
  have := h i j hi hj
  simpa [elem, List.getD_eq_getElem?_getD, List.getElem?_eq_getElem, h1, h2, h3, h4] using this

theorem inner_loop {n : Nat} {cell : Nat → Matrix → Nat → Matrix}
    {g : Nat → Nat → Int → Int} (hc : CellUpdate n cell g) {A : Matrix} (hA : A.WF)
    (hs : A._size = n) {i : Nat} (hi : i < n) (k : Nat) (hk : k ≤ n) :
    ((List.range k).foldl (cell i) A).WF ∧ ((List.range k).foldl (cell i) A)._size = n ∧
    ∀ r c, ((List.range k).foldl (cell i) A).elem r c
      = if r = i ∧ c < k then g i c (A.elem i c) else A.elem r c := by
  induction k with
  | zero => simp [hA, hs]
  | succ k ih =>
    obtain ⟨w, s, e⟩ := ih (by omega)
    rw [List.range_succ, List.foldl_append]
    simp only [List.foldl_cons, List.foldl_nil]
    obtain ⟨w2, s2, e2⟩ := hc _ i k w s hi (by omega)
    refine ⟨w2, s2, ?_⟩
    intro r c
    rw [e2, e, e]
    by_cases h1 : r = i
    · by_cases h2 : c = k
      · subst h1; subst h2; simp
      · have h3 : c < k + 1 ↔ c < k := by omega
        simp [h1, h2, h3]
    · simp [h1]

theorem outer_loop {n : Nat} {cell : Nat → Matrix → Nat → Matrix}
    {g : Nat → Nat → Int → Int} (hc : CellUpdate n cell g) {A : Matrix} (hA : A.WF)
    (hs : A._size = n) (k : Nat) (hk : k ≤ n) :
    ((List.range k).foldl (fun B i => (List.range n).foldl (cell i) B) A).WF ∧
    ((List.range k).foldl (fun B i => (List.range n).foldl (cell i) B) A)._size = n ∧
    ∀ r c, ((List.range k).foldl (fun B i => (List.range n).foldl (cell i) B) A).elem r c
      = if r < k ∧ c < n then g r c (A.elem r c) else A.elem r c := by
  induction k with
  | zero => simp [hA, hs]
  | succ k ih =>
    obtain ⟨w, s, e⟩ := ih (by omega)
    rw [List.range_succ, List.foldl_append]
    simp only [List.foldl_cons, List.foldl_nil]
    obtain ⟨w2, s2, e2⟩ := inner_loop hc w s (show k < n by omega) n (le_refl n)
    refine ⟨w2, s2, ?_⟩
    intro r c
    rw [e2, e, e]
    by_cases h1 : r = k
    · subst h1; simp
    · by_cases h2 : r < k
      · have h3 : r < k + 1 := by omega
        simp [h1, h2, h3]
      · have h3 : ¬ r < k + 1 := by omega
        simp [h1, h2, h3]

/-- Two nested counting loops over a well-formed matrix of size `n` whose body rewrites
element `(i, j)`: every element is rewritten once, from its original value. -/
theorem nested_loop {n : Nat} {cell : Nat → Matrix → Nat → Matrix}
    {g : Nat → Nat → Int → Int} (hc : CellUpdate n cell g) {A : Matrix} (hA : A.WF)
    (hs : A._size = n) :
    ((List.range n).foldl (fun B i => (List.range n).foldl (cell i) B) A).WF ∧
    ((List.range n).foldl (fun B i => (List.range n).foldl (cell i) B) A)._size = n ∧
    ∀ r c, r < n → c < n →
      ((List.range n).foldl (fun B i => (List.range n).foldl (cell i) B) A).elem r c
        = g r c (A.elem r c) := by
  obtain ⟨w, s, e⟩ := outer_loop hc hA hs n (le_refl n)
  refine ⟨w, s, ?_⟩
  intro r c hr hcn
  rw [e]; simp [hr, hcn]

theorem getSubmatrix_cols (M : Matrix) {n : Nat} (j : Nat) (hj : j < n)
    (thisRow subRow : Nat) (hsr : subRow < n - 1) {sub0 : Matrix} (hw : sub0.WF)
    (hs : sub0._size = n - 1) (k : Nat) (hk : k ≤ n) :
    ((List.range k).foldl (getSubmatrixCol M (j : Int) thisRow subRow) (sub0, 0)).2
        = k - (if j < k then 1 else 0) ∧
    ((List.range k).foldl (getSubmatrixCol M (j : Int) thisRow subRow) (sub0, 0)).1.WF ∧
    ((List.range k).foldl (getSubmatrixCol M (j : Int) thisRow subRow) (sub0, 0)).1._size
        = n - 1 ∧
    ∀ r c, ((List.range k).foldl (getSubmatrixCol M (j : Int) thisRow subRow) (sub0, 0)).1.elem r c
      = if r = subRow ∧ c < k - (if j < k then 1 else 0)
        then M.elem thisRow (skipIdx j c) else sub0.elem r c := by
  induction k with
  | zero => simp [hw, hs]
  | succ k ih =>
    obtain ⟨c1, w, s, e⟩ := ih (by omega)
    rw [List.range_succ, List.foldl_append]
    simp only [List.foldl_cons, List.foldl_nil]
    generalize (List.range k).foldl (getSubmatrixCol M (j : Int) thisRow subRow) (sub0, 0) = st
      at c1 w s e
    obtain ⟨S, sc⟩ := st
    simp only at c1 w s e
    unfold getSubmatrixCol
    by_cases hkj : k = j
    · subst hkj
      simp only [if_true]
      refine ⟨by rw [c1]; simp, w, s, ?_⟩
      intro r c
      rw [e]
      simp
    · have hkj2 : ¬ ((k : Int) = (j : Int)) := by exact_mod_cast hkj
      simp only [hkj2, if_false]
      have hsc : sc < n - 1 := by
        rw [c1]; split <;> omega
      refine ⟨?_, put_WF w _ _ _, by rw [put_size]; exact s, ?_⟩
      · rw [c1]; split <;> split <;> omega
      · intro r c
        rw [elem_put w (by omega) (by omega), e]
        by_cases hr : r = subRow
        · by_cases hc : c = sc
          · subst hr; subst hc
            have : c < k + 1 - (if j < k + 1 then 1 else 0) := by
              rw [c1]; split <;> split <;> omega
            simp only [true_and, this, if_true]
            congr 1
            unfold skipIdx
            rw [c1]; split <;> split <;> omega
          · have h3 : c < k + 1 - (if j < k + 1 then 1 else 0) ↔
                c < k - (if j < k then 1 else 0) := by
              rw [c1] at hc
              split <;> split <;> split at hc <;> omega
            simp only [hr, hc, and_false, if_false, true_and, h3]
        · simp [hr]

theorem getSubmatrix_rows (M : Matrix) {n : Nat} (hn : M._size = n) (i j : Nat) (hi : i < n)
    (hj : j < n) {sub0 : Matrix} (hw : sub0.WF) (hs : sub0._size = n - 1) (k : Nat)
    (hk : k ≤ n) :
    ((List.range k).foldl (getSubmatrixRow M (i : Int) (j : Int)) (sub0, 0)).2
        = k - (if i < k then 1 else 0) ∧
    ((List.range k).foldl (getSubmatrixRow M (i : Int) (j : Int)) (sub0, 0)).1.WF ∧
    ((List.range k).foldl (getSubmatrixRow M (i : Int) (j : Int)) (sub0, 0)).1._size
        = n - 1 ∧
    ∀ r c, ((List.range k).foldl (getSubmatrixRow M (i : Int) (j : Int)) (sub0, 0)).1.elem r c
      = if r < k - (if i < k then 1 else 0) ∧ c < n - 1
        then M.elem (skipIdx i r) (skipIdx j c) else sub0.elem r c := by
  induction k with
  | zero => simp [hw, hs]
  | succ k ih =>
    obtain ⟨c1, w, s, e⟩ := ih (by omega)
    rw [List.range_succ, List.foldl_append]
    simp only [List.foldl_cons, List.foldl_nil]
    generalize (List.range k).foldl (getSubmatrixRow M (i : Int) (j : Int)) (sub0, 0) = st
      at c1 w s e
    obtain ⟨S, sr⟩ := st
    simp only at c1 w s e
    unfold getSubmatrixRow
    by_cases hki : k = i
    · subst hki
      simp only [if_true]
      refine ⟨by rw [c1]; simp, w, s, ?_⟩
      intro r c
      rw [e]
      simp
    · have hki2 : ¬ ((k : Int) = (i : Int)) := by exact_mod_cast hki
      simp only [hki2, if_false]
      have hsr : sr < n - 1 := by
        rw [c1]; split <;> omega
      obtain ⟨d1, w2, s2, e2⟩ := getSubmatrix_cols M j hj k sr hsr w s n (le_refl n)
      rw [hn]
      refine ⟨?_, w2, s2, ?_⟩
      · rw [c1]; split <;> split <;> omega
      · intro r c
        rw [e2, e]
        have hjn : n - (if j < n then 1 else 0) = n - 1 := by simp [hj]
        rw [hjn]
        by_cases hr : r = sr
        · by_cases hc : c < n - 1
          · subst hr
            have : r < k + 1 - (if i < k + 1 then 1 else 0) := by
              rw [c1]; split <;> split <;> omega
            simp only [true_and, this, if_true, hc]
            congr 1
            unfold skipIdx
            rw [c1]; split <;> split <;> omega
          · simp [hc]
        · have h3 : r < k + 1 - (if i < k + 1 then 1 else 0) ↔
              r < k - (if i < k then 1 else 0) := by
            rw [c1] at hr
            split <;> split <;> split at hr <;> omega
          simp only [hr, false_and, if_false, h3]

/-- The result of `getSubmatrix` on a well-formed matrix, rows and columns given as
natural numbers. -/
theorem getSubmatrix_nat {M : Matrix} {n : Nat} (hn : M._size = n) {i j : Nat}
    (hi : i < n) (hj : j < n) (junk : Nat → Nat → Int) :
    (M.getSubmatrix (i : Int) (j : Int) junk)._size = n - 1 ∧
    (M.getSubmatrix (i : Int) (j : Int) junk).WF ∧
    ∀ r c, r < n - 1 → c < n - 1 →
      (M.getSubmatrix (i : Int) (j : Int) junk).elem r c
        = M.elem (skipIdx i r) (skipIdx j c) := by
  unfold getSubmatrix
  simp only [hn]
  obtain ⟨_, w, s, e⟩ := getSubmatrix_rows M hn i j hi hj
    (new_WF (n - 1) false junk) (new_size (n - 1) false junk) n (le_refl n)
  refine ⟨s, w, ?_⟩
  intro r c hr hc
  rw [e]
  simp [hi, hr, hc]

/-- For size 3 the loop body of `findAdjoint` writes the signed minor into element
`(i, j)` and nothing else. -/
theorem findAdjointCell_update (M : Matrix) (junk : Nat → Nat → Int) (det0 : Int) :
    CellUpdate 3 (findAdjointCell M junk det0)
      (fun i j _ => (M.getSubmatrix (j : Int) (i : Int) junk).findDeterminant det0
        * (if (i + j) % 2 = 0 then 1 else -1)) := by
  intro A i j hA hs hi hj
  unfold findAdjointCell
  have w1 : (A.put i j ((M.getSubmatrix (j : Int) (i : Int) junk).findDeterminant det0)).WF :=
    put_WF hA _ _ _
  refine ⟨put_WF w1 _ _ _, by simp [put_size, hs], ?_⟩
  intro r c
  rw [elem_put w1 (by simp [put_size, hs, hi]) (by simp [put_size, hs, hj]),
    elem_put hA (by omega) (by omega), elem_put hA (by omega) (by omega)]
  by_cases h : r = i ∧ c = j <;> simp [h]

theorem findAdjoint_three {M : Matrix} (hs : M._size = 3) (junk : Nat → Nat → Int)
    (det0 : Int) :
    (M.findAdjoint junk det0)._size = 3 ∧ (M.findAdjoint junk det0).WF ∧
    ∀ i j, i < 3 → j < 3 → (M.findAdjoint junk det0).elem i j
      = (M.getSubmatrix (j : Int) (i : Int) junk).findDeterminant det0
        * (if (i + j) % 2 = 0 then 1 else -1) := by
  unfold findAdjoint
  simp only [hs]
  simp only [show ¬ (3 = 2) by decide, if_false, if_true]
  obtain ⟨w, s, e⟩ := nested_loop (findAdjointCell_update M junk det0)
    (new_WF 3 false junk) (new_size 3 false junk)
  exact ⟨s, w, e⟩

/-- The determinant of a submatrix of a 3x3 matrix, in the elements of that matrix. -/
theorem minor_three {M : Matrix} (hs : M._size = 3) {i j : Nat} (hi : i < 3) (hj : j < 3)
    (junk : Nat → Nat → Int) (det0 : Int) :
    (M.getSubmatrix (i : Int) (j : Int) junk).findDeterminant det0
      = M.elem (skipIdx i 0) (skipIdx j 0) * M.elem (skipIdx i 1) (skipIdx j 1)
        - M.elem (skipIdx i 0) (skipIdx j 1) * M.elem (skipIdx i 1) (skipIdx j 0) := by
  obtain ⟨s, _, e⟩ := getSubmatrix_nat hs hi hj junk
  unfold findDeterminant
  rw [s]
  simp only [show ¬ (3 - 1 = 1) by decide, show 3 - 1 = 2 by decide, if_false, if_true]
  rw [e 0 0 (by decide) (by decide), e 1 1 (by decide) (by decide),
    e 0 1 (by decide) (by decide), e 1 0 (by decide) (by decide)]

theorem findAdjoint_two {M : Matrix} (hs : M._size = 2) (junk : Nat → Nat → Int)
    (det0 : Int) :
    (M.findAdjoint junk det0)._size = 2 ∧ (M.findAdjoint junk det0).WF ∧
    (M.findAdjoint junk det0).elem 0 0 = M.elem 1 1 ∧
    (M.findAdjoint junk det0).elem 0 1 = - M.elem 0 1 ∧
    (M.findAdjoint junk det0).elem 1 0 = - M.elem 1 0 ∧
    (M.findAdjoint junk det0).elem 1 1 = M.elem 0 0 := by
  unfold findAdjoint
  simp only [hs, if_true]
  have w0 := new_WF 2 false junk
  have w1 := put_WF w0 0 0 (M.elem 1 1)
  have w2 := put_WF w1 0 1 (-1 * M.elem 0 1)
  have w3 := put_WF w2 1 0 (-1 * M.elem 1 0)
  have w4 := put_WF w3 1 1 (M.elem 0 0)
  have s0 := new_size 2 false junk
  refine ⟨by simp [put_size, s0], w4, ?_, ?_, ?_, ?_⟩ <;>
  · rw [elem_put w3 (by simp [put_size, s0]) (by simp [put_size, s0]),
      elem_put w2 (by simp [put_size, s0]) (by simp [put_size, s0]),
      elem_put w1 (by simp [put_size, s0]) (by simp [put_size, s0]),
      elem_put w0 (by simp [s0]) (by simp [s0])]
    simp

end Matrix
end HillCipher

namespace HillCipher

/-- The remainder of the source followed by its repair `if (x < 0) x += mod`: for a
positive modulus this is the mathematical (non-negative) remainder. -/
theorem cRem_normalised (s m : Int) (hm : 0 < m) :
    (if cRem s m < 0 then cRem s m + m else cRem s m) = s % m := by
  unfold cRem
  have hlt := Int.tmod_lt_of_pos s hm
  have hgt : -m < s.tmod m := by
    rcases le_or_lt 0 s with h | h
    · have := Int.tmod_nonneg m h
      omega
    · have h1 : (-s).tmod m < m := Int.tmod_lt_of_pos (-s) hm
      have h2 : (-s).tmod m = -(s.tmod m) := by
        rw [Int.tmod_def, Int.tmod_def, Int.neg_tdiv]
        ring
      omega
  have hd := Int.tmod_add_tdiv s m
  have e1 : s % m = (s.tmod m) % m := by
    conv_lhs => rw [← hd]
    exact Int.add_mul_emod_self_left _ _ _
  split
  · rw [e1, ← Int.add_emod_self (a := s.tmod m) (b := m)]
    exact (Int.emod_eq_of_lt (by omega) (by omega)).symm
  · rw [e1]
    exact (Int.emod_eq_of_lt (by omega) (by omega)).symm

namespace Matrix

theorem getD_set (l : List Int) (i r : Nat) (x : Int) :
    (l.set i x).getD r 0 = if r = i ∧ i < l.length then x else l.getD r 0 := by
  rw [List.getD_eq_getElem?_getD, List.getElem?_set, List.getD_eq_getElem?_getD]
  by_cases h : i = r
  · subst h
    by_cases h2 : i < l.length
    · simp [h2]
    · simp [h2, List.getElem?_eq_none (not_lt.mp h2)]
  · have h2 : ¬ r = i := fun x => h x.symm
    simp [h, h2]

theorem modMultiplyVector_acc (M : Matrix) (arr : List Int) (i : Nat) (result : List Int)
    (hi : i < result.length) (k : Nat) :
    ((List.range k).foldl (modMultiplyVectorAcc M arr i) result).length = result.length ∧
    ∀ r, ((List.range k).foldl (modMultiplyVectorAcc M arr i) result).getD r 0
      = if r = i then result.getD i 0 + ∑ j in Finset.range k, M.elem i j * arr.getD j 0
        else result.getD r 0 := by
  induction k with
  | zero =>
    refine ⟨by simp, ?_⟩
    intro r
    by_cases h : r = i <;> simp [h]
  | succ k ih =>
    obtain ⟨l, e⟩ := ih
    rw [List.range_succ, List.foldl_append]
    simp only [List.foldl_cons, List.foldl_nil]
    generalize (List.range k).foldl (modMultiplyVectorAcc M arr i) result = acc at l e ⊢
    unfold modMultiplyVectorAcc
    refine ⟨by rw [List.length_set, l], ?_⟩
    intro r
    rw [getD_set, l, e, e]
    by_cases h : r = i
    · subst h
      simp [hi, Finset.sum_range_succ]
      ring
    · simp [h]

/-- The value the source leaves in `result[i]`. -/
theorem modMultiplyVector_row (M : Matrix) (arr : List Int) (mod : Int) (hm : 0 < mod)
    (i : Nat) (result : List Int) (hi : i < result.length) :
    (modMultiplyVectorRow M arr mod result i).length = result.length ∧
    ∀ r, (modMultiplyVectorRow M arr mod result i).getD r 0
      = if r = i then (∑ j in Finset.range M._size, M.elem i j * arr.getD j 0) % mod
        else result.getD r 0 := by
  simp only [modMultiplyVectorRow]
  have hi0 : i < (result.set i 0).length := by rw [List.length_set]; exact hi
  obtain ⟨l, e⟩ := modMultiplyVector_acc M arr i (result.set i 0) hi0 M._size
  generalize (List.range M._size).foldl (modMultiplyVectorAcc M arr i) (result.set i 0) = acc
    at l e ⊢
  rw [List.length_set] at l
  have ei : acc.getD i 0 = ∑ j in Finset.range M._size, M.elem i j * arr.getD j 0 := by
    rw [e, getD_set]; simp [hi]
  have hl : i < acc.length := by rw [l]; exact hi
  have g1 : ∀ (x : Int) (r : Nat),
      (acc.set i x).getD r 0 = if r = i then x else result.getD r 0 := by
    intro x r
    rw [getD_set, e]
    simp only [getD_set]
    by_cases h : r = i
    · simp [h, hl]
    · simp only [h, false_and, if_false]
  have key := cRem_normalised (acc.getD i 0) mod hm
  rw [ei] at key
  simp only [g1, if_true, ei]
  split
  · rename_i hneg
    refine ⟨by simp [List.length_set, l], ?_⟩
    intro r
    rw [List.set_set, g1]
    rw [if_pos hneg] at key
    rw [key]
  · rename_i hneg
    refine ⟨by simp [List.length_set, l], ?_⟩
    intro r
    rw [g1]
    rw [if_neg hneg] at key
    rw [key]

theorem modMultiplyVector_rows (M : Matrix) (arr : List Int) (mod : Int) (hm : 0 < mod)
    (result : List Int) (k : Nat) (hk : k ≤ result.length) :
    ((List.range k).foldl (modMultiplyVectorRow M arr mod) result).length = result.length ∧
    ∀ r, ((List.range k).foldl (modMultiplyVectorRow M arr mod) result).getD r 0
      = if r < k then (∑ j in Finset.range M._size, M.elem r j * arr.getD j 0) % mod
        else result.getD r 0 := by
  induction k with
  | zero => simp
  | succ k ih =>
    obtain ⟨l, e⟩ := ih (by omega)
    rw [List.range_succ, List.foldl_append]
    simp only [List.foldl_cons, List.foldl_nil]
    obtain ⟨l2, e2⟩ := modMultiplyVector_row M arr mod hm k _ (show k < _ by rw [l]; omega)
    refine ⟨by rw [l2, l], ?_⟩
    intro r
    rw [e2, e]
    by_cases h : r = k
    · subst h; simp
    · by_cases h2 : r < k
      · have h3 : r < k + 1 := by omega
        simp [h, h2, h3]
      · have h3 : ¬ r < k + 1 := by omega
        simp [h, h2, h3]

theorem modMultiplyVector_entries (M : Matrix) (arr : List Int) (mod : Int) (hm : 0 < mod)
    (junk : Nat → Int) :
    (M.modMultiplyVector arr mod junk).length = M._size ∧
    ∀ i, i < M._size → (M.modMultiplyVector arr mod junk).getD i 0
      = (∑ j in Finset.range M._size, M.elem i j * arr.getD j 0) % mod := by
  unfold modMultiplyVector
  obtain ⟨l, e⟩ := modMultiplyVector_rows M arr mod hm ((List.range M._size).map junk)
    M._size (by simp)
  refine ⟨by simpa using l, ?_⟩
  intro i hi
  simp only
  rw [e]; simp [hi]

/-- The loop body of `modMultiplyScalar` rewrites element `(i, j)` to the non-negative
remainder of its product with `val`. -/
theorem modMultiplyScalarCell_update (n : Nat) (val mod : Int) (hm : 0 < mod) :
    CellUpdate n (modMultiplyScalarCell val mod) (fun _ _ old => (old * val) % mod) := by
  intro A i j hA hs hi hj
  simp only [modMultiplyScalarCell]
  have hi2 : i < A._size := by omega
  have hj2 : j < A._size := by omega
  have w1 := put_WF hA i j (A.elem i j * val)
  have e1 := elem_put hA hi2 hj2 (A.elem i j * val)
  have w2 := put_WF w1 i j (cRem ((A.put i j (A.elem i j * val)).elem i j) mod)
  have e2 := elem_put w1 (show i < (A.put i j (A.elem i j * val))._size from hi2)
    (show j < (A.put i j (A.elem i j * val))._size from hj2)
    (cRem ((A.put i j (A.elem i j * val)).elem i j) mod)
  have key := cRem_normalised (A.elem i j * val) mod hm
  have e1s : (A.put i j (A.elem i j * val)).elem i j = A.elem i j * val := by
    rw [e1]; simp
  rw [e1s] at e2 w2 ⊢
  have e2s : ((A.put i j (A.elem i j * val)).put i j (cRem (A.elem i j * val) mod)).elem i j
      = cRem (A.elem i j * val) mod := by
    rw [e2]; simp
  rw [e2s]
  split
  · rename_i hneg
    rw [if_pos hneg] at key
    refine ⟨put_WF w2 _ _ _, by simp [put_size, hs], ?_⟩
    intro r c
    rw [elem_put w2 (by simpa [put_size] using hi2) (by simpa [put_size] using hj2), e2, e1,
      key]
    by_cases h : r = i ∧ c = j <;> simp [h]
  · rename_i hneg
    rw [if_neg hneg] at key
    refine ⟨w2, by simp [put_size, hs], ?_⟩
    intro r c
    rw [e2, e1, key]
    by_cases h : r = i ∧ c = j <;> simp [h]

/-- The loops of `modMultiplyScalar` read `_size` from the receiver at every
iteration; it never changes, so they are the loops over the initial size. -/
theorem modMultiplyScalar_loops (val mod : Int) (hm : 0 < mod) {A : Matrix} (hA : A.WF)
    (n : Nat) (hs : A._size = n) (k : Nat) (hk : k ≤ n) :
    (List.range k).foldl
        (fun B i => (List.range B._size).foldl (modMultiplyScalarCell val mod i) B) A
      = (List.range k).foldl
        (fun B i => (List.range n).foldl (modMultiplyScalarCell val mod i) B) A := by
  induction k with
  | zero => simp
  | succ k ih =>
    rw [List.range_succ, List.foldl_append, List.foldl_append, ih (by omega)]
    simp only [List.foldl_cons, List.foldl_nil]
    obtain ⟨_, s, _⟩ := outer_loop (modMultiplyScalarCell_update n val mod hm) hA hs k
      (by omega)
    rw [s]

theorem modMultiplyScalar_entries (val mod : Int) (hm : 0 < mod) {A : Matrix} (hA : A.WF) :
    (A.modMultiplyScalar val mod).WF ∧ (A.modMultiplyScalar val mod)._size = A._size ∧
    ∀ r c, r < A._size → c < A._size →
      (A.modMultiplyScalar val mod).elem r c = (A.elem r c * val) % mod := by
  unfold modMultiplyScalar
  rw [modMultiplyScalar_loops val mod hm hA A._size rfl A._size (le_refl _)]
  exact nested_loop (modMultiplyScalarCell_update A._size val mod hm) hA rfl

theorem operator_plus_entries (m1 m2 : Matrix) (junk : Nat → Nat → Int) :
    (operator_plus m1 m2 junk).WF ∧ (operator_plus m1 m2 junk)._size = m1._size ∧
    ∀ r c, r < m1._size → c < m1._size →
      (operator_plus m1 m2 junk).elem r c = m1.elem r c + m2.elem r c := by
  have hc : CellUpdate m1._size
      (fun i acc j => acc.put i j (m1.elem i j + m2.elem i j))
      (fun i j _ => m1.elem i j + m2.elem i j) := by
    intro A i j hA hs hi hj
    refine ⟨put_WF hA _ _ _, by simp [put_size, hs], ?_⟩
    intro r c
    rw [elem_put hA (by omega) (by omega)]
  exact nested_loop hc (new_WF m1._size false junk) (new_size m1._size false junk)

theorem operator_minus_entries (m1 m2 : Matrix) (junk : Nat → Nat → Int) :
    (operator_minus m1 m2 junk).WF ∧ (operator_minus m1 m2 junk)._size = m1._size ∧
    ∀ r c, r < m1._size → c < m1._size →
      (operator_minus m1 m2 junk).elem r c = m1.elem r c - m2.elem r c := by
  have hc : CellUpdate m1._size
      (fun i acc j => acc.put i j (m1.elem i j - m2.elem i j))
      (fun i j _ => m1.elem i j - m2.elem i j) := by
    intro A i j hA hs hi hj
    refine ⟨put_WF hA _ _ _, by simp [put_size, hs], ?_⟩
    intro r c
    rw [elem_put hA (by omega) (by omega)]
  exact nested_loop hc (new_WF m1._size false junk) (new_size m1._size false junk)

theorem identity_row (i : Nat) (row : List Int) (k : Nat) (hk : k ≤ row.length) :
    ∀ c, ((List.range k).foldl (fun row j => row.set j (if i = j then (1 : Int) else 0)) row).getD c 0
      = if c < k then (if i = c then 1 else 0) else row.getD c 0 := by
  induction k with
  | zero => simp
  | succ k ih =>
    intro c
    rw [List.range_succ, List.foldl_append]
    simp only [List.foldl_cons, List.foldl_nil]
    rw [getD_set, ih (by omega), set_fold_length]
    by_cases h : c = k
    · subst h
      have : c < row.length := by omega
      simp [this]
    · by_cases h2 : c < k
      · have h3 : c < k + 1 := by omega
        simp [h, h2, h3]
      · have h3 : ¬ c < k + 1 := by omega
        simp [h, h2, h3]

/-- The identity constructor: 1 on the diagonal, 0 elsewhere. -/
theorem new_identity_elem (size : Nat) (junk : Nat → Nat → Int) (i j : Nat) (hi : i < size)
    (hj : j < size) :
    (Matrix.new size true junk).elem i j = if i = j then 1 else 0 := by
  have hrow : ∀ f : Nat → List Int, ((List.range size).map f).getD i [] = f i := by
    intro f
    rw [List.getD_eq_getElem _ _ (by simpa using hi)]
    simp
  simp only [elem, Matrix.new, if_true]
  rw [hrow, identity_row i _ size (by simp [allocRow])]
  simp [hj]

end Matrix
end HillCipher

/-! ## Lemmas for the later claims: machine arithmetic, magnitude, store, text -/

namespace HillCipher

theorem wrapInt_of_isInt {x : Int} (h : isInt x) : wrapInt x = x := by
  unfold isInt at h
  unfold wrapInt
  omega

theorem isInt_wrapInt (x : Int) : isInt (wrapInt x) := by
  unfold isInt wrapInt
  omega

namespace Matrix

theorem AllInt_elem {M : Matrix} (hM : M.WF) (h : M.AllInt) {i j : Nat} (hi : i < M._size)
    (hj : j < M._size) : isInt (M.elem i j) := by
  have hrow := row_length hM hi
  have hi2 : i < M._matrix.length := by rw [hM.1]; exact hi
  unfold elem
  rw [List.getD_eq_getElem _ _ (by rw [hrow]; exact hj)]
  apply h (M._matrix.getD i [])
  · rw [List.getD_eq_getElem _ _ hi2]
    exact List.getElem_mem hi2
  · exact List.getElem_mem _

theorem NoIntMin_elem {M : Matrix} (hM : M.WF) (h : M.NoIntMin) {i j : Nat}
    (hi : i < M._size) (hj : j < M._size) : M.elem i j ≠ -2147483648 := by
  have hrow := row_length hM hi
  have hi2 : i < M._matrix.length := by rw [hM.1]; exact hi
  unfold elem
  rw [List.getD_eq_getElem _ _ (by rw [hrow]; exact hj)]
  apply h (M._matrix.getD i [])
  · rw [List.getD_eq_getElem _ _ hi2]
    exact List.getElem_mem hi2
  · exact List.getElem_mem _

/-- For size 3 the loop body of `findAdjoint` on `int` writes the signed minor, reduced
to `int`, into element `(i, j)` and nothing else. -/
theorem findAdjointCellInt_update (M : Matrix) (junk : Nat → Nat → Int) (det0 : Int) :
    CellUpdate 3 (findAdjointCellInt M junk det0)
      (fun i j _ => wrapInt ((M.getSubmatrix (j : Int) (i : Int) junk).findDeterminantInt det0
        * (if (i + j) % 2 = 0 then 1 else -1))) := by
  intro A i j hA hs hi hj
  unfold findAdjointCellInt
  have w1 : (A.put i j
      ((M.getSubmatrix (j : Int) (i : Int) junk).findDeterminantInt det0)).WF :=
    put_WF hA _ _ _
  refine ⟨put_WF w1 _ _ _, by simp [put_size, hs], ?_⟩
  intro r c
  rw [elem_put w1 (by simp [put_size, hs, hi]) (by simp [put_size, hs, hj]),
    elem_put hA (by omega) (by omega), elem_put hA (by omega) (by omega)]
  by_cases h : r = i ∧ c = j <;> simp [h]

theorem findAdjointInt_three {M : Matrix} (hs : M._size = 3) (junk : Nat → Nat → Int)
    (det0 : Int) :
    (M.findAdjointInt junk det0)._size = 3 ∧ (M.findAdjointInt junk det0).WF ∧
    ∀ i j, i < 3 → j < 3 → (M.findAdjointInt junk det0).elem i j
      = wrapInt ((M.getSubmatrix (j : Int) (i : Int) junk).findDeterminantInt det0
        * (if (i + j) % 2 = 0 then 1 else -1)) := by
  unfold findAdjointInt
  simp only [hs]
  simp only [show ¬ (3 = 2) by decide, if_false, if_true]
  obtain ⟨w, s, e⟩ := nested_loop (findAdjointCellInt_update M junk det0)
    (new_WF 3 false junk) (new_size 3 false junk)
  exact ⟨s, w, e⟩

/-- The determinant the source computes for a submatrix of a 3x3 matrix, in the
elements of that matrix. -/
theorem minorInt_three {M : Matrix} (hs : M._size = 3) {i j : Nat} (hi : i < 3) (hj : j < 3)
    (junk : Nat → Nat → Int) (det0 : Int) :
    (M.getSubmatrix (i : Int) (j : Int) junk).findDeterminantInt det0
      = wrapInt (wrapInt (M.elem (skipIdx i 0) (skipIdx j 0) * M.elem (skipIdx i 1) (skipIdx j 1))
        - wrapInt (M.elem (skipIdx i 0) (skipIdx j 1) * M.elem (skipIdx i 1) (skipIdx j 0))) := by
  obtain ⟨s, _, e⟩ := getSubmatrix_nat hs hi hj junk
  unfold findDeterminantInt
  rw [s]
  simp only [show ¬ (3 - 1 = 1) by decide, show 3 - 1 = 2 by decide, if_false, if_true]
  rw [e 0 0 (by decide) (by decide), e 1 1 (by decide) (by decide),
    e 0 1 (by decide) (by decide), e 1 0 (by decide) (by decide)]

/-- The entries of the classical adjugate of a 3x3 matrix, as signed 2x2 minors. -/
theorem adjugate_three_entry (M : Matrix) {i j : Nat} (hi : i < 3) (hj : j < 3) :
    Matrix.adjugate (Matrix.of fun (a b : Fin 3) => M.elem a b) ⟨i, hi⟩ ⟨j, hj⟩
      = (M.elem (skipIdx j 0) (skipIdx i 0) * M.elem (skipIdx j 1) (skipIdx i 1)
          - M.elem (skipIdx j 0) (skipIdx i 1) * M.elem (skipIdx j 1) (skipIdx i 0))
        * (if (i + j) % 2 = 0 then 1 else -1) := by
  rw [Matrix.adjugate_fin_three]
  interval_cases i <;> interval_cases j <;>
    simp [skipIdx, Matrix.of_apply] <;> ring

theorem cAbs_eq_abs (x : Int) : cAbs x = |x| := by
  unfold cAbs
  split
  · rw [abs_of_neg (by assumption)]
  · rw [abs_of_nonneg (by omega)]

theorem findMaxMagnitude_inner (M : Matrix) (i : Nat) (a : Int) (k : Nat) :
    a ≤ (List.range k).foldl (findMaxMagnitudeCell M i) a ∧
    (∀ j, j < k → cAbs (M.elem i j) ≤ (List.range k).foldl (findMaxMagnitudeCell M i) a) ∧
    ((List.range k).foldl (findMaxMagnitudeCell M i) a = a ∨
      ∃ j, j < k ∧ cAbs (M.elem i j) = (List.range k).foldl (findMaxMagnitudeCell M i) a) := by
  induction k with
  | zero => simp
  | succ k ih =>
    obtain ⟨h1, h2, h3⟩ := ih
    rw [List.range_succ, List.foldl_append]
    simp only [List.foldl_cons, List.foldl_nil]
    generalize (List.range k).foldl (findMaxMagnitudeCell M i) a = r at h1 h2 h3 ⊢
    unfold findMaxMagnitudeCell
    split
    · rename_i hgt
      refine ⟨by omega, ?_, Or.inr ⟨k, by omega, rfl⟩⟩
      intro j hj
      rcases Nat.lt_succ_iff_lt_or_eq.mp hj with h | h
      · have := h2 j h; omega
      · subst h; exact le_refl _
    · rename_i hgt
      refine ⟨h1, ?_, ?_⟩
      · intro j hj
        rcases Nat.lt_succ_iff_lt_or_eq.mp hj with h | h
        · exact h2 j h
        · subst h; omega
      · rcases h3 with h | ⟨j, hj, h⟩
        · exact Or.inl h
        · exact Or.inr ⟨j, by omega, h⟩

theorem findMaxMagnitude_outer (M : Matrix) (n k : Nat) :
    0 ≤ (List.range k).foldl
        (fun maxVal i => (List.range n).foldl (findMaxMagnitudeCell M i) maxVal) 0 ∧
    (∀ i j, i < k → j < n → cAbs (M.elem i j) ≤ (List.range k).foldl
        (fun maxVal i => (List.range n).foldl (findMaxMagnitudeCell M i) maxVal) 0) ∧
    ((List.range k).foldl
        (fun maxVal i => (List.range n).foldl (findMaxMagnitudeCell M i) maxVal) 0 = 0 ∨
      ∃ i j, i < k ∧ j < n ∧ cAbs (M.elem i j) = (List.range k).foldl
        (fun maxVal i => (List.range n).foldl (findMaxMagnitudeCell M i) maxVal) 0) := by
  induction k with
  | zero => simp
  | succ k ih =>
    obtain ⟨h1, h2, h3⟩ := ih
    rw [List.range_succ, List.foldl_append]
    simp only [List.foldl_cons, List.foldl_nil]
    generalize (List.range k).foldl
      (fun maxVal i => (List.range n).foldl (findMaxMagnitudeCell M i) maxVal) 0 = r
      at h1 h2 h3 ⊢
    obtain ⟨g1, g2, g3⟩ := findMaxMagnitude_inner M k r n
    refine ⟨by omega, ?_, ?_⟩
    · intro i j hi hj
      rcases Nat.lt_succ_iff_lt_or_eq.mp hi with h | h
      · have := h2 i j h hj; omega
      · subst h; exact g2 j hj
    · rcases g3 with g | ⟨j, hj, g⟩
      · rcases h3 with h | ⟨i, j, hi, hj, h⟩
        · left; rw [g, h]
        · right; exact ⟨i, j, by omega, hj, by rw [g, h]⟩
      · right; exact ⟨k, j, by omega, hj, g⟩

/-- The loop body of `modMultiplyScalar`, for any modulus: element `(i, j)` becomes
`scalarStep` of its old value and nothing else changes. -/
theorem modMultiplyScalarCell_step (n : Nat) (val mod : Int) :
    CellUpdate n (modMultiplyScalarCell val mod) (fun _ _ old => scalarStep val mod old) := by
  intro A i j hA hs hi hj
  simp only [modMultiplyScalarCell, scalarStep]
  have hi2 : i < A._size := by omega
  have hj2 : j < A._size := by omega
  have w1 := put_WF hA i j (A.elem i j * val)
  have e1 := elem_put hA hi2 hj2 (A.elem i j * val)
  have w2 := put_WF w1 i j (cRem ((A.put i j (A.elem i j * val)).elem i j) mod)
  have e2 := elem_put w1 (show i < (A.put i j (A.elem i j * val))._size from hi2)
    (show j < (A.put i j (A.elem i j * val))._size from hj2)
    (cRem ((A.put i j (A.elem i j * val)).elem i j) mod)
  have e1s : (A.put i j (A.elem i j * val)).elem i j = A.elem i j * val := by
    rw [e1]; simp
  rw [e1s] at e2 w2 ⊢
  have e2s : ((A.put i j (A.elem i j * val)).put i j (cRem (A.elem i j * val) mod)).elem i j
      = cRem (A.elem i j * val) mod := by
    rw [e2]; simp
  rw [e2s]
  split
  · rename_i hneg
    refine ⟨put_WF w2 _ _ _, by simp [put_size, hs], ?_⟩
    intro r c
    rw [elem_put w2 (by simpa [put_size] using hi2) (by simpa [put_size] using hj2), e2, e1]
    by_cases h : r = i ∧ c = j <;> simp [h]
  · rename_i hneg
    refine ⟨w2, by simp [put_size, hs], ?_⟩
    intro r c
    rw [e2, e1]
    by_cases h : r = i ∧ c = j <;> simp [h]

theorem modMultiplyScalar_loops_any (val mod : Int) {A : Matrix} (hA : A.WF)
    (n : Nat) (hs : A._size = n) (k : Nat) (hk : k ≤ n) :
    (List.range k).foldl
        (fun B i => (List.range B._size).foldl (modMultiplyScalarCell val mod i) B) A
      = (List.range k).foldl
        (fun B i => (List.range n).foldl (modMultiplyScalarCell val mod i) B) A := by
  induction k with
  | zero => simp
  | succ k ih =>
    rw [List.range_succ, List.foldl_append, List.foldl_append, ih (by omega)]
    simp only [List.foldl_cons, List.foldl_nil]
    obtain ⟨_, s, _⟩ := outer_loop (modMultiplyScalarCell_step n val mod) hA hs k (by omega)
    rw [s]

/-- For any scalar and modulus `modMultiplyScalar` keeps the size and the shape of the
grid and maps every element through `scalarStep`. -/
theorem modMultiplyScalar_step (val mod : Int) {A : Matrix} (hA : A.WF) :
    (A.modMultiplyScalar val mod).WF ∧ (A.modMultiplyScalar val mod)._size = A._size ∧
    ∀ r c, r < A._size → c < A._size →
      (A.modMultiplyScalar val mod).elem r c = scalarStep val mod (A.elem r c) := by
  unfold modMultiplyScalar
  rw [modMultiplyScalar_loops_any val mod hA A._size rfl A._size (le_refl _)]
  exact nested_loop (modMultiplyScalarCell_step A._size val mod) hA rfl

theorem findAdjoint_shape {M : Matrix} (junk : Nat → Nat → Int) (det0 : Int) :
    (M.findAdjoint junk det0)._size = M._size ∧ (M.findAdjoint junk det0).WF := by
  by_cases h2 : M._size = 2
  · obtain ⟨s, w, _⟩ := findAdjoint_two h2 junk det0
    exact ⟨by rw [s, h2], w⟩
  · by_cases h3 : M._size = 3
    · obtain ⟨s, w, _⟩ := findAdjoint_three h3 junk det0
      exact ⟨by rw [s, h3], w⟩
    · unfold findAdjoint
      simp only [h2, h3, if_false]
      exact ⟨new_size _ _ _, new_WF _ _ _⟩

/-- The product of the adjoint with the matrix, for sizes 2 and 3: the determinant on
the diagonal and 0 elsewhere. -/
theorem findAdjoint_mul_left {M : Matrix} (hs : M._size = 2 ∨ M._size = 3)
    (junk : Nat → Nat → Int) (det0 det1 : Int) {i j : Nat} (hi : i < M._size)
    (hj : j < M._size) :
    (∑ k in Finset.range M._size, (M.findAdjoint junk det0).elem i k * M.elem k j)
      = (if i = j then M.findDeterminant det1 else 0) := by
  rcases hs with hs | hs
  · obtain ⟨_, _, e00, e01, e10, e11⟩ := findAdjoint_two hs junk det0
    rw [hs] at hi hj
    simp only [hs, Finset.sum_range_succ, Finset.sum_range_zero, zero_add]
    have hd : M.findDeterminant det1
        = M.elem 0 0 * M.elem 1 1 - M.elem 0 1 * M.elem 1 0 := by
      simp [findDeterminant, hs]
    rw [hd]
    interval_cases i <;> interval_cases j <;>
      simp only [e00, e01, e10, e11] <;> simp <;> ring
  · obtain ⟨_, _, e⟩ := findAdjoint_three hs junk det0
    rw [hs] at hi hj
    simp only [hs, Finset.sum_range_succ, Finset.sum_range_zero, zero_add]
    have hd : M.findDeterminant det1
        = M.elem 0 0 * M.elem 1 1 * M.elem 2 2 + M.elem 0 1 * M.elem 1 2 * M.elem 2 0
            + M.elem 0 2 * M.elem 1 0 * M.elem 2 1 - M.elem 0 2 * M.elem 1 1 * M.elem 2 0
            - M.elem 0 0 * M.elem 1 2 * M.elem 2 1 - M.elem 0 1 * M.elem 1 0 * M.elem 2 2 := by
      simp only [findDeterminant, hs]
      simp only [show ¬ (3 = 1) by decide, show ¬ (3 = 2) by decide, if_false, if_true]
    have m : ∀ a b, a < 3 → b < 3 → (M.findAdjoint junk det0).elem a b
        = (M.elem (skipIdx b 0) (skipIdx a 0) * M.elem (skipIdx b 1) (skipIdx a 1)
            - M.elem (skipIdx b 0) (skipIdx a 1) * M.elem (skipIdx b 1) (skipIdx a 0))
          * (if (a + b) % 2 = 0 then 1 else -1) := by
      intro a b ha hb
      rw [e a b ha hb, minor_three hs hb ha junk det0]
    rw [hd]
    interval_cases i <;> interval_cases j <;>
      simp only [m 0 0 (by decide) (by decide), m 0 1 (by decide) (by decide),
        m 0 2 (by decide) (by decide), m 1 0 (by decide) (by decide),
        m 1 1 (by decide) (by decide), m 1 2 (by decide) (by decide),
        m 2 0 (by decide) (by decide), m 2 1 (by decide) (by decide),
        m 2 2 (by decide) (by decide)] <;>
      simp [skipIdx] <;> ring

/-- A sum of products of remainders is congruent to the sum of the products. -/
theorem sum_mul_emod (n : Nat) (a b : Nat → Int) (m : Int) :
    (∑ k in Finset.range n, (a k % m) * (b k % m)) % m
      = (∑ k in Finset.range n, a k * b k) % m := by
  rw [Finset.sum_int_mod, Finset.sum_int_mod (f := fun k => a k * b k)]
  congr 1
  apply Finset.sum_congr rfl
  intro k _
  exact (Int.mul_emod (a k) (b k) m).symm

end Matrix

namespace Store

theorem store_length (s : Store) (p j : Nat) (v : Int) :
    (s.store p j v).arrays.length = s.arrays.length := by
  simp [store]

theorem store_getD_ne (s : Store) (p j : Nat) (v : Int) {q : Nat} (h : q ≠ p) :
    (s.store p j v).arrays.getD q [] = s.arrays.getD q [] := by
  simp only [store, List.getD_eq_getElem?_getD, List.getElem?_set]
  rw [if_neg (fun e => h e.symm)]

theorem store_getD_same (s : Store) (p j : Nat) (v : Int) (hp : p < s.arrays.length) :
    (s.store p j v).arrays.getD p [] = (s.arrays.getD p []).set j v := by
  simp only [store, List.getD_eq_getElem?_getD, List.getElem?_set]
  simp [hp]

theorem load_store (s : Store) (p j : Nat) (v : Int) (hp : p < s.arrays.length)
    (hj : j < (s.arrays.getD p []).length) (q c : Nat) :
    (s.store p j v).load q c = if q = p ∧ c = j then v else s.load q c := by
  unfold load
  by_cases hq : q = p
  · subst hq
    rw [store_getD_same s q j v hp, Matrix.getD_set]
    by_cases hc : c = j
    · subst hc
      rw [if_pos ⟨rfl, hj⟩, if_pos ⟨rfl, rfl⟩]
    · rw [if_neg (by simp [hc]), if_neg (by simp [hc])]
  · rw [store_getD_ne s p j v hq, if_neg (by simp [hq])]

end Store

namespace MatrixRef

/-- The element loop of the copy constructor on row `i`: only the array `p` of the new
object is written, and after `k` steps its first `k` elements are those of the source
row. -/
theorem copy_cells (other this : MatrixRef) (i : Nat) (t0 : Store) {p src : Nat}
    (hp : this._matrix.getD i 0 = p) (hsrc : other._matrix.getD i 0 = src) (hne : src ≠ p)
    (hpl : p < t0.arrays.length) {n : Nat} (hrow : (t0.arrays.getD p []).length = n)
    (k : Nat) (hk : k ≤ n) :
    ((List.range k).foldl (copyCell other this i) t0).arrays.length = t0.arrays.length ∧
    (∀ q, q ≠ p → ((List.range k).foldl (copyCell other this i) t0).arrays.getD q []
      = t0.arrays.getD q []) ∧
    (((List.range k).foldl (copyCell other this i) t0).arrays.getD p []).length = n ∧
    ∀ j, j < k → ((List.range k).foldl (copyCell other this i) t0).load p j
      = t0.load src j := by
  induction k with
  | zero =>
    exact ⟨rfl, fun _ _ => rfl, hrow, fun j hj => absurd hj (Nat.not_lt_zero _)⟩
  | succ k ih =>
    obtain ⟨l, f, r, e⟩ := ih (by omega)
    rw [List.range_succ, List.foldl_append]
    simp only [List.foldl_cons, List.foldl_nil]
    generalize (List.range k).foldl (copyCell other this i) t0 = t at l f r e ⊢
    unfold copyCell
    rw [hp, hsrc]
    have hpt : p < t.arrays.length := by rw [l]; exact hpl
    refine ⟨by rw [Store.store_length, l], ?_, ?_, ?_⟩
    · intro q hq
      rw [Store.store_getD_ne _ _ _ _ hq, f q hq]
    · rw [Store.store_getD_same _ _ _ _ hpt, List.length_set, r]
    · intro j hj
      rw [Store.load_store t p k _ hpt (by rw [r]; omega)]
      by_cases h : j = k
      · subst h
        simp only [true_and, if_true]
        unfold Store.load
        rw [f src hne]
      · rw [if_neg (by simp [h])]
        exact e j (by omega)

/-- The state of the copy constructor after `k` rows. -/
theorem copy_rows (other : MatrixRef) (s : Store) (hv : other.Valid s)
    (junkPtr : Nat → Nat) (junk : Nat → Nat → Int) (k : Nat) (hk : k ≤ other._size) :
    ((List.range k).foldl (copyRow other junk)
        (s, ⟨other._size, (List.range other._size).map junkPtr⟩)).2._size = other._size ∧
    ((List.range k).foldl (copyRow other junk)
        (s, ⟨other._size, (List.range other._size).map junkPtr⟩)).2._matrix.length
      = other._size ∧
    (∀ i, i < k → ((List.range k).foldl (copyRow other junk)
        (s, ⟨other._size, (List.range other._size).map junkPtr⟩)).2._matrix.getD i 0
      = s.arrays.length + i) ∧
    ((List.range k).foldl (copyRow other junk)
        (s, ⟨other._size, (List.range other._size).map junkPtr⟩)).1.arrays.length
      = s.arrays.length + k ∧
    (∀ q, q < s.arrays.length → ((List.range k).foldl (copyRow other junk)
        (s, ⟨other._size, (List.range other._size).map junkPtr⟩)).1.arrays.getD q []
      = s.arrays.getD q []) ∧
    ∀ i, i < k →
      (((List.range k).foldl (copyRow other junk)
        (s, ⟨other._size, (List.range other._size).map junkPtr⟩)).1.arrays.getD
          (s.arrays.length + i) []).length = other._size ∧
      ∀ j, j < other._size → ((List.range k).foldl (copyRow other junk)
        (s, ⟨other._size, (List.range other._size).map junkPtr⟩)).1.load
          (s.arrays.length + i) j = s.load (other._matrix.getD i 0) j := by
  induction k with
  | zero => simp
  | succ k ih =>
    obtain ⟨a1, a2, a3, a4, a5, a6⟩ := ih (by omega)
    rw [List.range_succ, List.foldl_append]
    simp only [List.foldl_cons, List.foldl_nil]
    generalize (List.range k).foldl (copyRow other junk)
      (s, ⟨other._size, (List.range other._size).map junkPtr⟩) = st at a1 a2 a3 a4 a5 a6 ⊢
    obtain ⟨t, ⟨sz, ptrs⟩⟩ := st
    simp only at a1 a2 a3 a4 a5 a6
    subst a1
    simp only [copyRow, Store.newArray]
    have hkn : k < other._size := by omega
    -- the source row pointer lies in the old store
    have hsrc : other._matrix.getD k 0 < s.arrays.length := by
      have hl : k < other._matrix.length := by rw [hv.1]; exact hkn
      rw [List.getD_eq_getElem _ _ hl]
      exact (hv.2 _ (List.getElem_mem hl)).1
    have hset : ∀ i, (ptrs.set k t.arrays.length).getD i 0
        = if i = k then t.arrays.length else ptrs.getD i 0 := by
      intro i
      rw [List.getD_eq_getElem?_getD, List.getElem?_set, List.getD_eq_getElem?_getD]
      by_cases h : k = i
      · subst h; simp [a2, hkn]
      · rw [if_neg h, if_neg (fun e => h e.symm)]
    have hp : (ptrs.set k t.arrays.length).getD k 0 = s.arrays.length + k := by
      rw [hset, if_pos rfl, a4]
    have hpl : s.arrays.length + k
        < (Store.mk (t.arrays ++ [(List.range other._size).map (junk k)])).arrays.length := by
      simp [a4]
    have hrow : ((Store.mk (t.arrays ++ [(List.range other._size).map (junk k)])).arrays.getD
        (s.arrays.length + k) []).length = other._size := by
      rw [List.getD_eq_getElem _ _ hpl]
      simp only
      rw [List.getElem_append_right (by omega)]
      simp [a4]
    obtain ⟨l, f, r, e⟩ := copy_cells other
      ⟨other._size, ptrs.set k t.arrays.length⟩ k
      (Store.mk (t.arrays ++ [(List.range other._size).map (junk k)])) hp rfl
      (show other._matrix.getD k 0 ≠ s.arrays.length + k by omega) hpl hrow other._size
      (le_refl _)
    have hpre : ∀ q, q < t.arrays.length →
        (Store.mk (t.arrays ++ [(List.range other._size).map (junk k)])).arrays.getD q []
          = t.arrays.getD q [] := by
      intro q hq
      simp only [List.getD_eq_getElem?_getD]
      rw [List.getElem?_append_left hq]
    refine ⟨trivial, by rw [List.length_set]; exact a2, ?_, ?_, ?_, ?_⟩
    · intro i hi
      rw [hset]
      by_cases h : i = k
      · rw [if_pos h, a4, h]
      · rw [if_neg h]; exact a3 i (by omega)
    · rw [l]; simp [a4]; omega
    · intro q hq
      rw [f q (by omega), hpre q (by omega), a5 q hq]
    · intro i hi
      by_cases h : i = k
      · subst h
        refine ⟨r, ?_⟩
        intro j hj
        rw [e j hj]
        unfold Store.load
        rw [hpre _ (by omega), a5 _ hsrc]
      · have hik : i < k := by omega
        obtain ⟨b1, b2⟩ := a6 i hik
        have hq : s.arrays.length + i ≠ s.arrays.length + k := by omega
        refine ⟨by rw [f _ hq, hpre _ (by omega)]; exact b1, ?_⟩
        intro j hj
        have := b2 j hj
        unfold Store.load at this ⊢
        rw [f _ hq, hpre _ (by omega)]
        exact this

theorem value_elem (o : MatrixRef) (s : Store) {i : Nat} (hi : i < o._matrix.length)
    (j : Nat) : (o.value s).elem i j = s.load (o._matrix.getD i 0) j := by
  have hrow : (o._matrix.map fun p => s.arrays.getD p []).getD i []
      = s.arrays.getD (o._matrix.getD i 0) [] := by
    rw [List.getD_eq_getElem _ _ (by simpa using hi), List.getD_eq_getElem _ _ hi]
    simp
  unfold value Matrix.elem Store.load
  simp only
  rw [hrow]

theorem value_WF (o : MatrixRef) (s : Store) (hv : o.Valid s) : (o.value s).WF := by
  refine ⟨by simp [value, hv.1], ?_⟩
  intro row hrow
  simp only [value, List.mem_map] at hrow ⊢
  obtain ⟨p, hp, rfl⟩ := hrow
  exact (hv.2 p hp).2

/-- What the copy constructor establishes: the new object has the size of `other`, its
rows are the fresh arrays, in order, the arrays that existed before are untouched, and
the new rows hold the elements of `other`. -/
theorem copy_spec (other : MatrixRef) (s : Store) (hv : other.Valid s)
    (junkPtr : Nat → Nat) (junk : Nat → Nat → Int) :
    (other.copy s junkPtr junk).2._size = other._size ∧
    (other.copy s junkPtr junk).2.Valid (other.copy s junkPtr junk).1 ∧
    (∀ i, i < other._size →
      (other.copy s junkPtr junk).2._matrix.getD i 0 = s.arrays.length + i) ∧
    (∀ q, q < s.arrays.length →
      (other.copy s junkPtr junk).1.arrays.getD q [] = s.arrays.getD q []) ∧
    ∀ i j, i < other._size → j < other._size →
      (other.copy s junkPtr junk).1.load ((other.copy s junkPtr junk).2._matrix.getD i 0) j
        = s.load (other._matrix.getD i 0) j := by
  obtain ⟨a1, a2, a3, a4, a5, a6⟩ := copy_rows other s hv junkPtr junk other._size (le_refl _)
  unfold copy
  simp only
  generalize (List.range other._size).foldl (copyRow other junk)
    (s, ⟨other._size, (List.range other._size).map junkPtr⟩) = st at a1 a2 a3 a4 a5 a6 ⊢
  refine ⟨a1, ⟨by rw [a2, a1], ?_⟩, a3, a5, ?_⟩
  · intro p hp
    obtain ⟨i, hi, rfl⟩ := List.getElem_of_mem hp
    have hi2 : i < other._size := by omega
    have : st.2._matrix[i] = s.arrays.length + i := by
      rw [← List.getD_eq_getElem _ 0 hi]; exact a3 i hi2
    rw [this, a1]
    exact ⟨by omega, (a6 i hi2).1⟩
  · intro i j hi hj
    rw [a3 i hi]
    exact (a6 i hi).2 j hj

/-- Every write of `modMultiplyScalar` goes through a row pointer of the receiver: when
those all lie at or above `L`, the arrays below `L` are untouched. -/
theorem modMultiplyScalarCell_frame (this : MatrixRef) (val mod : Int) (L i : Nat)
    (hp : L ≤ this._matrix.getD i 0) (s : Store) (j q : Nat) (hq : q < L) :
    (modMultiplyScalarCell this val mod i s j).arrays.getD q [] = s.arrays.getD q [] := by
  have hne : q ≠ this._matrix.getD i 0 := by omega
  simp only [modMultiplyScalarCell]
  split
  · rw [Store.store_getD_ne _ _ _ _ hne, Store.store_getD_ne _ _ _ _ hne,
      Store.store_getD_ne _ _ _ _ hne]
  · rw [Store.store_getD_ne _ _ _ _ hne, Store.store_getD_ne _ _ _ _ hne]

theorem foldl_frame {α : Type} (P : Store → Prop) (f : Store → α → Store) (l : List α)
    (hf : ∀ s a, a ∈ l → P s → P (f s a)) (s : Store) (hs : P s) : P (l.foldl f s) := by
  induction l generalizing s with
  | nil => exact hs
  | cons a l ih =>
    simp only [List.foldl_cons]
    exact ih (fun s b hb h => hf s b (List.mem_cons_of_mem _ hb) h) _
      (hf s a (List.mem_cons_self _ _) hs)

theorem modMultiplyScalar_frame (this : MatrixRef) (val mod : Int) (L : Nat)
    (hfresh : ∀ i, i < this._size → L ≤ this._matrix.getD i 0) (s : Store) (q : Nat)
    (hq : q < L) :
    (this.modMultiplyScalar s val mod).arrays.getD q [] = s.arrays.getD q [] := by
  unfold modMultiplyScalar
  apply foldl_frame (fun t => t.arrays.getD q [] = s.arrays.getD q [])
  · intro t i hi ht
    apply foldl_frame (fun u => u.arrays.getD q [] = s.arrays.getD q [])
    · intro u j _ hu
      rw [modMultiplyScalarCell_frame this val mod L i
        (hfresh i (List.mem_range.mp hi)) u j q hq]
      exact hu
    · exact ht
  · rfl

/-- The matrix an object denotes depends only on the arrays its pointers lead to. -/
theorem value_congr (o : MatrixRef) (s t : Store)
    (h : ∀ p ∈ o._matrix, t.arrays.getD p [] = s.arrays.getD p []) :
    o.value t = o.value s := by
  unfold value
  congr 1
  apply List.map_congr_left
  intro p hp
  exact h p hp

end MatrixRef

namespace Store

theorem store_row_length (s : Store) (p j : Nat) (v : Int) (q : Nat) :
    ((s.store p j v).arrays.getD q []).length = (s.arrays.getD q []).length := by
  by_cases hq : q = p
  · subst hq
    by_cases hp : q < s.arrays.length
    · rw [store_getD_same s q j v hp, List.length_set]
    · simp only [store]
      rw [List.set_eq_of_length_le (by omega)]
  · rw [store_getD_ne s p j v hq]

end Store

namespace MatrixRef

/-- The loop body of `modMultiplyScalar` on the store: the element `(i, j)` of the
receiver becomes `scalarStep` of its old value, every other element of every array is
untouched, and no array changes its length. -/
theorem modMultiplyScalarCell_store (this : MatrixRef) (val mod : Int) (i : Nat)
    (t : Store) (j : Nat) {p : Nat} (hp : this._matrix.getD i 0 = p)
    (hpl : p < t.arrays.length) (hj : j < (t.arrays.getD p []).length) :
    (modMultiplyScalarCell this val mod i t j).arrays.length = t.arrays.length ∧
    (∀ q, ((modMultiplyScalarCell this val mod i t j).arrays.getD q []).length
      = (t.arrays.getD q []).length) ∧
    ∀ q c, (modMultiplyScalarCell this val mod i t j).load q c
      = if q = p ∧ c = j then Matrix.scalarStep val mod (t.load p j) else t.load q c := by
  simp only [modMultiplyScalarCell, Matrix.scalarStep, hp]
  have l1 := Store.store_length t p j (t.load p j * val)
  have r1 := Store.store_row_length t p j (t.load p j * val)
  have e1 := Store.load_store t p j (t.load p j * val) hpl hj
  have e1s : (t.store p j (t.load p j * val)).load p j = t.load p j * val := by
    rw [e1]; simp
  rw [e1s]
  have hpl2 : p < (t.store p j (t.load p j * val)).arrays.length := by rw [l1]; exact hpl
  have hj2 : j < ((t.store p j (t.load p j * val)).arrays.getD p []).length := by
    rw [r1]; exact hj
  have l2 := Store.store_length (t.store p j (t.load p j * val)) p j
    (cRem (t.load p j * val) mod)
  have r2 := Store.store_row_length (t.store p j (t.load p j * val)) p j
    (cRem (t.load p j * val) mod)
  have e2 := Store.load_store (t.store p j (t.load p j * val)) p j
    (cRem (t.load p j * val) mod) hpl2 hj2
  have e2s : ((t.store p j (t.load p j * val)).store p j
      (cRem (t.load p j * val) mod)).load p j = cRem (t.load p j * val) mod := by
    rw [e2]; simp
  rw [e2s]
  split
  · refine ⟨by rw [Store.store_length, l2, l1], ?_, ?_⟩
    · intro q
      rw [Store.store_row_length, r2, r1]
    · intro q c
      rw [Store.load_store _ p j _ (by rw [l2]; exact hpl2) (by rw [r2]; exact hj2), e2, e1]
      by_cases h : q = p ∧ c = j <;> simp [h]
  · refine ⟨by rw [l2, l1], ?_, ?_⟩
    · intro q
      rw [r2, r1]
    · intro q c
      rw [e2, e1]
      by_cases h : q = p ∧ c = j <;> simp [h]

theorem modMultiplyScalar_inner (this : MatrixRef) (val mod : Int) (i : Nat) (t0 : Store)
    {p : Nat} (hp : this._matrix.getD i 0 = p) (hpl : p < t0.arrays.length) {n : Nat}
    (hrow : (t0.arrays.getD p []).length = n) (k : Nat) (hk : k ≤ n) :
    ((List.range k).foldl (modMultiplyScalarCell this val mod i) t0).arrays.length
      = t0.arrays.length ∧
    (∀ q, (((List.range k).foldl (modMultiplyScalarCell this val mod i) t0).arrays.getD
      q []).length = (t0.arrays.getD q []).length) ∧
    ∀ q c, ((List.range k).foldl (modMultiplyScalarCell this val mod i) t0).load q c
      = if q = p ∧ c < k then Matrix.scalarStep val mod (t0.load q c) else t0.load q c := by
  induction k with
  | zero =>
    refine ⟨rfl, fun _ => rfl, ?_⟩
    intro q c
    simp
  | succ k ih =>
    obtain ⟨l, r, e⟩ := ih (by omega)
    rw [List.range_succ, List.foldl_append]
    simp only [List.foldl_cons, List.foldl_nil]
    generalize (List.range k).foldl (modMultiplyScalarCell this val mod i) t0 = t at l r e ⊢
    obtain ⟨l2, r2, e2⟩ := modMultiplyScalarCell_store this val mod i t k hp
      (by rw [l]; exact hpl) (by rw [r, hrow]; omega)
    refine ⟨by rw [l2, l], fun q => by rw [r2, r], ?_⟩
    intro q c
    rw [e2, e, e]
    by_cases h1 : q = p
    · by_cases h2 : c = k
      · subst h1; subst h2; simp
      · have h3 : c < k + 1 ↔ c < k := by omega
        simp [h1, h2, h3]
    · simp [h1]

theorem modMultiplyScalar_outer (this : MatrixRef) (val mod : Int) (t0 : Store)
    (hv : this.Valid t0)
    (hinj : ∀ a b, a < this._size → b < this._size →
      this._matrix.getD a 0 = this._matrix.getD b 0 → a = b)
    (k : Nat) (hk : k ≤ this._size) :
    ((List.range k).foldl (fun s i => (List.range this._size).foldl
        (modMultiplyScalarCell this val mod i) s) t0).arrays.length = t0.arrays.length ∧
    (∀ q, (((List.range k).foldl (fun s i => (List.range this._size).foldl
        (modMultiplyScalarCell this val mod i) s) t0).arrays.getD q []).length
      = (t0.arrays.getD q []).length) ∧
    ∀ r c, r < this._size → c < this._size →
      ((List.range k).foldl (fun s i => (List.range this._size).foldl
        (modMultiplyScalarCell this val mod i) s) t0).load (this._matrix.getD r 0) c
      = if r < k then Matrix.scalarStep val mod (t0.load (this._matrix.getD r 0) c)
        else t0.load (this._matrix.getD r 0) c := by
  induction k with
  | zero =>
    refine ⟨rfl, fun _ => rfl, ?_⟩
    intro r c _ _
    simp
  | succ k ih =>
    obtain ⟨l, rl, e⟩ := ih (by omega)
    rw [List.range_succ, List.foldl_append]
    simp only [List.foldl_cons, List.foldl_nil]
    generalize (List.range k).foldl (fun s i => (List.range this._size).foldl
      (modMultiplyScalarCell this val mod i) s) t0 = t at l rl e ⊢
    have hkn : k < this._size := by omega
    have hmem : this._matrix.getD k 0 ∈ this._matrix := by
      have hl : k < this._matrix.length := by rw [hv.1]; exact hkn
      rw [List.getD_eq_getElem _ _ hl]
      exact List.getElem_mem hl
    obtain ⟨v1, v2⟩ := hv.2 _ hmem
    obtain ⟨l2, r2, e2⟩ := modMultiplyScalar_inner this val mod k t rfl
      (by rw [l]; exact v1) (by rw [rl]; exact v2) this._size (le_refl _)
    refine ⟨by rw [l2, l], fun q => by rw [r2, rl], ?_⟩
    intro r c hr hc
    rw [e2, e r c hr hc]
    by_cases h : r = k
    · subst h
      simp [hc]
    · have hne : ¬ this._matrix.getD r 0 = this._matrix.getD k 0 :=
        fun x => h (hinj r k hr hkn x)
      rw [if_neg (fun x => hne x.1)]
      by_cases h2 : r < k
      · rw [if_pos h2, if_pos (by omega)]
      · rw [if_neg h2, if_neg (by omega)]

/-- The method on the store agrees with the method on matrices: the receiver then
denotes `modMultiplyScalar` of the matrix it denoted before. -/
theorem modMultiplyScalar_value (this : MatrixRef) (val mod : Int) (s : Store)
    (hv : this.Valid s)
    (hinj : ∀ a b, a < this._size → b < this._size →
      this._matrix.getD a 0 = this._matrix.getD b 0 → a = b) :
    this.value (this.modMultiplyScalar s val mod)
      = (this.value s).modMultiplyScalar val mod := by
  obtain ⟨l, rl, e⟩ := modMultiplyScalar_outer this val mod s hv hinj this._size (le_refl _)
  have hv2 : this.Valid (this.modMultiplyScalar s val mod) := by
    refine ⟨hv.1, ?_⟩
    intro p hp
    unfold modMultiplyScalar
    rw [l, rl]
    exact hv.2 p hp
  obtain ⟨w, sz, em⟩ := Matrix.modMultiplyScalar_step val mod (value_WF this s hv)
  apply Matrix.ext_elem (value_WF _ _ hv2) w (by rw [sz]; rfl)
  intro i j hi hj
  have hi2 : i < this._size := hi
  have hj2 : j < this._size := hj
  rw [em i j hi2 hj2, value_elem _ _ (by rw [hv.1]; exact hi2),
    value_elem _ _ (by rw [hv.1]; exact hi2)]
  have := e i j hi2 hj2
  rw [if_pos hi2] at this
  exact this

end MatrixRef

namespace Matrix

theorem toDigitsCore_eq (fuel : Nat) : ∀ (n : Nat) (ds : List Char), n < fuel →
    Nat.toDigitsCore 10 fuel n ds
      = (if n = 0 then ['0'] else (Nat.digits 10 n).reverse.map Nat.digitChar) ++ ds := by
  induction fuel with
  | zero => intro n ds h; omega
  | succ fuel ih =>
    intro n ds h
    rw [Nat.toDigitsCore]
    by_cases h0 : n / 10 = 0
    · rw [if_pos h0]
      have hlt : n < 10 := by omega
      by_cases hn : n = 0
      · subst hn; simp [Nat.digitChar]
      · rw [if_neg hn, Nat.digits_of_lt 10 n hn hlt, Nat.mod_eq_of_lt hlt]
        simp
    · rw [if_neg h0, ih (n / 10) _ (by omega), if_neg h0]
      have hn : n ≠ 0 := by omega
      rw [if_neg hn]
      conv_rhs => rw [Nat.digits_def' (by decide) (Nat.pos_of_ne_zero hn)]
      simp

/-- The decimal text of a natural number, in terms of its list of digits. -/
theorem toDigits_eq (n : Nat) :
    Nat.toDigits 10 n
      = if n = 0 then ['0'] else (Nat.digits 10 n).reverse.map Nat.digitChar := by
  unfold Nat.toDigits
  rw [toDigitsCore_eq (n + 1) n [] (by omega)]
  simp

theorem digitChar_isDigit (d : Nat) (hd : d < 10) :
    (Nat.digitChar d).isDigit = true ∧ digitValue (Nat.digitChar d) = d := by
  interval_cases d <;> exact ⟨by decide, by decide⟩

theorem toDigits_isDigit (n : Nat) : ∀ c ∈ Nat.toDigits 10 n, c.isDigit = true := by
  intro c hc
  rw [toDigits_eq] at hc
  split at hc
  · simp only [List.mem_singleton] at hc
    subst hc; decide
  · simp only [List.mem_map, List.mem_reverse] at hc
    obtain ⟨d, hd, rfl⟩ := hc
    exact (digitChar_isDigit d (Nat.digits_lt_base (by decide) hd)).1

theorem toDigits_ne_nil (n : Nat) : Nat.toDigits 10 n ≠ [] := by
  rw [toDigits_eq]
  split
  · simp
  · rename_i h
    simp only [ne_eq, List.map_eq_nil_iff, List.reverse_eq_nil_iff]
    exact fun e => h (Nat.digits_eq_nil_iff_eq_zero.mp e)

theorem toDigits_length_pos (n : Nat) : 0 < (Nat.toDigits 10 n).length :=
  List.length_pos.mpr (toDigits_ne_nil n)

/-- A larger number has at least as many decimal digits. -/
theorem toDigits_length_mono {a b : Nat} (h : a ≤ b) :
    (Nat.toDigits 10 a).length ≤ (Nat.toDigits 10 b).length := by
  by_cases ha : a = 0
  · subst ha
    have := toDigits_length_pos b
    simpa [Nat.toDigits, Nat.toDigitsCore] using this
  · have hb : b ≠ 0 := by omega
    rw [toDigits_eq, toDigits_eq, if_neg ha, if_neg hb]
    simpa using Nat.le_digits_len_le 10 a b h

/-- Reading the decimal text of `n` digit by digit gives `n` back. -/
theorem toDigits_value (n : Nat) :
    (Nat.toDigits 10 n).foldl (fun a c => 10 * a + digitValue c) 0 = n := by
  have key : ∀ ds : List Nat, (∀ d ∈ ds, d < 10) →
      (ds.map Nat.digitChar).foldr (fun c a => 10 * a + digitValue c) 0
        = Nat.ofDigits 10 ds := by
    intro ds
    induction ds with
    | nil => intro _; rfl
    | cons d ds ih =>
      intro h
      simp only [List.map_cons, List.foldr_cons, Nat.ofDigits_cons]
      rw [ih (fun x hx => h x (List.mem_cons_of_mem _ hx)),
        (digitChar_isDigit d (h d (List.mem_cons_self _ _))).2]
      ring
  rw [toDigits_eq]
  split
  · rename_i h; subst h; decide
  · rw [List.map_reverse, List.foldl_reverse]
    rw [key _ (fun d hd => Nat.digits_lt_base (by decide) hd), Nat.ofDigits_digits]

theorem isDigit_not_isSpace (c : Char) (h : c.isDigit = true) : isSpace c = false := by
  simp only [Char.isDigit, Bool.and_eq_true, decide_eq_true_eq] at h
  have h1 : 48 ≤ c.toNat := by
    have := h.1
    exact this
  simp only [isSpace, Bool.or_eq_false_iff, decide_eq_false_iff_not, Bool.and_eq_false_imp,
    decide_eq_true_eq]
  omega

theorem foldl_append_flatMap {α : Type} (f : α → List Char) (l : List α) (os : List Char) :
    l.foldl (fun os a => os ++ f a) os = os ++ l.flatMap f := by
  induction l generalizing os with
  | nil => simp
  | cons a l ih => simp [ih, List.flatMap_cons]

/-- The text written by `operator<<`: after what was on the stream, the rows in order,
each the concatenation of its fields followed by a newline. -/
theorem operator_out_eq (os : List Char) (m : Matrix) :
    operator_out os m
      = os ++ (List.range m._size).flatMap fun i =>
          ((List.range m._size).flatMap fun j =>
            putField ((intText m.findMaxMagnitudeInt).length + 2) (m.elem i j)) ++ ['\n'] := by
  unfold operator_out
  simp only
  have hrow : ∀ (os : List Char) (i : Nat),
      printRow m (2 + (intText m.findMaxMagnitudeInt).length) os i
        = os ++ (((List.range m._size).flatMap fun j =>
            putField ((intText m.findMaxMagnitudeInt).length + 2) (m.elem i j)) ++ ['\n']) := by
    intro os i
    unfold printRow
    rw [foldl_append_flatMap, Nat.add_comm 2, List.append_assoc]
  have hf : printRow m (2 + (intText m.findMaxMagnitudeInt).length)
      = fun os i => os ++ (((List.range m._size).flatMap fun j =>
            putField ((intText m.findMaxMagnitudeInt).length + 2) (m.elem i j)) ++ ['\n']) := by
    funext os i
    exact hrow os i
  rw [hf, foldl_append_flatMap]

theorem intText_chars (x : Int) : ∀ c ∈ intText x, c = '-' ∨ c.isDigit = true := by
  intro c hc
  unfold intText at hc
  split at hc
  · rcases List.mem_cons.mp hc with h | h
    · exact Or.inl h
    · exact Or.inr (toDigits_isDigit _ c h)
  · exact Or.inr (toDigits_isDigit _ c hc)

theorem intText_length_le (x : Int) :
    (intText x).length ≤ (Nat.toDigits 10 x.natAbs).length + 1 := by
  unfold intText
  split <;> simp

theorem putField_chars (w : Nat) (x : Int) :
    ∀ c ∈ putField w x, c = ' ' ∨ c = '-' ∨ c.isDigit = true := by
  intro c hc
  unfold putField at hc
  rcases List.mem_append.mp hc with h | h
  · exact Or.inl (List.eq_of_mem_replicate h)
  · exact Or.inr (intText_chars x c h)

theorem putField_no_newline (w : Nat) (x : Int) : '\n' ∉ putField w x := by
  intro h
  rcases putField_chars w x _ h with h | h | h
  · exact absurd h (by decide)
  · exact absurd h (by decide)
  · exact absurd h (by decide)

theorem putField_length (w : Nat) (x : Int) (h : (intText x).length ≤ w) :
    (putField w x).length = w := by
  unfold putField
  rw [List.length_append, List.length_replicate]
  omega

theorem putField_head (w : Nat) (x : Int) (h : (intText x).length < w) :
    (putField w x).head? = some ' ' := by
  unfold putField
  obtain ⟨k, hk⟩ : ∃ k, w - (intText x).length = k + 1 := ⟨w - (intText x).length - 1, by omega⟩
  rw [hk, List.replicate_succ]
  rfl

theorem findMaxMagnitudeInt_inner (M : Matrix) (i : Nat) (a : Int) (k : Nat) :
    a ≤ (List.range k).foldl (findMaxMagnitudeCellInt M i) a ∧
    ∀ j, j < k →
      cAbsInt (M.elem i j) ≤ (List.range k).foldl (findMaxMagnitudeCellInt M i) a := by
  induction k with
  | zero => simp
  | succ k ih =>
    obtain ⟨h1, h2⟩ := ih
    rw [List.range_succ, List.foldl_append]
    simp only [List.foldl_cons, List.foldl_nil]
    generalize (List.range k).foldl (findMaxMagnitudeCellInt M i) a = r at h1 h2 ⊢
    unfold findMaxMagnitudeCellInt
    split
    · rename_i hgt
      refine ⟨by omega, ?_⟩
      intro j hj
      rcases Nat.lt_succ_iff_lt_or_eq.mp hj with h | h
      · have := h2 j h; omega
      · subst h; exact le_refl _
    · rename_i hgt
      refine ⟨h1, ?_⟩
      intro j hj
      rcases Nat.lt_succ_iff_lt_or_eq.mp hj with h | h
      · exact h2 j h
      · subst h; omega

theorem findMaxMagnitudeInt_outer (M : Matrix) (n k : Nat) :
    0 ≤ (List.range k).foldl
        (fun maxVal i => (List.range n).foldl (findMaxMagnitudeCellInt M i) maxVal) 0 ∧
    ∀ i j, i < k → j < n → cAbsInt (M.elem i j) ≤ (List.range k).foldl
        (fun maxVal i => (List.range n).foldl (findMaxMagnitudeCellInt M i) maxVal) 0 := by
  induction k with
  | zero => simp
  | succ k ih =>
    obtain ⟨h1, h2⟩ := ih
    rw [List.range_succ, List.foldl_append]
    simp only [List.foldl_cons, List.foldl_nil]
    generalize (List.range k).foldl
      (fun maxVal i => (List.range n).foldl (findMaxMagnitudeCellInt M i) maxVal) 0 = r
      at h1 h2 ⊢
    obtain ⟨g1, g2⟩ := findMaxMagnitudeInt_inner M k r n
    refine ⟨by omega, ?_⟩
    intro i j hi hj
    rcases Nat.lt_succ_iff_lt_or_eq.mp hi with h | h
    · have := h2 i j h hj; omega
    · subst h; exact g2 j hj

/-- The maximum the machine computes is not negative and bounds the machine `abs` of
every element. -/
theorem findMaxMagnitudeInt_bounds (M : Matrix) :
    0 ≤ M.findMaxMagnitudeInt ∧
    ∀ i j, i < M._size → j < M._size → cAbsInt (M.elem i j) ≤ M.findMaxMagnitudeInt :=
  findMaxMagnitudeInt_outer M M._size M._size

/-- The `abs` of `int` is the absolute value except at `INT_MIN`. -/
theorem cAbsInt_eq_cAbs {x : Int} (h : isInt x) (hm : x ≠ -2147483648) :
    cAbsInt x = cAbs x := by
  unfold cAbsInt cAbs
  split
  · exact wrapInt_of_isInt (by unfold isInt at h ⊢; omega)
  · rfl

/-- On a matrix of `int` elements none of which is `INT_MIN`, the maximum the machine
computes is the maximum of the absolute values. -/
theorem findMaxMagnitudeInt_eq (M : Matrix)
    (h : ∀ i j, i < M._size → j < M._size →
      isInt (M.elem i j) ∧ M.elem i j ≠ -2147483648) :
    M.findMaxMagnitudeInt = M.findMaxMagnitude := by
  unfold findMaxMagnitudeInt findMaxMagnitude
  apply List.foldl_ext
  intro a i hi
  apply List.foldl_ext
  intro b j hj
  unfold findMaxMagnitudeCellInt findMaxMagnitudeCell
  rw [cAbsInt_eq_cAbs (h i j (List.mem_range.mp hi) (List.mem_range.mp hj)).1
    (h i j (List.mem_range.mp hi) (List.mem_range.mp hj)).2]

theorem natAbs_le_of_cAbsInt_le {x y : Int} (hx : isInt x) (hm : x ≠ -2147483648)
    (hy : 0 ≤ y) (h : cAbsInt x ≤ y) : x.natAbs ≤ y.natAbs := by
  rw [cAbsInt_eq_cAbs hx hm] at h
  unfold cAbs at h
  split at h <;> omega

theorem findMaxMagnitude_bounds (M : Matrix) :
    0 ≤ M.findMaxMagnitude ∧
    ∀ i j, i < M._size → j < M._size → cAbs (M.elem i j) ≤ M.findMaxMagnitude := by
  obtain ⟨h0, hb, _⟩ := findMaxMagnitude_outer M M._size M._size
  exact ⟨h0, hb⟩

theorem natAbs_le_of_cAbs_le {x y : Int} (hy : 0 ≤ y) (h : cAbs x ≤ y) :
    x.natAbs ≤ y.natAbs := by
  unfold cAbs at h
  split at h <;> omega

/-- On a matrix of `int` elements in which `INT_MIN` occurs only when the maximum found
has ten digits, the text of every element is shorter than the field width less one. -/
theorem intText_fits (M : Matrix) (hM : M.WF) (hint : M.AllInt)
    (hmin : M.NoIntMin ∨ 1000000000 ≤ M.findMaxMagnitudeInt) (i j : Nat)
    (hi : i < M._size) (hj : j < M._size) :
    (intText (M.elem i j)).length
      ≤ (Nat.toDigits 10 M.findMaxMagnitudeInt.natAbs).length + 1 := by
  obtain ⟨h0, hb⟩ := findMaxMagnitudeInt_bounds M
  by_cases hm : M.elem i j = -2147483648
  · rcases hmin with hno | hbig
    · exact absurd hm (NoIntMin_elem hM hno hi hj)
    · have h1 : (1000000000 : Nat) ≤ M.findMaxMagnitudeInt.natAbs := by omega
      have h2 := toDigits_length_mono h1
      have h3 : (Nat.toDigits 10 1000000000).length = 10 := by decide
      have h4 : (intText (-2147483648)).length = 11 := by decide
      rw [hm, h4]
      omega
  · have h1 : (M.elem i j).natAbs ≤ M.findMaxMagnitudeInt.natAbs :=
      natAbs_le_of_cAbsInt_le (AllInt_elem hM hint hi hj) hm h0 (hb i j hi hj)
    exact le_trans (intText_length_le _)
      (Nat.add_le_add_right (toDigits_length_mono h1) 1)

theorem intText_findMaxMagnitudeInt (M : Matrix) :
    intText M.findMaxMagnitudeInt = Nat.toDigits 10 M.findMaxMagnitudeInt.natAbs := by
  unfold intText
  rw [if_neg (not_lt.mpr (findMaxMagnitudeInt_bounds M).1)]

theorem takeWhile_drop_run (p : Char → Bool) (run rest : List Char)
    (hrun : ∀ c ∈ run, p c = true) (hrest : ∀ c, rest.head? = some c → p c = false) :
    (run ++ rest).takeWhile p = run ∧ (run ++ rest).dropWhile p = rest := by
  induction run with
  | nil =>
    cases rest with
    | nil => simp
    | cons c rest =>
      have := hrest c rfl
      simp [List.takeWhile_cons, List.dropWhile_cons, this]
  | cons c run ih =>
    have hc := hrun c (List.mem_cons_self _ _)
    obtain ⟨h1, h2⟩ := ih (fun x hx => hrun x (List.mem_cons_of_mem _ hx))
    simp [List.takeWhile_cons, List.dropWhile_cons, hc, h1, h2]

/-- Reading a run of digits that ends at a character that is no digit: the number is
its value, when that is in the range of `int`. -/
theorem extractDigits_run (negative : Bool) (ds rest : List Char) (hne : ds ≠ [])
    (hds : ∀ c ∈ ds, c.isDigit = true)
    (hrest : ∀ c, rest.head? = some c → c.isDigit = false)
    (hint : isInt (if negative then -(digitsValue ds : Int) else (digitsValue ds : Int))) :
    extractDigits negative (ds ++ rest)
      = some (if negative then -(digitsValue ds : Int) else (digitsValue ds : Int), rest) := by
  obtain ⟨h1, h2⟩ := takeWhile_drop_run Char.isDigit ds rest hds hrest
  unfold extractDigits
  simp only [h1, h2]
  rw [if_neg hne, if_pos hint]

theorem digits_of_all {ds : List Char} (h : ds ≠ [] ∧ ds.all Char.isDigit = true) :
    ds ≠ [] ∧ ∀ c ∈ ds, c.isDigit = true :=
  ⟨h.1, fun c hc => List.all_eq_true.mp h.2 c hc⟩

/-- The shape of a decimal integer text: an optional sign, then a non-empty run of
digits whose value, negated after `-`, is the integer denoted. -/
theorem decimalValue_shape {t : List Char} {x : Int} (h : decimalValue t = some x) :
    ∃ (sign ds : List Char) (negative : Bool),
      t = sign ++ ds ∧ ds ≠ [] ∧ (∀ c ∈ ds, c.isDigit = true) ∧
      x = (if negative then -(digitsValue ds : Int) else (digitsValue ds : Int)) ∧
      ((sign = ['-'] ∧ negative = true) ∨ (sign = ['+'] ∧ negative = false) ∨
        (sign = [] ∧ negative = false)) := by
  unfold decimalValue at h
  split at h
  · rename_i ds
    split at h
    · rename_i hd
      obtain ⟨d1, d2⟩ := digits_of_all hd
      exact ⟨['-'], ds, true, rfl, d1, d2, (Option.some.inj h).symm, Or.inl ⟨rfl, rfl⟩⟩
    · exact absurd h (by simp)
  · rename_i ds
    split at h
    · rename_i hd
      obtain ⟨d1, d2⟩ := digits_of_all hd
      exact ⟨['+'], ds, false, rfl, d1, d2, (Option.some.inj h).symm,
        Or.inr (Or.inl ⟨rfl, rfl⟩)⟩
    · exact absurd h (by simp)
  · split at h
    · rename_i hd
      obtain ⟨d1, d2⟩ := digits_of_all hd
      exact ⟨[], t, false, rfl, d1, d2, (Option.some.inj h).symm,
        Or.inr (Or.inr ⟨rfl, rfl⟩)⟩
    · exact absurd h (by simp)

/-- The extraction `ss >> num` reads a decimal integer text in the range of `int`, up
to the first character that is not a digit. -/
theorem extractInt_decimal (t rest : List Char) (x : Int) (ht : decimalValue t = some x)
    (hx : isInt x) (hrest : ∀ c, rest.head? = some c → c.isDigit = false) :
    extractInt (t ++ rest) = some (x, rest) := by
  obtain ⟨sign, ds, negative, rfl, hne, hds, hv, hs⟩ := decimalValue_shape ht
  rw [hv] at hx
  rcases hs with ⟨rfl, rfl⟩ | ⟨rfl, rfl⟩ | ⟨rfl, rfl⟩
  · have hd : (['-'] ++ ds ++ rest).dropWhile isSpace = '-' :: (ds ++ rest) := by
      rw [List.append_assoc, List.singleton_append, List.dropWhile_cons, if_neg (by decide)]
    unfold extractInt
    rw [hd]
    simp only
    rw [extractDigits_run true ds rest hne hds hrest hx, hv]
  · have hd : (['+'] ++ ds ++ rest).dropWhile isSpace = '+' :: (ds ++ rest) := by
      rw [List.append_assoc, List.singleton_append, List.dropWhile_cons, if_neg (by decide)]
    unfold extractInt
    rw [hd]
    simp only
    rw [extractDigits_run false ds rest hne hds hrest hx, hv]
  · obtain ⟨c, l, hcd⟩ := List.exists_cons_of_ne_nil hne
    have hc : c.isDigit = true := hds c (by rw [hcd]; exact List.mem_cons_self _ _)
    have hsp : isSpace c = false := isDigit_not_isSpace c hc
    have hm : c ≠ '-' := by
      intro h; subst h; exact absurd hc (by decide)
    have hp : c ≠ '+' := by
      intro h; subst h; exact absurd hc (by decide)
    have hd : ([] ++ ds ++ rest).dropWhile isSpace = c :: (l ++ rest) := by
      rw [List.nil_append, hcd, List.cons_append, List.dropWhile_cons, hsp]
      simp
    unfold extractInt
    rw [hd]
    split
    · rename_i heq
      exact absurd (List.cons.inj heq).1 hm
    · rename_i heq
      exact absurd (List.cons.inj heq).1 hp
    · rw [← List.cons_append, ← hcd, extractDigits_run false ds rest hne hds hrest hx, hv]

/-- The text `os << x` writes is a decimal integer text denoting `x`. -/
theorem decimalValue_intText (x : Int) : decimalValue (intText x) = some x := by
  have hall : ∀ n, (Nat.toDigits 10 n).all Char.isDigit = true :=
    fun n => List.all_eq_true.mpr (toDigits_isDigit n)
  have hval : ∀ n, digitsValue (Nat.toDigits 10 n) = n := toDigits_value
  unfold intText
  split
  · rename_i hneg
    unfold decimalValue
    simp only
    rw [if_pos ⟨toDigits_ne_nil _, hall _⟩, hval]
    congr 1
    omega
  · rename_i hneg
    obtain ⟨c, ds, hcd⟩ := List.exists_cons_of_ne_nil (toDigits_ne_nil x.natAbs)
    have hc : c.isDigit = true := toDigits_isDigit x.natAbs c (by rw [hcd]; simp)
    have hm : c ≠ '-' := by
      intro h; subst h; exact absurd hc (by decide)
    have hp : c ≠ '+' := by
      intro h; subst h; exact absurd hc (by decide)
    have hgen : ∀ l : List Char, l = Nat.toDigits 10 x.natAbs → decimalValue l = some x := by
      intro l hl
      unfold decimalValue
      split
      · rename_i heq
        rw [hcd] at hl
        exact absurd (List.cons.inj hl).1.symm hm
      · rename_i heq
        rw [hcd] at hl
        exact absurd (List.cons.inj hl).1.symm hp
      · rw [hl, if_pos ⟨toDigits_ne_nil _, hall _⟩, hval]
        congr 1
        omega
    exact hgen _ rfl

/-- The extraction `ss >> num` reads back the decimal text of an `int`, up to the first
character that is not a digit. -/
theorem extractInt_intText (x : Int) (hx : isInt x) (rest : List Char)
    (hrest : ∀ c, rest.head? = some c → c.isDigit = false) :
    extractInt (intText x ++ rest) = some (x, rest) :=
  extractInt_decimal (intText x) rest x (decimalValue_intText x) hx hrest

theorem tokenValue_intText (x : Int) : tokenValue (intText x) = x := by
  unfold tokenValue
  rw [decimalValue_intText]
  rfl

theorem isIntText_intText (x : Int) (hx : isInt x) : isIntText (intText x) := by
  unfold isIntText
  rw [decimalValue_intText]
  exact hx

theorem isIntText_value {t : List Char} (h : isIntText t) :
    decimalValue t = some (tokenValue t) ∧ isInt (tokenValue t) := by
  unfold isIntText at h
  unfold tokenValue
  cases hd : decimalValue t with
  | none => rw [hd] at h; exact absurd h (by simp)
  | some x => rw [hd] at h; exact ⟨rfl, h⟩

/-- A decimal integer text is not empty and holds no white space. -/
theorem decimal_chars {t : List Char} {x : Int} (h : decimalValue t = some x) :
    t ≠ [] ∧ ∀ c ∈ t, isSpace c = false := by
  obtain ⟨sign, ds, negative, rfl, hne, hds, _, hs⟩ := decimalValue_shape h
  refine ⟨by simp [hne], ?_⟩
  intro c hc
  rcases List.mem_append.mp hc with h1 | h1
  · rcases hs with ⟨rfl, _⟩ | ⟨rfl, _⟩ | ⟨rfl, _⟩
    · simp only [List.mem_singleton] at h1; subst h1; decide
    · simp only [List.mem_singleton] at h1; subst h1; decide
    · exact absurd h1 (List.not_mem_nil _)
  · exact isDigit_not_isSpace c (hds c h1)

theorem parseLine_nil (i fuel : Nat) (M : Matrix) (j : Nat) : parseLine i fuel M j [] = M := by
  cases fuel with
  | zero => rfl
  | succ fuel =>
    have : extractInt [] = none := by decide
    simp [parseLine, this]

/-- Parsing a line of decimal integer texts in the range of `int`, separated by single
commas, stores the integers they denote in order. -/
theorem parseLine_tokens (i : Nat) (ts : List (List Char)) :
    ∀ (fuel : Nat) (M : Matrix) (j : Nat), (∀ t ∈ ts, isIntText t) → ts.length ≤ fuel →
      parseLine i fuel M j (joinWith ',' ts) = putRow i M j (ts.map tokenValue) := by
  induction ts with
  | nil =>
    intro fuel M j _ _
    exact parseLine_nil i fuel M j
  | cons t ts ih =>
    intro fuel M j htok hf
    obtain ⟨f, rfl⟩ : ∃ f, fuel = f + 1 := ⟨fuel - 1, by simp at hf; omega⟩
    obtain ⟨hv, hx⟩ := isIntText_value (htok t (List.mem_cons_self _ _))
    cases ts with
    | nil =>
      have h := extractInt_decimal t [] _ hv hx (by simp)
      rw [List.append_nil] at h
      simp only [joinWith, parseLine, h, List.map_cons, List.map_nil, putRow]
      simpa using parseLine_nil i f (M.put i j (tokenValue t)) (j + 1)
    | cons u us =>
      have h := extractInt_decimal t (',' :: joinWith ',' (u :: us)) _ hv hx (by
        intro c hc
        simp only [List.head?_cons, Option.some.injEq] at hc
        subst hc; decide)
      simp only [joinWith, parseLine, h, List.map_cons, putRow]
      simp only [List.head?_cons, if_true, List.tail_cons]
      have := ih f (M.put i j (tokenValue t)) (j + 1)
        (fun v hv => htok v (List.mem_cons_of_mem _ hv)) (by simp at hf ⊢; omega)
      simpa using this

theorem joinWith_chars (ts : List (List Char)) (h : ∀ t ∈ ts, isIntText t) :
    ∀ c ∈ joinWith ',' ts, isSpace c = false := by
  induction ts with
  | nil => simp [joinWith]
  | cons t ts ih =>
    have ht : ∀ c ∈ t, isSpace c = false :=
      (decimal_chars (isIntText_value (h t (List.mem_cons_self _ _))).1).2
    cases ts with
    | nil => simpa [joinWith] using ht
    | cons u us =>
      intro c hc
      simp only [joinWith, List.mem_append, List.mem_cons] at hc
      rcases hc with h1 | h1 | h1
      · exact ht c h1
      · subst h1; decide
      · exact ih (fun v hv => h v (List.mem_cons_of_mem _ hv)) c h1

theorem intText_ne_nil (x : Int) : intText x ≠ [] := by
  unfold intText
  split
  · simp
  · exact toDigits_ne_nil _

theorem joinWith_ne_nil (ts : List (List Char)) (h : ∀ t ∈ ts, isIntText t) (hne : ts ≠ []) :
    joinWith ',' ts ≠ [] := by
  cases ts with
  | nil => exact absurd rfl hne
  | cons t ts =>
    have ht : t ≠ [] := (decimal_chars (isIntText_value (h t (List.mem_cons_self _ _))).1).1
    cases ts with
    | nil => simpa [joinWith] using ht
    | cons u us =>
      simp only [joinWith, ne_eq, List.append_eq_nil, not_and]
      intro e
      exact absurd e ht

theorem joinWith_length (ts : List (List Char)) (h : ∀ t ∈ ts, isIntText t) :
    ts.length ≤ (joinWith ',' ts).length + 1 := by
  induction ts with
  | nil => simp
  | cons t ts ih =>
    cases ts with
    | nil => simp
    | cons u us =>
      have := ih (fun v hv => h v (List.mem_cons_of_mem _ hv))
      simp only [joinWith, List.length_cons, List.length_append] at this ⊢
      omega

/-- The extraction `inFile >> line` takes a string that holds no white space, skipping
the white space before it and stopping at the white space, or the end of the file, after
it. -/
theorem extractString_token (ws line rest : List Char) (hws : ∀ c ∈ ws, isSpace c = true)
    (hline : ∀ c ∈ line, isSpace c = false) (hne : line ≠ [])
    (hrest : ∀ c, rest.head? = some c → isSpace c = true) :
    extractString (ws ++ line ++ rest) = (line, rest) := by
  obtain ⟨c, l, rfl⟩ := List.exists_cons_of_ne_nil hne
  have h1 := takeWhile_drop_run isSpace ws (c :: l ++ rest) hws (by
    intro d hd
    simp only [List.cons_append, List.head?_cons, Option.some.injEq] at hd
    subst hd
    exact hline _ (List.mem_cons_self _ _))
  have h2 := takeWhile_drop_run (fun c => !isSpace c) (c :: l) rest
    (by intro d hd; simp [hline d hd])
    (by intro d hd; simp [hrest d hd])
  unfold extractString
  simp only
  rw [List.append_assoc, h1.2, h2.1, h2.2]

/-- One row of the text constructor on a line of comma-separated decimal integers. -/
theorem newFromFileRow_tokens (M : Matrix) (ws rest : List Char) (ts : List (List Char))
    (i : Nat) (hws : ∀ c ∈ ws, isSpace c = true) (htok : ∀ t ∈ ts, isIntText t)
    (hne : ts ≠ []) (hrest : ∀ c, rest.head? = some c → isSpace c = true) :
    newFromFileRow (M, ws ++ joinWith ',' ts ++ rest) i
      = (putRow i M 0 (ts.map tokenValue), rest) := by
  unfold newFromFileRow
  simp only
  rw [extractString_token ws (joinWith ',' ts) rest hws (joinWith_chars ts htok)
    (joinWith_ne_nil ts htok hne) hrest]
  simp only
  rw [parseLine_tokens i ts _ M 0 htok (joinWith_length ts htok)]

/-- Storing a list of integers into row `i` from column `j`: those elements are
replaced, nothing else changes. -/
theorem putRow_elem (i : Nat) (xs : List Int) :
    ∀ (M : Matrix) (j : Nat), M.WF → i < M._size → j + xs.length ≤ M._size →
      (putRow i M j xs).WF ∧ (putRow i M j xs)._size = M._size ∧
      ∀ r c, (putRow i M j xs).elem r c
        = if r = i ∧ j ≤ c ∧ c < j + xs.length then xs.getD (c - j) 0 else M.elem r c := by
  induction xs with
  | nil =>
    intro M j hM _ _
    refine ⟨hM, rfl, ?_⟩
    intro r c
    simp only [putRow, List.length_nil, Nat.add_zero]
    rw [if_neg (by omega)]
  | cons x xs ih =>
    intro M j hM hi hj
    simp only [List.length_cons] at hj
    obtain ⟨w, s, e⟩ := ih (M.put i j x) (j + 1) (put_WF hM i j x)
      (by rw [put_size]; exact hi) (by rw [put_size]; omega)
    simp only [putRow]
    refine ⟨w, by rw [s, put_size], ?_⟩
    intro r c
    rw [e, elem_put hM hi (by omega)]
    simp only [List.length_cons]
    by_cases hr : r = i
    · by_cases hc : c = j
      · subst hr; subst hc
        rw [if_neg (by omega), if_pos ⟨rfl, rfl⟩, if_pos ⟨rfl, le_refl _, by omega⟩]
        simp
      · by_cases hin : j + 1 ≤ c ∧ c < j + 1 + xs.length
        · rw [if_pos ⟨hr, hin⟩, if_pos ⟨hr, by omega, by omega⟩]
          obtain ⟨k, hk⟩ : ∃ k, c - j = k + 1 := ⟨c - j - 1, by omega⟩
          rw [hk, List.getD_cons_succ]
          congr 1
          omega
        · rw [if_neg (fun h => hin h.2), if_neg (fun h => hc h.2),
            if_neg (fun h => hin ⟨by omega, by omega⟩)]
    · rw [if_neg (fun h => hr h.1), if_neg (fun h => hr h.1), if_neg (fun h => hr h.1)]

/-- The second loop of the text constructor, from row `i0` on, on lines of
comma-separated decimal integers in the range of `int`, one newline between
neighbouring lines: the rows read are filled with the integers of their lines. -/
theorem newFromFile_rows (n : Nat) (rest : List Char)
    (hrest : ∀ c, rest.head? = some c → isSpace c = true) (rs : List (List (List Char))) :
    ∀ (i0 : Nat) (M : Matrix) (ws : List Char), M.WF → M._size = n → 1 ≤ n →
      (∀ r ∈ rs, r.length = n) → (∀ r ∈ rs, ∀ t ∈ r, isIntText t) → i0 + rs.length ≤ n →
      (∀ c ∈ ws, isSpace c = true) →
      ((List.range' i0 rs.length).foldl newFromFileRow
          (M, ws ++ joinWith '\n' (rs.map (joinWith ',')) ++ rest)).1.WF ∧
      ((List.range' i0 rs.length).foldl newFromFileRow
          (M, ws ++ joinWith '\n' (rs.map (joinWith ',')) ++ rest)).1._size = n ∧
      ∀ r c, c < n → ((List.range' i0 rs.length).foldl newFromFileRow
          (M, ws ++ joinWith '\n' (rs.map (joinWith ',')) ++ rest)).1.elem r c
        = if i0 ≤ r ∧ r < i0 + rs.length
          then ((rs.getD (r - i0) []).map tokenValue).getD c 0
          else M.elem r c := by
  induction rs with
  | nil =>
    intro i0 M ws hM hs _ _ _ _ _
    refine ⟨hM, hs, ?_⟩
    intro r c _
    simp only [List.length_nil, Nat.add_zero]
    rw [if_neg (by omega)]
    rfl
  | cons x rs ih =>
    intro i0 M ws hM hs hn hlen htok hi hws
    have hx : x.length = n := hlen x (List.mem_cons_self _ _)
    have hxne : x ≠ [] := by
      intro h; rw [h] at hx; simp at hx; omega
    have hxt : ∀ t ∈ x, isIntText t := htok x (List.mem_cons_self _ _)
    simp only [List.length_cons] at hi
    obtain ⟨w1, s1, e1⟩ := putRow_elem i0 (x.map tokenValue) M 0 hM (by omega)
      (by rw [List.length_map]; omega)
    rw [List.length_map] at e1
    have key : ∃ (ws2 : List Char), (∀ c ∈ ws2, isSpace c = true) ∧
        newFromFileRow (M, ws ++ joinWith '\n' ((x :: rs).map (joinWith ',')) ++ rest) i0
          = (putRow i0 M 0 (x.map tokenValue),
              ws2 ++ joinWith '\n' (rs.map (joinWith ',')) ++ rest) := by
      cases rs with
      | nil =>
        refine ⟨[], by simp, ?_⟩
        simp only [List.map_cons, List.map_nil, joinWith, List.nil_append]
        exact newFromFileRow_tokens M ws rest x i0 hws hxt hxne hrest
      | cons y ys =>
        refine ⟨['\n'], by
          intro c hc
          simp only [List.mem_singleton] at hc
          subst hc; decide, ?_⟩
        have htext : ws ++ joinWith '\n' ((x :: y :: ys).map (joinWith ',')) ++ rest
            = ws ++ joinWith ',' x
              ++ (['\n'] ++ joinWith '\n' ((y :: ys).map (joinWith ',')) ++ rest) := by
          simp only [List.map_cons, joinWith, List.append_assoc, List.cons_append,
            List.nil_append]
        rw [htext]
        exact newFromFileRow_tokens M ws _ x i0 hws hxt hxne (by
          intro c hc
          simp only [List.append_assoc, List.singleton_append, List.cons_append,
            List.head?_cons, Option.some.injEq] at hc
          subst hc; decide)
    obtain ⟨ws2, hws2, hrow⟩ := key
    simp only [List.length_cons, List.range'_succ, List.foldl_cons]
    rw [hrow]
    obtain ⟨w2, s2, e2⟩ := ih (i0 + 1) (putRow i0 M 0 (x.map tokenValue)) ws2 w1
      (by rw [s1, hs]) hn (fun r hr => hlen r (List.mem_cons_of_mem _ hr))
      (fun r hr => htok r (List.mem_cons_of_mem _ hr)) (by omega) hws2
    refine ⟨w2, s2, ?_⟩
    intro r c hc
    rw [e2 r c hc, e1]
    by_cases h1 : i0 + 1 ≤ r ∧ r < i0 + 1 + rs.length
    · rw [if_pos h1, if_pos ⟨by omega, by omega⟩]
      obtain ⟨k, hk⟩ : ∃ k, r - i0 = k + 1 := ⟨r - i0 - 1, by omega⟩
      have hk2 : r - (i0 + 1) = k := by omega
      rw [hk, hk2, List.getD_cons_succ]
    · rw [if_neg h1]
      by_cases h2 : r = i0
      · subst h2
        rw [if_pos ⟨rfl, by omega, by omega⟩, if_pos ⟨le_refl _, by omega⟩]
        simp
      · rw [if_neg (fun h => h2 h.1), if_neg (fun h => h1 ⟨by omega, by omega⟩)]

theorem elem_map_tokens (n : Nat) (rows : List (List (List Char))) (i j : Nat)
    (hi : i < rows.length) (hj : j < (rows.getD i []).length) :
    (Matrix.mk n (rows.map fun r => r.map tokenValue)).elem i j
      = tokenValue ((rows.getD i []).getD j []) := by
  have h1 : (rows.map fun r => r.map tokenValue).getD i [] = (rows.getD i []).map tokenValue := by
    rw [List.getD_eq_getElem _ _ (by rw [List.length_map]; exact hi), List.getElem_map,
      List.getD_eq_getElem _ _ hi]
  simp only [elem]
  rw [h1, List.getD_eq_getElem _ _ (by rw [List.length_map]; exact hj), List.getElem_map,
    List.getD_eq_getElem _ _ hj]

theorem alloc_WF (n : Nat) (junk : Nat → Nat → Int) :
    (Matrix.mk n ((List.range n).map fun i => allocRow n i junk)).WF := by
  refine ⟨by simp, ?_⟩
  intro row hrow
  simp only [List.mem_map, List.mem_range] at hrow
  obtain ⟨i, _, rfl⟩ := hrow
  simp [allocRow]

/-- The round trip through text of a matrix of size 1 holding an `int`. -/
theorem print_parse_one (a : Int) (ha : isInt a) (junk : Nat → Nat → Int) :
    (newFromFile (operator_out [] ⟨1, [[a]]⟩) 1 junk).1 = ⟨1, [[a]]⟩ := by
  have htext : operator_out [] ⟨1, [[a]]⟩
      = List.replicate
          (((intText (findMaxMagnitudeInt ⟨1, [[a]]⟩)).length + 2) - (intText a).length) ' '
        ++ joinWith ',' [intText a] ++ ['\n'] := by
    rw [operator_out_eq]
    simp [putField, joinWith, elem, List.range_succ]
  unfold newFromFile
  simp only [List.range_succ, List.range_zero, List.nil_append, List.map_cons, List.map_nil,
    List.foldl_cons, List.foldl_nil]
  rw [htext, newFromFileRow_tokens _ _ ['\n'] [intText a] 0
    (by intro c hc; rw [List.eq_of_mem_replicate hc]; decide)
    (by
      intro t ht
      simp only [List.mem_singleton] at ht
      subst ht
      exact isIntText_intText a ha)
    (by simp)
    (by
      intro c hc
      simp only [List.head?_cons, Option.some.injEq] at hc
      subst hc; decide)]
  simp [putRow, put, allocRow, List.range_succ, tokenValue_intText]

theorem elem_put_other_row (M : Matrix) (i j : Nat) (v : Int) {r : Nat} (h : r ≠ i)
    (c : Nat) : (M.put i j v).elem r c = M.elem r c := by
  simp only [elem, put, List.getD_eq_getElem?_getD, List.getElem?_set]
  rw [if_neg (fun e => h e.symm)]

/-- The parsing loop of row `i` writes into row `i` only. -/
theorem parseLine_other_rows (i : Nat) {r : Nat} (h : r ≠ i) (c : Nat) :
    ∀ (fuel : Nat) (M : Matrix) (j : Nat) (ss : List Char),
      (parseLine i fuel M j ss).elem r c = M.elem r c := by
  intro fuel
  induction fuel with
  | zero => intro M j ss; rfl
  | succ fuel ih =>
    intro M j ss
    simp only [parseLine]
    split
    · rfl
    · rw [ih, elem_put_other_row M i j _ h]

theorem newFromFile_other_rows {r : Nat} (c : Nat) (l : List Nat) (hl : r ∉ l) :
    ∀ st : Matrix × List Char, (l.foldl newFromFileRow st).1.elem r c = st.1.elem r c := by
  induction l with
  | nil => intro st; rfl
  | cons i l ih =>
    intro st
    simp only [List.foldl_cons]
    rw [ih (fun h => hl (List.mem_cons_of_mem _ h))]
    unfold newFromFileRow
    simp only
    exact parseLine_other_rows i (fun h => hl (h ▸ List.mem_cons_self _ _)) c _ _ _ _

theorem intText_no_space (x : Int) : ∀ c ∈ intText x, isSpace c = false := by
  intro c hc
  rcases intText_chars x c hc with h | h
  · subst h; decide
  · exact isDigit_not_isSpace c h

/-- Parsing the rendering of a matrix of size at least 2: the first string read is the
text of element (0, 0) alone, so element (0, 1) is never written. -/
theorem print_parse_first_row (M : Matrix) (hM : M.WF) (hint : M.AllInt)
    (hmin : M.NoIntMin ∨ 1000000000 ≤ M.findMaxMagnitudeInt) (hn : 2 ≤ M._size)
    (junk : Nat → Nat → Int) :
    (newFromFile (operator_out [] M) M._size junk).1.elem 0 0 = M.elem 0 0 ∧
    (newFromFile (operator_out [] M) M._size junk).1.elem 0 1 = junk 0 1 := by
  obtain ⟨k, hk⟩ : ∃ k, M._size = k + 2 := ⟨M._size - 2, by omega⟩
  have hmax := intText_findMaxMagnitudeInt M
  have hlen : ∀ i j, i < M._size → j < M._size →
      (intText (M.elem i j)).length < (intText M.findMaxMagnitudeInt).length + 2 := by
    intro i j hi hj
    have := intText_fits M hM hint hmin i j hi hj
    rw [hmax]
    omega
  -- the text starts with field (0, 0) followed by field (0, 1), which starts with a space
  obtain ⟨tail, htail⟩ : ∃ tail, operator_out [] M
      = putField ((intText M.findMaxMagnitudeInt).length + 2) (M.elem 0 0)
        ++ (putField ((intText M.findMaxMagnitudeInt).length + 2) (M.elem 0 1) ++ tail) := by
    have hr : List.range (k + 2) = 0 :: 1 :: List.range' 2 k := by
      rw [List.range_eq_range']
      rfl
    rw [operator_out_eq, hk, hr]
    simp only [List.flatMap_cons, List.nil_append, List.append_assoc]
    exact ⟨_, rfl⟩
  obtain ⟨z, hz⟩ : ∃ z, putField ((intText M.findMaxMagnitudeInt).length + 2) (M.elem 0 1)
      = ' ' :: z := by
    have hh := putField_head _ _ (hlen 0 1 (by omega) (by omega))
    cases hp : putField ((intText M.findMaxMagnitudeInt).length + 2) (M.elem 0 1) with
    | nil => rw [hp] at hh; simp at hh
    | cons a z =>
      rw [hp] at hh
      simp only [List.head?_cons, Option.some.injEq] at hh
      exact ⟨z, by rw [hh]⟩
  have hfirst : newFromFileRow
      (Matrix.mk M._size ((List.range M._size).map fun i => allocRow M._size i junk),
        operator_out [] M) 0
      = ((Matrix.mk M._size ((List.range M._size).map fun i =>
            allocRow M._size i junk)).put 0 0 (M.elem 0 0), ' ' :: (z ++ tail)) := by
    unfold newFromFileRow
    simp only
    rw [htail, hz]
    have hsplit : putField ((intText M.findMaxMagnitudeInt).length + 2) (M.elem 0 0)
          ++ (' ' :: z ++ tail)
        = List.replicate (((intText M.findMaxMagnitudeInt).length + 2)
            - (intText (M.elem 0 0)).length) ' '
          ++ intText (M.elem 0 0) ++ ' ' :: (z ++ tail) := by
      simp [putField]
    rw [hsplit, extractString_token _ _ _
      (by intro c hc; rw [List.eq_of_mem_replicate hc]; decide)
      (intText_no_space _) (intText_ne_nil _)
      (by
        intro c hc
        simp only [List.head?_cons, Option.some.injEq] at hc
        subst hc; decide)]
    simp only
    have hp := parseLine_tokens 0 [intText (M.elem 0 0)] ((intText (M.elem 0 0)).length + 1)
      (Matrix.mk M._size ((List.range M._size).map fun i => allocRow M._size i junk)) 0
      (by
        intro t ht
        simp only [List.mem_singleton] at ht
        subst ht
        exact isIntText_intText _ (AllInt_elem hM hint (by omega) (by omega)))
      (by simp)
    simp only [joinWith, List.map_cons, List.map_nil, putRow, tokenValue_intText] at hp
    rw [hp]
  have hrun : newFromFile (operator_out [] M) M._size junk
      = (List.range' 1 (k + 1)).foldl newFromFileRow
          ((Matrix.mk M._size ((List.range M._size).map fun i =>
            allocRow M._size i junk)).put 0 0 (M.elem 0 0), ' ' :: (z ++ tail)) := by
    have hfold : ∀ st : Matrix × List Char,
        (List.range M._size).foldl newFromFileRow st
          = (List.range' 1 (k + 1)).foldl newFromFileRow (newFromFileRow st 0) := by
      intro st
      have hr2 : List.range M._size = 0 :: List.range' 1 (k + 1) := by
        rw [hk, List.range_eq_range']
        rfl
      rw [hr2, List.foldl_cons]
    unfold newFromFile
    simp only
    rw [hfold, hfirst]
  have hnot : 0 ∉ List.range' 1 (k + 1) := by
    simp only [List.mem_range', not_exists, not_and]
    intro x _
    omega
  have hw : (Matrix.mk M._size ((List.range M._size).map fun i =>
      allocRow M._size i junk)).WF := by
    refine ⟨by simp, ?_⟩
    intro row hrow
    simp only [List.mem_map, List.mem_range] at hrow
    obtain ⟨i, _, rfl⟩ := hrow
    simp [allocRow]
  have hjunk : (Matrix.mk M._size ((List.range M._size).map fun i =>
      allocRow M._size i junk)).elem 0 1 = junk 0 1 := by
    have hrow : ∀ f : Nat → List Int, ((List.range M._size).map f).getD 0 [] = f 0 := by
      intro f
      rw [List.getD_eq_getElem _ _ (by simp; omega)]
      simp
    have hcell : ((List.range M._size).map (junk 0)).getD 1 0 = junk 0 1 := by
      rw [List.getD_eq_getElem _ _ (by simp; omega)]
      simp
    simp only [elem, allocRow]
    rw [hrow, hcell]
  rw [hrun, newFromFile_other_rows 0 _ hnot, newFromFile_other_rows 1 _ hnot]
  simp only
  rw [elem_put hw (show 0 < M._size by omega) (show 0 < M._size by omega),
    elem_put hw (show 0 < M._size by omega) (show 0 < M._size by omega)]
  simp [hjunk]

theorem takeWhile_dropWhile_length (p : Char → Bool) (l : List Char) :
    (l.takeWhile p).length + (l.dropWhile p).length = l.length := by
  conv_rhs => rw [← List.takeWhile_append_dropWhile p l]
  rw [List.length_append]

theorem extractDigits_shorter (negative : Bool) (ss rest : List Char) (v : Int)
    (h : extractDigits negative ss = some (v, rest)) : rest.length < ss.length := by
  unfold extractDigits at h
  simp only at h
  split at h
  · exact absurd h (by simp)
  · rename_i hne
    have hl := takeWhile_dropWhile_length Char.isDigit ss
    have hpos : 0 < (ss.takeWhile Char.isDigit).length := List.length_pos.mpr hne
    split at h <;> split at h <;>
      first
      | (have h2 : ss.dropWhile Char.isDigit = rest := (Prod.mk.inj (Option.some.inj h)).2
         rw [← h2]
         omega)
      | exact Option.noConfusion h

/-- A successful extraction `ss >> num` consumes at least one character. -/
theorem extractInt_shorter (ss rest : List Char) (v : Int)
    (h : extractInt ss = some (v, rest)) : rest.length < ss.length := by
  have hd := takeWhile_dropWhile_length isSpace ss
  unfold extractInt at h
  split at h
  · rename_i t heq
    have := extractDigits_shorter _ _ _ _ h
    rw [heq] at hd
    simp only [List.length_cons] at hd
    omega
  · rename_i t heq
    have := extractDigits_shorter _ _ _ _ h
    rw [heq] at hd
    simp only [List.length_cons] at hd
    omega
  · have := extractDigits_shorter _ _ _ _ h
    omega

/-- The parsing loop never runs out of the fuel the text constructor gives it: any two
amounts above the length of the string give the same result, the loop ending when an
extraction fails. -/
theorem parseLine_fuel (i : Nat) :
    ∀ (f1 f2 : Nat) (M : Matrix) (j : Nat) (ss : List Char),
      ss.length < f1 → ss.length < f2 →
      parseLine i f1 M j ss = parseLine i f2 M j ss := by
  intro f1
  induction f1 with
  | zero => intro f2 M j ss h1 _; omega
  | succ f1 ih =>
    intro f2 M j ss h1 h2
    obtain ⟨g, rfl⟩ : ∃ g, f2 = g + 1 := ⟨f2 - 1, by omega⟩
    simp only [parseLine]
    cases he : extractInt ss with
    | none => rfl
    | some r =>
      obtain ⟨num, rest⟩ := r
      have hs := extractInt_shorter ss rest num he
      simp only
      have hl : (if rest.head? = some ',' then rest.tail else rest).length ≤ rest.length := by
        split
        · simp
        · exact le_refl _
      exact ih g _ _ _ (by omega) (by omega)

end Matrix

namespace MatrixRef

/-- The state of the constructor `Matrix(size, false)` on the store after `k` rows: the
rows allocated so far are the fresh arrays, in order, each of `size` integers, and the
arrays that existed before are untouched. -/
theorem new_rows (size : Nat) (s : Store) (junkPtr : Nat → Nat) (junk : Nat → Nat → Int)
    (k : Nat) (hk : k ≤ size) :
    ((List.range k).foldl (newRow false junk)
        (s, ⟨size, (List.range size).map junkPtr⟩)).2._size = size ∧
    ((List.range k).foldl (newRow false junk)
        (s, ⟨size, (List.range size).map junkPtr⟩)).2._matrix.length = size ∧
    (∀ i, i < k → ((List.range k).foldl (newRow false junk)
        (s, ⟨size, (List.range size).map junkPtr⟩)).2._matrix.getD i 0
      = s.arrays.length + i) ∧
    ((List.range k).foldl (newRow false junk)
        (s, ⟨size, (List.range size).map junkPtr⟩)).1.arrays.length
      = s.arrays.length + k ∧
    (∀ q, q < s.arrays.length → ((List.range k).foldl (newRow false junk)
        (s, ⟨size, (List.range size).map junkPtr⟩)).1.arrays.getD q []
      = s.arrays.getD q []) ∧
    ∀ i, i < k →
      (((List.range k).foldl (newRow false junk)
        (s, ⟨size, (List.range size).map junkPtr⟩)).1.arrays.getD
          (s.arrays.length + i) []).length = size := by
  induction k with
  | zero => simp
  | succ k ih =>
    obtain ⟨a1, a2, a3, a4, a5, a6⟩ := ih (by omega)
    rw [List.range_succ, List.foldl_append]
    simp only [List.foldl_cons, List.foldl_nil]
    generalize (List.range k).foldl (newRow false junk)
      (s, ⟨size, (List.range size).map junkPtr⟩) = st at a1 a2 a3 a4 a5 a6 ⊢
    obtain ⟨t, ⟨sz, ptrs⟩⟩ := st
    simp only at a1 a2 a3 a4 a5 a6
    subst a1
    simp only [newRow, Store.newArray, Bool.false_eq_true, if_false]
    have hset : ∀ i, (ptrs.set k t.arrays.length).getD i 0
        = if i = k then t.arrays.length else ptrs.getD i 0 := by
      intro i
      rw [List.getD_eq_getElem?_getD, List.getElem?_set, List.getD_eq_getElem?_getD]
      by_cases h : k = i
      · subst h
        rw [if_pos rfl, if_pos rfl, if_pos (by rw [a2]; omega)]
        rfl
      · rw [if_neg h, if_neg (fun e => h e.symm)]
    have hpre : ∀ q, q < t.arrays.length →
        (t.arrays ++ [(List.range sz).map (junk k)]).getD q [] = t.arrays.getD q [] := by
      intro q hq
      simp only [List.getD_eq_getElem?_getD]
      rw [List.getElem?_append_left hq]
    refine ⟨trivial, by rw [List.length_set]; exact a2, ?_, by simp [a4]; omega, ?_, ?_⟩
    · intro i hi
      rw [hset]
      by_cases h : i = k
      · rw [if_pos h, a4, h]
      · rw [if_neg h]; exact a3 i (by omega)
    · intro q hq
      rw [hpre q (by omega), a5 q hq]
    · intro i hi
      by_cases h : i = k
      · subst h
        rw [List.getD_eq_getElem _ _ (by simp [a4])]
        rw [List.getElem_append_right (by omega)]
        simp [a4]
      · rw [hpre _ (by omega)]
        exact a6 i (by omega)

/-- What `new Matrix(size, false)` establishes on the store. -/
theorem new_spec (size : Nat) (s : Store) (junkPtr : Nat → Nat) (junk : Nat → Nat → Int) :
    (MatrixRef.new size false s junkPtr junk).2._size = size ∧
    (MatrixRef.new size false s junkPtr junk).2._matrix.length = size ∧
    (∀ i, i < size →
      (MatrixRef.new size false s junkPtr junk).2._matrix.getD i 0 = s.arrays.length + i) ∧
    (MatrixRef.new size false s junkPtr junk).1.arrays.length = s.arrays.length + size ∧
    (∀ q, q < s.arrays.length →
      (MatrixRef.new size false s junkPtr junk).1.arrays.getD q [] = s.arrays.getD q []) ∧
    ∀ i, i < size →
      ((MatrixRef.new size false s junkPtr junk).1.arrays.getD (s.arrays.length + i) []).length
        = size :=
  new_rows size s junkPtr junk size (le_refl _)

/-- Two nested counting loops that store `g i j` of the current store into element
`(i, j)` of a freshly allocated matrix, `g` reading only arrays that existed before the
allocation: the old arrays are untouched and element `(i, j)` ends as `F i j`. -/
theorem fill_fresh (L n : Nat) (this : MatrixRef) (t0 : Store)
    (cell : Nat → Store → Nat → Store) (g : Nat → Nat → Store → Int) (F : Nat → Nat → Int)
    (hcell : ∀ i t j, cell i t j = t.store (this._matrix.getD i 0) j (g i j t))
    (hptr : ∀ i, i < n → this._matrix.getD i 0 = L + i)
    (hlen : t0.arrays.length = L + n)
    (hrow : ∀ i, i < n → (t0.arrays.getD (L + i) []).length = n)
    (hg : ∀ i j t, i < n → j < n →
      (∀ q, q < L → t.arrays.getD q [] = t0.arrays.getD q []) → g i j t = F i j)
    (k : Nat) (hk : k ≤ n) :
    ((List.range k).foldl (fun t i => (List.range n).foldl (cell i) t) t0).arrays.length
      = L + n ∧
    (∀ q, q < L →
      ((List.range k).foldl (fun t i => (List.range n).foldl (cell i) t) t0).arrays.getD q []
        = t0.arrays.getD q []) ∧
    (∀ i, i < n →
      (((List.range k).foldl (fun t i => (List.range n).foldl (cell i) t) t0).arrays.getD
        (L + i) []).length = n) ∧
    ∀ i j, i < k → j < n →
      ((List.range k).foldl (fun t i => (List.range n).foldl (cell i) t) t0).load (L + i) j
        = F i j := by
  have inner : ∀ (i : Nat), i < n → ∀ (t : Store), t.arrays.length = L + n →
      (∀ q, q < L → t.arrays.getD q [] = t0.arrays.getD q []) →
      (∀ r, r < n → (t.arrays.getD (L + r) []).length = n) →
      ∀ c, c ≤ n →
        ((List.range c).foldl (cell i) t).arrays.length = L + n ∧
        (∀ q, q ≠ L + i →
          ((List.range c).foldl (cell i) t).arrays.getD q [] = t.arrays.getD q []) ∧
        (((List.range c).foldl (cell i) t).arrays.getD (L + i) []).length = n ∧
        ∀ j, j < c → ((List.range c).foldl (cell i) t).load (L + i) j = F i j := by
    intro i hi t ht hpre hrows c
    induction c with
    | zero =>
      intro _
      exact ⟨ht, fun _ _ => rfl, hrows i hi, fun j hj => absurd hj (Nat.not_lt_zero _)⟩
    | succ c ih =>
      intro hc
      obtain ⟨l, f, r, e⟩ := ih (by omega)
      rw [List.range_succ, List.foldl_append]
      simp only [List.foldl_cons, List.foldl_nil]
      generalize (List.range c).foldl (cell i) t = u at l f r e ⊢
      rw [hcell, hptr i hi]
      have hu : L + i < u.arrays.length := by rw [l]; omega
      have hgu : g i c u = F i c := by
        apply hg i c u hi (by omega)
        intro q hq
        rw [f q (by omega), hpre q hq]
      refine ⟨by rw [Store.store_length, l], ?_, ?_, ?_⟩
      · intro q hq
        rw [Store.store_getD_ne _ _ _ _ hq, f q hq]
      · rw [Store.store_getD_same _ _ _ _ hu, List.length_set, r]
      · intro j hj
        rw [Store.load_store u (L + i) c _ hu (by rw [r]; omega)]
        by_cases h : j = c
        · subst h
          rw [if_pos ⟨rfl, rfl⟩, hgu]
        · rw [if_neg (fun x => h x.2)]
          exact e j (by omega)
  induction k with
  | zero =>
    exact ⟨hlen, fun _ _ => rfl, hrow, fun i j hi _ => absurd hi (Nat.not_lt_zero _)⟩
  | succ k ih =>
    obtain ⟨l, p, r, e⟩ := ih (by omega)
    rw [List.range_succ, List.foldl_append]
    simp only [List.foldl_cons, List.foldl_nil]
    generalize (List.range k).foldl (fun t i => (List.range n).foldl (cell i) t) t0 = t
      at l p r e ⊢
    obtain ⟨l2, f2, r2, e2⟩ := inner k (by omega) t l p r n (le_refl _)
    refine ⟨l2, ?_, ?_, ?_⟩
    · intro q hq
      rw [f2 q (by omega), p q hq]
    · intro i hi
      by_cases h : i = k
      · subst h; exact r2
      · rw [f2 _ (by omega)]; exact r i hi
    · intro i j hi hj
      by_cases h : i = k
      · subst h; exact e2 j hj
      · have := e i j (by omega) hj
        unfold Store.load at this ⊢
        rw [f2 _ (by omega)]
        exact this

/-- The shape and the frame of an operator that allocates its result and fills it from
its operands: the result is a valid matrix of size `n` in fresh storage, its elements
are `F`, and every array that existed before is untouched. -/
theorem binary_spec (m1 : MatrixRef) (s : Store)
    (junkPtr : Nat → Nat) (junk : Nat → Nat → Int)
    (cell : MatrixRef → Nat → Store → Nat → Store)
    (g : Nat → Nat → Store → Int) (F : Nat → Nat → Int)
    (hcell : ∀ this i t j, cell this i t j = t.store (this._matrix.getD i 0) j (g i j t))
    (hg : ∀ i j t, i < m1._size → j < m1._size →
      (∀ q, q < s.arrays.length → t.arrays.getD q [] = s.arrays.getD q []) → g i j t = F i j) :
    (MatrixRef.new m1._size false s junkPtr junk).2._size = m1._size ∧
    (MatrixRef.new m1._size false s junkPtr junk).2.Valid
      ((List.range m1._size).foldl (fun t i => (List.range m1._size).foldl
        (cell (MatrixRef.new m1._size false s junkPtr junk).2 i) t)
        (MatrixRef.new m1._size false s junkPtr junk).1) ∧
    (∀ q, q < s.arrays.length →
      ((List.range m1._size).foldl (fun t i => (List.range m1._size).foldl
        (cell (MatrixRef.new m1._size false s junkPtr junk).2 i) t)
        (MatrixRef.new m1._size false s junkPtr junk).1).arrays.getD q []
        = s.arrays.getD q []) ∧
    ∀ i j, i < m1._size → j < m1._size →
      ((MatrixRef.new m1._size false s junkPtr junk).2.value
        ((List.range m1._size).foldl (fun t i => (List.range m1._size).foldl
          (cell (MatrixRef.new m1._size false s junkPtr junk).2 i) t)
          (MatrixRef.new m1._size false s junkPtr junk).1)).elem i j = F i j := by
  obtain ⟨n1, n2, n3, n4, n5, n6⟩ := new_spec m1._size s junkPtr junk
  generalize MatrixRef.new m1._size false s junkPtr junk = a at n1 n2 n3 n4 n5 n6 ⊢
  obtain ⟨t0, this⟩ := a
  simp only at n1 n2 n3 n4 n5 n6 ⊢
  obtain ⟨l, p, r, e⟩ := fill_fresh s.arrays.length m1._size this t0 (cell this) g F
    (hcell this) n3 n4 n6
    (by
      intro i j t hi hj ht
      apply hg i j t hi hj
      intro q hq
      rw [ht q hq, n5 q hq])
    m1._size (le_refl _)
  refine ⟨n1, ⟨by rw [n2, n1], ?_⟩, ?_, ?_⟩
  · intro q hq
    obtain ⟨i, hi, rfl⟩ := List.getElem_of_mem hq
    have hi2 : i < m1._size := by omega
    have : this._matrix[i] = s.arrays.length + i := by
      rw [← List.getD_eq_getElem _ 0 hi]; exact n3 i hi2
    rw [this, n1, l]
    exact ⟨by omega, r i hi2⟩
  · intro q hq
    rw [p q hq, n5 q hq]
  · intro i j hi hj
    rw [value_elem _ _ (by rw [n2]; exact hi), n3 i hi]
    exact e i j hi hj

/-- An object valid in `s` reads the same element from every store that agrees with `s`
on the arrays of `s`. -/
theorem load_frame (o : MatrixRef) (s t : Store) (hv : o.Valid s)
    (ht : ∀ q, q < s.arrays.length → t.arrays.getD q [] = s.arrays.getD q [])
    (i j : Nat) (hi : i < o._size) :
    t.load (o._matrix.getD i 0) j = (o.value s).elem i j := by
  have hl : i < o._matrix.length := by rw [hv.1]; exact hi
  rw [value_elem _ _ hl]
  unfold Store.load
  rw [ht _ (hv.2 _ (by rw [List.getD_eq_getElem _ 0 hl]; exact List.getElem_mem hl)).1]

/-- An object valid in `s` denotes the same matrix in every store that agrees with `s`
on the arrays of `s`. -/
theorem value_frame (o : MatrixRef) (s t : Store) (hv : o.Valid s)
    (ht : ∀ q, q < s.arrays.length → t.arrays.getD q [] = s.arrays.getD q []) :
    o.value t = o.value s :=
  value_congr o s t fun p hp => ht p (hv.2 p hp).1

/-- The function `operator+` on the store: the result is a valid matrix of the size of
`m1` in fresh storage, its elements are the `int` sums, and no array that existed before
the call is written. -/
theorem operator_plus_spec (m1 m2 : MatrixRef) (s : Store) (h1 : m1.Valid s)
    (h2 : m2.Valid s) (hs : m2._size = m1._size) (junkPtr : Nat → Nat)
    (junk : Nat → Nat → Int) :
    (operator_plus m1 m2 s junkPtr junk).2._size = m1._size ∧
    (operator_plus m1 m2 s junkPtr junk).2.Valid (operator_plus m1 m2 s junkPtr junk).1 ∧
    (∀ q, q < s.arrays.length →
      (operator_plus m1 m2 s junkPtr junk).1.arrays.getD q [] = s.arrays.getD q []) ∧
    ∀ i j, i < m1._size → j < m1._size →
      ((operator_plus m1 m2 s junkPtr junk).2.value
        (operator_plus m1 m2 s junkPtr junk).1).elem i j
        = wrapInt ((m1.value s).elem i j + (m2.value s).elem i j) :=
  binary_spec m1 s junkPtr junk (operator_plusCell m1 m2)
    (fun i j t => wrapInt (t.load (m1._matrix.getD i 0) j + t.load (m2._matrix.getD i 0) j))
    (fun i j => wrapInt ((m1.value s).elem i j + (m2.value s).elem i j))
    (fun _ _ _ _ => rfl)
    (fun i j t hi _ ht => by
      simp only
      rw [load_frame m1 s t h1 ht i j hi, load_frame m2 s t h2 ht i j (by rw [hs]; exact hi)])

/-- The function `operator-` on the store, as `operator_plus_spec`. -/
theorem operator_minus_spec (m1 m2 : MatrixRef) (s : Store) (h1 : m1.Valid s)
    (h2 : m2.Valid s) (hs : m2._size = m1._size) (junkPtr : Nat → Nat)
    (junk : Nat → Nat → Int) :
    (operator_minus m1 m2 s junkPtr junk).2._size = m1._size ∧
    (operator_minus m1 m2 s junkPtr junk).2.Valid (operator_minus m1 m2 s junkPtr junk).1 ∧
    (∀ q, q < s.arrays.length →
      (operator_minus m1 m2 s junkPtr junk).1.arrays.getD q [] = s.arrays.getD q []) ∧
    ∀ i j, i < m1._size → j < m1._size →
      ((operator_minus m1 m2 s junkPtr junk).2.value
        (operator_minus m1 m2 s junkPtr junk).1).elem i j
        = wrapInt ((m1.value s).elem i j - (m2.value s).elem i j) :=
  binary_spec m1 s junkPtr junk (operator_minusCell m1 m2)
    (fun i j t => wrapInt (t.load (m1._matrix.getD i 0) j - t.load (m2._matrix.getD i 0) j))
    (fun i j => wrapInt ((m1.value s).elem i j - (m2.value s).elem i j))
    (fun _ _ _ _ => rfl)
    (fun i j t hi _ ht => by
      simp only
      rw [load_frame m1 s t h1 ht i j hi, load_frame m2 s t h2 ht i j (by rw [hs]; exact hi)])

end MatrixRef

/-- A fallible loop whose body keeps an invariant and returns whenever the invariant
holds, returns with the invariant. -/
theorem foldlM_some {α β : Type} (P : β → Prop) (f : β → α → Option β) (l : List α)
    (h : ∀ b a, P b → ∃ c, f b a = some c ∧ P c) (b : β) (hb : P b) :
    ∃ c, l.foldlM f b = some c ∧ P c := by
  induction l generalizing b with
  | nil => exact ⟨b, rfl, hb⟩
  | cons a l ih =>
    obtain ⟨c, hc, pc⟩ := h b a hb
    obtain ⟨d, hd, pd⟩ := ih c pc
    refine ⟨d, ?_, pd⟩
    rw [List.foldlM_cons, hc]
    exact hd

/-- A fallible loop whose body keeps an invariant keeps it whenever it returns. -/
theorem foldlM_inv {α β : Type} (P : β → Prop) (f : β → α → Option β) (l : List α)
    (h : ∀ b a c, P b → f b a = some c → P c) (b : β) (hb : P b) (c : β)
    (hc : l.foldlM f b = some c) : P c := by
  induction l generalizing b with
  | nil =>
    have : some b = some c := hc
    exact (Option.some.inj this) ▸ hb
  | cons a l ih =>
    rw [List.foldlM_cons] at hc
    cases hf : f b a with
    | none => rw [hf] at hc; exact absurd hc (by simp)
    | some d =>
      rw [hf] at hc
      exact ih d (h b a d hb hf) hc

namespace Matrix

/-- One iteration of `modMultiplyScalar` in `int` arithmetic keeps the shape whenever it
returns. -/
theorem modMultiplyScalarCellInt_shape (val mod : Int) (i j n : Nat) (M M1 : Matrix)
    (hM : M._size = n ∧ M.WF) (h : modMultiplyScalarCellInt val mod i M j = some M1) :
    M1._size = n ∧ M1.WF := by
  unfold modMultiplyScalarCellInt at h
  simp only at h
  cases hr : cRemTrap ((M.put i j (wrapInt (M.elem i j * val))).elem i j) mod with
  | none => rw [hr] at h; exact absurd h (by simp)
  | some r =>
    rw [hr] at h
    simp only [Option.some.injEq] at h
    subst h
    split
    · exact ⟨hM.1, put_WF (put_WF (put_WF hM.2 _ _ _) _ _ _) _ _ _⟩
    · exact ⟨hM.1, put_WF (put_WF hM.2 _ _ _) _ _ _⟩

/-- One iteration of `modMultiplyScalar` in `int` arithmetic returns when the modulus is
neither `0` nor `-1`. -/
theorem modMultiplyScalarCellInt_some (val mod : Int) (h0 : mod ≠ 0) (h1 : mod ≠ -1)
    (i j : Nat) (M : Matrix) : ∃ M1, modMultiplyScalarCellInt val mod i M j = some M1 := by
  unfold modMultiplyScalarCellInt
  simp only [cRemTrap, if_neg h0, h1, and_false, if_false]
  exact ⟨_, rfl⟩

/-- The method `modMultiplyScalar` in `int` arithmetic keeps size and shape whenever it
returns. -/
theorem modMultiplyScalarInt_shape (M M1 : Matrix) (hM : M.WF) (val mod : Int)
    (h : M.modMultiplyScalarInt val mod = some M1) : M1._size = M._size ∧ M1.WF := by
  unfold modMultiplyScalarInt at h
  refine foldlM_inv (fun A : Matrix => A._size = M._size ∧ A.WF) _ _ ?_ M ⟨rfl, hM⟩ M1 h
  intro A i B hA hB
  exact foldlM_inv (fun A : Matrix => A._size = M._size ∧ A.WF) _ _
    (fun C j D hC hD => modMultiplyScalarCellInt_shape val mod i j M._size C D hC hD)
    A hA B hB

/-- The method `modMultiplyScalar` in `int` arithmetic returns when the modulus is
neither `0` nor `-1`. -/
theorem modMultiplyScalarInt_some (M : Matrix) (val mod : Int) (h0 : mod ≠ 0)
    (h1 : mod ≠ -1) : ∃ M1, M.modMultiplyScalarInt val mod = some M1 := by
  unfold modMultiplyScalarInt
  obtain ⟨c, hc, _⟩ := foldlM_some (fun _ : Matrix => True)
    (fun M i => (List.range M._size).foldlM (modMultiplyScalarCellInt val mod i) M)
    (List.range M._size)
    (fun A i _ => by
      obtain ⟨c, hc, _⟩ := foldlM_some (fun _ : Matrix => True)
        (modMultiplyScalarCellInt val mod i) (List.range A._size)
        (fun B j _ => by
          obtain ⟨d, hd⟩ := modMultiplyScalarCellInt_some val mod h0 h1 i j B
          exact ⟨d, hd, trivial⟩) A trivial
      exact ⟨c, hc, trivial⟩) M trivial
  exact ⟨c, hc⟩

/-- The method `modMultiplyScalar` with modulus `0` on a matrix that has an element:
the first `%=` traps. -/
theorem modMultiplyScalarInt_zero (M : Matrix) (val : Int) (hn : 0 < M._size) :
    M.modMultiplyScalarInt val 0 = none := by
  unfold modMultiplyScalarInt
  obtain ⟨k, hk⟩ : ∃ k, M._size = k + 1 := ⟨M._size - 1, by omega⟩
  have hr : List.range (k + 1) = 0 :: List.range' 1 k := by
    rw [List.range_eq_range']; rfl
  rw [hk, hr, List.foldlM_cons, hk, hr, List.foldlM_cons]
  simp [modMultiplyScalarCellInt, cRemTrap]

/-- The method `findAdjoint` with the arithmetic of `int` returns a grid of the size of
the receiver. -/
theorem findAdjointInt_shape {M : Matrix} (junk : Nat → Nat → Int) (det0 : Int) :
    (M.findAdjointInt junk det0)._size = M._size ∧ (M.findAdjointInt junk det0).WF := by
  by_cases h2 : M._size = 2
  · unfold findAdjointInt
    simp only [h2, if_true]
    exact ⟨rfl, put_WF (put_WF (put_WF (put_WF (new_WF 2 false junk) _ _ _) _ _ _) _ _ _)
      _ _ _⟩
  · by_cases h3 : M._size = 3
    · obtain ⟨s, w, _⟩ := findAdjointInt_three h3 junk det0
      exact ⟨by rw [s, h3], w⟩
    · unfold findAdjointInt
      simp only [h2, h3, if_false]
      exact ⟨new_size _ _ _, new_WF _ _ _⟩

end Matrix

end HillCipher

/-! ## The claims -/

namespace HillCipher

/-- C1: on a well-formed matrix of size 1, 2 or 3, `findDeterminant` returns the
determinant: the single element for size 1, `m00*m11 - m01*m10` for size 2, the
six-term Sarrus expansion for size 3, each equal to the Leibniz determinant of the
matrix of its elements; `[[5]]` gives 5, `[[1,2],[3,4]]` gives -2 and
`[[1,2,3],[4,5,6],[7,8,10]]` gives -3. -/
theorem findDeterminant_correct (M : Matrix) (_hM : M.WF) (det0 : Int) :
    (M._size = 1 →
      M.findDeterminant det0 = M.elem 0 0 ∧
      M.findDeterminant det0 = Matrix.det (Matrix.of fun (i j : Fin 1) => M.elem i j)) ∧
    (M._size = 2 →
      M.findDeterminant det0 = M.elem 0 0 * M.elem 1 1 - M.elem 0 1 * M.elem 1 0 ∧
      M.findDeterminant det0 = Matrix.det (Matrix.of fun (i j : Fin 2) => M.elem i j)) ∧
    (M._size = 3 →
      M.findDeterminant det0
        = (M.elem 0 0 * M.elem 1 1 * M.elem 2 2 + M.elem 0 1 * M.elem 1 2 * M.elem 2 0
            + M.elem 0 2 * M.elem 1 0 * M.elem 2 1)
          - (M.elem 0 2 * M.elem 1 1 * M.elem 2 0 + M.elem 0 0 * M.elem 1 2 * M.elem 2 1
            + M.elem 0 1 * M.elem 1 0 * M.elem 2 2) ∧
      M.findDeterminant det0 = Matrix.det (Matrix.of fun (i j : Fin 3) => M.elem i j)) ∧
    Matrix.findDeterminant ⟨1, [[5]]⟩ det0 = 5 ∧
    Matrix.findDeterminant ⟨2, [[1, 2], [3, 4]]⟩ det0 = -2 ∧
    Matrix.findDeterminant ⟨3, [[1, 2, 3], [4, 5, 6], [7, 8, 10]]⟩ det0 = -3 := by
  refine ⟨?_, ?_, ?_, ?_, ?_, ?_⟩
  · intro h
    simp [Matrix.findDeterminant, h, Matrix.det_fin_one]
  · intro h
    simp [Matrix.findDeterminant, h, Matrix.det_fin_two]
  · intro h
    have e : M.findDeterminant det0
        = (M.elem 0 0 * M.elem 1 1 * M.elem 2 2 + M.elem 0 1 * M.elem 1 2 * M.elem 2 0
            + M.elem 0 2 * M.elem 1 0 * M.elem 2 1)
          - (M.elem 0 2 * M.elem 1 1 * M.elem 2 0 + M.elem 0 0 * M.elem 1 2 * M.elem 2 1
            + M.elem 0 1 * M.elem 1 0 * M.elem 2 2) := by
      simp only [Matrix.findDeterminant, h]
      simp only [show ¬ (3 = 1) by decide, show ¬ (3 = 2) by decide, if_false, if_true]
      ring
    refine ⟨e, ?_⟩
    rw [e, Matrix.det_fin_three]
    simp only [Matrix.of_apply, Fin.val_zero, Fin.val_one, Fin.val_two]
    ring
  · simp [Matrix.findDeterminant, Matrix.elem]
  · simp [Matrix.findDeterminant, Matrix.elem]
  · simp [Matrix.findDeterminant, Matrix.elem]

theorem findDeterminant_correct_witness :
    Matrix.WF ⟨3, [[2, 0, 1], [1, 3, 0], [0, 1, 4]]⟩ ∧
    Matrix.findDeterminant ⟨3, [[2, 0, 1], [1, 3, 0], [0, 1, 4]]⟩ 0 = 25 ∧
    Matrix.findDeterminant ⟨2, [[2, 7], [1, 3]]⟩ 0 = -1 ∧
    Matrix.findDeterminant ⟨1, [[-9]]⟩ 0 = -9 := by
  refine ⟨by decide, ?_, ?_, ?_⟩
  · have h := ((findDeterminant_correct ⟨3, [[2, 0, 1], [1, 3, 0], [0, 1, 4]]⟩
      (by decide) 0).2.2.1 rfl).1
    rw [h]; decide
  · have h := ((findDeterminant_correct ⟨2, [[2, 7], [1, 3]]⟩ (by decide) 0).2.1 rfl).1
    rw [h]; decide
  · have h := ((findDeterminant_correct ⟨1, [[-9]]⟩ (by decide) 0).1 rfl).1
    rw [h]; decide

/-- C2, as stated, fails: in `[[0,1,0],[-65536,0,0],[0,0,32768]]` the submatrix for entry
(1, 0) has determinant `-65536 * 32768 = -2147483648`, computed without overflow; the
claim asks for `(-1)^1` times it, 2147483648, which is no `int`; the code's `*= -1` leaves
-2147483648. -/
theorem findAdjoint_cofactor_counterexample :
    (Matrix.getSubmatrix ⟨3, [[0, 1, 0], [-65536, 0, 0], [0, 0, 32768]]⟩ 0 1
        (fun _ _ => 0)).findDeterminantInt 0 = -2147483648 ∧
    (Matrix.findAdjointInt ⟨3, [[0, 1, 0], [-65536, 0, 0], [0, 0, 32768]]⟩
        (fun _ _ => 0) 0).elem 1 0 = -2147483648 ∧
    (Matrix.findAdjointInt ⟨3, [[0, 1, 0], [-65536, 0, 0], [0, 0, 32768]]⟩
        (fun _ _ => 0) 0).elem 1 0
      ≠ (-1) ^ (1 + 0)
        * (Matrix.getSubmatrix ⟨3, [[0, 1, 0], [-65536, 0, 0], [0, 0, 32768]]⟩ 0 1
            (fun _ _ => 0)).findDeterminantInt 0 := by
  refine ⟨by decide, by decide, by decide⟩

/-- C2, amended: for a well-formed 3x3 matrix of `int` elements and `i, j < 3`, element
`(i, j)` of `findAdjoint` is `(-1)^(i+j)` times `findDeterminant` of `getSubmatrix(j, i)`
reduced to `int`; it is that product itself unless `i + j` is odd and the determinant is
-2147483648; and when the products and the difference of the 2x2 minor and its negation
are `int`s (no overflow), it is element `(i, j)` of the classical adjugate, the
transposed cofactor matrix. -/
theorem findAdjointInt_cofactor (M : Matrix) (_hM : M.WF) (hs : M._size = 3)
    (_hint : M.AllInt)
    (junk junk2 : Nat → Nat → Int) (det0 det1 : Int) (i j : Nat) (hi : i < 3) (hj : j < 3) :
    (M.findAdjointInt junk det0).elem i j
      = wrapInt ((-1) ^ (i + j)
          * (M.getSubmatrix (j : Int) (i : Int) junk2).findDeterminantInt det1) ∧
    (((M.getSubmatrix (j : Int) (i : Int) junk2).findDeterminantInt det1 ≠ -2147483648
        ∨ (i + j) % 2 = 0) →
      (M.findAdjointInt junk det0).elem i j
        = (-1) ^ (i + j)
          * (M.getSubmatrix (j : Int) (i : Int) junk2).findDeterminantInt det1) ∧
    ((isInt ((M.getSubmatrix (j : Int) (i : Int) junk2).elem 0 0
          * (M.getSubmatrix (j : Int) (i : Int) junk2).elem 1 1) ∧
      isInt ((M.getSubmatrix (j : Int) (i : Int) junk2).elem 0 1
          * (M.getSubmatrix (j : Int) (i : Int) junk2).elem 1 0) ∧
      isInt ((M.getSubmatrix (j : Int) (i : Int) junk2).elem 0 0
          * (M.getSubmatrix (j : Int) (i : Int) junk2).elem 1 1
        - (M.getSubmatrix (j : Int) (i : Int) junk2).elem 0 1
          * (M.getSubmatrix (j : Int) (i : Int) junk2).elem 1 0) ∧
      isInt (-((M.getSubmatrix (j : Int) (i : Int) junk2).elem 0 0
          * (M.getSubmatrix (j : Int) (i : Int) junk2).elem 1 1
        - (M.getSubmatrix (j : Int) (i : Int) junk2).elem 0 1
          * (M.getSubmatrix (j : Int) (i : Int) junk2).elem 1 0))) →
      (M.findAdjointInt junk det0).elem i j
        = Matrix.adjugate (Matrix.of fun (a b : Fin 3) => M.elem a b) ⟨i, hi⟩ ⟨j, hj⟩) := by
  obtain ⟨_, _, e⟩ := Matrix.findAdjointInt_three hs junk det0
  obtain ⟨_, _, es⟩ := Matrix.getSubmatrix_nat hs hj hi junk2
  have hsign : ((-1 : Int) ^ (i + j)) = if (i + j) % 2 = 0 then 1 else -1 := by
    interval_cases i <;> interval_cases j <;> simp
  have hD : (M.getSubmatrix (j : Int) (i : Int) junk).findDeterminantInt det0
      = (M.getSubmatrix (j : Int) (i : Int) junk2).findDeterminantInt det1 := by
    rw [Matrix.minorInt_three hs hj hi junk det0, Matrix.minorInt_three hs hj hi junk2 det1]
  have hfirst : (M.findAdjointInt junk det0).elem i j
      = wrapInt ((-1) ^ (i + j)
          * (M.getSubmatrix (j : Int) (i : Int) junk2).findDeterminantInt det1) := by
    rw [e i j hi hj, hD, hsign, mul_comm]
  refine ⟨hfirst, ?_, ?_⟩
  · intro h
    rw [hfirst]
    apply wrapInt_of_isInt
    have hr := isInt_wrapInt (wrapInt (M.elem (Matrix.skipIdx j 0) (Matrix.skipIdx i 0)
        * M.elem (Matrix.skipIdx j 1) (Matrix.skipIdx i 1))
      - wrapInt (M.elem (Matrix.skipIdx j 0) (Matrix.skipIdx i 1)
        * M.elem (Matrix.skipIdx j 1) (Matrix.skipIdx i 0)))
    rw [← Matrix.minorInt_three hs hj hi junk2 det1] at hr
    rw [hsign]
    unfold isInt at hr ⊢
    rcases h with h | h
    · split <;> omega
    · rw [if_pos h]; omega
  · intro ⟨h1, h2, h3, h4⟩
    rw [hfirst, Matrix.minorInt_three hs hj hi junk2 det1, Matrix.adjugate_three_entry M hi hj,
      hsign]
    simp only [es 0 0 (by decide) (by decide), es 1 1 (by decide) (by decide),
      es 0 1 (by decide) (by decide), es 1 0 (by decide) (by decide)] at h1 h2 h3 h4
    rw [wrapInt_of_isInt h1, wrapInt_of_isInt h2, wrapInt_of_isInt h3]
    rw [mul_comm]
    apply wrapInt_of_isInt
    split
    · simpa using h3
    · simpa using h4

theorem findAdjointInt_cofactor_witness :
    (Matrix.findAdjointInt ⟨3, [[1, 2, 3], [4, 5, 6], [7, 8, 10]]⟩ (fun _ _ => 0) 0).elem 0 1
      = (-1) ^ (0 + 1)
        * (Matrix.getSubmatrix ⟨3, [[1, 2, 3], [4, 5, 6], [7, 8, 10]]⟩ ((1 : Nat) : Int)
            ((0 : Nat) : Int) (fun _ _ => 5)).findDeterminantInt 9 ∧
    (Matrix.findAdjointInt ⟨3, [[1, 2, 3], [4, 5, 6], [7, 8, 10]]⟩ (fun _ _ => 0) 0).elem 0 1
      = 4 :=
  ⟨(findAdjointInt_cofactor ⟨3, [[1, 2, 3], [4, 5, 6], [7, 8, 10]]⟩ (by decide) rfl
      (by decide) (fun _ _ => 0) (fun _ _ => 5) 0 9 0 1 (by decide) (by decide)).2.1
      (by decide), by decide⟩

/-- C3, as stated, fails: for `[[1,-2147483648],[3,4]]` the claim asks for the entry
`-b = 2147483648`, which is no `int`; the code's `-1 * _matrix[0][1]` leaves
-2147483648. -/
theorem findAdjoint_two_by_two_counterexample :
    Matrix.findAdjointInt ⟨2, [[1, -2147483648], [3, 4]]⟩ (fun _ _ => 0) 0
      = ⟨2, [[4, -2147483648], [-3, 1]]⟩ ∧
    Matrix.findAdjointInt ⟨2, [[1, -2147483648], [3, 4]]⟩ (fun _ _ => 0) 0
      ≠ ⟨2, [[4, - -2147483648], [-3, 1]]⟩ := by
  refine ⟨by decide, by decide⟩

/-- C3, amended: `findAdjoint` of the 2x2 matrix `[[a,b],[c,d]]` of `int` elements with
`b` and `c` other than -2147483648 is `[[d,-b],[-c,a]]`; the adjoint of `[[1,2],[3,4]]` is
`[[4,-2],[-3,1]]`. -/
theorem findAdjointInt_two_by_two (a b c d : Int) (_ha : isInt a) (hb : isInt b)
    (hc : isInt c) (_hd : isInt d) (hbm : b ≠ -2147483648) (hcm : c ≠ -2147483648)
    (junk : Nat → Nat → Int) (det0 : Int) :
    Matrix.findAdjointInt ⟨2, [[a, b], [c, d]]⟩ junk det0 = ⟨2, [[d, -b], [-c, a]]⟩ ∧
    Matrix.findAdjointInt ⟨2, [[1, 2], [3, 4]]⟩ junk det0 = ⟨2, [[4, -2], [-3, 1]]⟩ := by
  have key : ∀ a b c d : Int, isInt b → isInt c → b ≠ -2147483648 → c ≠ -2147483648 →
      Matrix.findAdjointInt ⟨2, [[a, b], [c, d]]⟩ junk det0 = ⟨2, [[d, -b], [-c, a]]⟩ := by
    intro a b c d hb hc hbm hcm
    have h1 : wrapInt (-1 * b) = -b := by
      apply (wrapInt_of_isInt _).trans (by ring)
      unfold isInt at hb ⊢
      omega
    have h2 : wrapInt (-1 * c) = -c := by
      apply (wrapInt_of_isInt _).trans (by ring)
      unfold isInt at hc ⊢
      omega
    simp only [Matrix.findAdjointInt, Matrix.elem, if_true, List.getD_cons_zero,
      List.getD_cons_succ]
    rw [h1, h2]
    simp [Matrix.new, Matrix.put, Matrix.allocRow, List.range_succ]
  exact ⟨key a b c d hb hc hbm hcm, key 1 2 3 4 (by decide) (by decide) (by decide) (by decide)⟩

theorem findAdjointInt_two_by_two_witness :
    Matrix.findAdjointInt ⟨2, [[7, -2147483647], [2147483647, -9]]⟩ (fun _ _ => 0) 0
      = ⟨2, [[-9, - -2147483647], [-2147483647, 7]]⟩ :=
  (findAdjointInt_two_by_two 7 (-2147483647) 2147483647 (-9) (by decide) (by decide)
    (by decide) (by decide) (by decide) (by decide) (fun _ _ => 0) 0).1

/-- C4: for a well-formed matrix `M` of size 2 or 3, both matrix products of
`findAdjoint(M)` and `M` are `findDeterminant(M)` times the identity: the sum over `k` of
`adj[i][k] * M[k][j]`, and of `M[i][k] * adj[k][j]`, is `findDeterminant(M)` when
`i = j` and `0` otherwise. -/
theorem findAdjoint_mul (M : Matrix) (_hM : M.WF) (hs : M._size = 2 ∨ M._size = 3)
    (junk : Nat → Nat → Int) (det0 det1 : Int) (i j : Nat) (hi : i < M._size)
    (hj : j < M._size) :
    (∑ k in Finset.range M._size, (M.findAdjoint junk det0).elem i k * M.elem k j)
      = (if i = j then M.findDeterminant det1 else 0) ∧
    (∑ k in Finset.range M._size, M.elem i k * (M.findAdjoint junk det0).elem k j)
      = (if i = j then M.findDeterminant det1 else 0) := by
  rcases hs with hs | hs
  · obtain ⟨_, _, e00, e01, e10, e11⟩ := Matrix.findAdjoint_two hs junk det0
    rw [hs] at hi hj
    simp only [hs, Finset.sum_range_succ, Finset.sum_range_zero, zero_add]
    have hd : M.findDeterminant det1
        = M.elem 0 0 * M.elem 1 1 - M.elem 0 1 * M.elem 1 0 := by
      simp [Matrix.findDeterminant, hs]
    rw [hd]
    interval_cases i <;> interval_cases j <;> constructor <;>
      simp only [e00, e01, e10, e11] <;> simp <;> ring
  · obtain ⟨_, _, e⟩ := Matrix.findAdjoint_three hs junk det0
    rw [hs] at hi hj
    simp only [hs, Finset.sum_range_succ, Finset.sum_range_zero, zero_add]
    have hd : M.findDeterminant det1
        = M.elem 0 0 * M.elem 1 1 * M.elem 2 2 + M.elem 0 1 * M.elem 1 2 * M.elem 2 0
            + M.elem 0 2 * M.elem 1 0 * M.elem 2 1 - M.elem 0 2 * M.elem 1 1 * M.elem 2 0
            - M.elem 0 0 * M.elem 1 2 * M.elem 2 1 - M.elem 0 1 * M.elem 1 0 * M.elem 2 2 := by
      simp only [Matrix.findDeterminant, hs]
      simp only [show ¬ (3 = 1) by decide, show ¬ (3 = 2) by decide, if_false, if_true]
    have m : ∀ a b, a < 3 → b < 3 → (M.findAdjoint junk det0).elem a b
        = (M.elem (Matrix.skipIdx b 0) (Matrix.skipIdx a 0)
              * M.elem (Matrix.skipIdx b 1) (Matrix.skipIdx a 1)
            - M.elem (Matrix.skipIdx b 0) (Matrix.skipIdx a 1)
              * M.elem (Matrix.skipIdx b 1) (Matrix.skipIdx a 0))
          * (if (a + b) % 2 = 0 then 1 else -1) := by
      intro a b ha hb
      rw [e a b ha hb, Matrix.minor_three hs hb ha junk det0]
    rw [hd]
    interval_cases i <;> interval_cases j <;> constructor <;>
      simp only [m 0 0 (by decide) (by decide), m 0 1 (by decide) (by decide),
        m 0 2 (by decide) (by decide), m 1 0 (by decide) (by decide),
        m 1 1 (by decide) (by decide), m 1 2 (by decide) (by decide),
        m 2 0 (by decide) (by decide), m 2 1 (by decide) (by decide),
        m 2 2 (by decide) (by decide)] <;>
      simp [Matrix.skipIdx] <;> ring

theorem findAdjoint_mul_witness :
    (∑ k in Finset.range (Matrix.mk 3 [[1, 2, 3], [4, 5, 6], [7, 8, 10]])._size,
        (Matrix.findAdjoint ⟨3, [[1, 2, 3], [4, 5, 6], [7, 8, 10]]⟩ (fun _ _ => 0) 0).elem 1 k
          * (Matrix.mk 3 [[1, 2, 3], [4, 5, 6], [7, 8, 10]]).elem k 1)
      = (if 1 = 1 then Matrix.findDeterminant ⟨3, [[1, 2, 3], [4, 5, 6], [7, 8, 10]]⟩ 0
          else 0) ∧
    (∑ k in Finset.range (Matrix.mk 3 [[1, 2, 3], [4, 5, 6], [7, 8, 10]])._size,
        (Matrix.mk 3 [[1, 2, 3], [4, 5, 6], [7, 8, 10]]).elem 1 k
          * (Matrix.findAdjoint ⟨3, [[1, 2, 3], [4, 5, 6], [7, 8, 10]]⟩ (fun _ _ => 0) 0).elem k 1)
      = (if 1 = 1 then Matrix.findDeterminant ⟨3, [[1, 2, 3], [4, 5, 6], [7, 8, 10]]⟩ 0
          else 0) :=
  findAdjoint_mul ⟨3, [[1, 2, 3], [4, 5, 6], [7, 8, 10]]⟩ (by decide) (Or.inr rfl)
    (fun _ _ => 0) 0 0 1 1 (by decide) (by decide)

/-- C5: for a well-formed matrix `M` of size `n >= 2` and `0 <= i, j < n`,
`getSubmatrix(i, j)` is a well-formed matrix of size `n - 1` whose element `(r, c)` is
`M[r + (1 if r >= i else 0)][c + (1 if c >= j else 0)]`; for a 3x3 matrix,
`getSubmatrix(1, 1)` is `[[M00, M02], [M20, M22]]`. -/
theorem getSubmatrix_correct (M : Matrix) (_hM : M.WF) (n : Nat) (hn : M._size = n)
    (_h2 : 2 ≤ n) (i j : Int) (hi : 0 ≤ i ∧ i < n) (hj : 0 ≤ j ∧ j < n)
    (junk : Nat → Nat → Int) :
    (M.getSubmatrix i j junk)._size = n - 1 ∧
    (M.getSubmatrix i j junk).WF ∧
    (∀ r c : Nat, r < n - 1 → c < n - 1 →
      (M.getSubmatrix i j junk).elem r c
        = M.elem (r + (if i ≤ (r : Int) then 1 else 0)) (c + (if j ≤ (c : Int) then 1 else 0))) ∧
    (n = 3 → i = 1 → j = 1 →
      M.getSubmatrix i j junk
        = ⟨2, [[M.elem 0 0, M.elem 0 2], [M.elem 2 0, M.elem 2 2]]⟩) := by
  obtain ⟨hi0, hi1⟩ := hi
  obtain ⟨hj0, hj1⟩ := hj
  lift i to Nat using hi0
  lift j to Nat using hj0
  have hi2 : i < n := by exact_mod_cast hi1
  have hj2 : j < n := by exact_mod_cast hj1
  obtain ⟨s, w, e⟩ := Matrix.getSubmatrix_nat hn hi2 hj2 junk
  have e2 : ∀ r c : Nat, r < n - 1 → c < n - 1 →
      (M.getSubmatrix (i : Int) (j : Int) junk).elem r c
        = M.elem (r + (if (i : Int) ≤ (r : Int) then 1 else 0))
            (c + (if (j : Int) ≤ (c : Int) then 1 else 0)) := by
    intro r c hr hc
    rw [e r c hr hc]
    simp [Matrix.skipIdx]
  refine ⟨s, w, e2, ?_⟩
  intro h3 hi3 hj3
  subst h3
  have hi4 : i = 1 := by exact_mod_cast hi3
  have hj4 : j = 1 := by exact_mod_cast hj3
  subst hi4; subst hj4
  apply Matrix.ext_elem w (by simp [Matrix.WF]) (by rw [s])
  intro r c hr hc
  rw [s] at hr hc
  rw [e2 r c hr hc]
  have hr2 : r < 2 := hr
  have hc2 : c < 2 := hc
  interval_cases r <;> interval_cases c <;> simp [Matrix.elem]

theorem getSubmatrix_correct_witness :
    Matrix.getSubmatrix ⟨3, [[1, 2, 3], [4, 5, 6], [7, 8, 10]]⟩ 1 1 (fun _ _ => 0)
      = ⟨2, [[1, 3], [7, 10]]⟩ ∧
    (Matrix.getSubmatrix ⟨3, [[1, 2, 3], [4, 5, 6], [7, 8, 10]]⟩ 0 2 (fun _ _ => 0)).elem 1 1
      = 8 := by
  have h := getSubmatrix_correct ⟨3, [[1, 2, 3], [4, 5, 6], [7, 8, 10]]⟩ (by decide) 3 rfl
    (by decide) 1 1 (by decide) (by decide) (fun _ _ => 0)
  have k := getSubmatrix_correct ⟨3, [[1, 2, 3], [4, 5, 6], [7, 8, 10]]⟩ (by decide) 3 rfl
    (by decide) 0 2 (by decide) (by decide) (fun _ _ => 0)
  refine ⟨?_, ?_⟩
  · rw [h.2.2.2 rfl rfl rfl]; decide
  · rw [k.2.2.1 1 1 (by decide) (by decide)]; decide

/-- C6: for a well-formed matrix `M` of size `n`, a vector `v` of length `n` and a
modulus `m > 0`, `modMultiplyVector(v, m)` returns a vector of length `n` whose `i`-th
entry is the unique integer in `[0, m)` congruent modulo `m` to the sum over `j` of
`M[i][j] * v[j]`; when the C++ remainder of that sum is negative the entry is that
remainder plus `m`. -/
theorem modMultiplyVector_correct (M : Matrix) (_hM : M.WF) (v : List Int)
    (_hv : v.length = M._size) (m : Int) (hm : 0 < m) (junk : Nat → Int) :
    (M.modMultiplyVector v m junk).length = M._size ∧
    ∀ i, i < M._size →
      0 ≤ (M.modMultiplyVector v m junk).getD i 0 ∧
      (M.modMultiplyVector v m junk).getD i 0 < m ∧
      (M.modMultiplyVector v m junk).getD i 0
        ≡ ∑ j in Finset.range M._size, M.elem i j * v.getD j 0 [ZMOD m] ∧
      (∀ x : Int, 0 ≤ x → x < m →
        x ≡ ∑ j in Finset.range M._size, M.elem i j * v.getD j 0 [ZMOD m] →
        x = (M.modMultiplyVector v m junk).getD i 0) ∧
      (cRem (∑ j in Finset.range M._size, M.elem i j * v.getD j 0) m < 0 →
        (M.modMultiplyVector v m junk).getD i 0
          = cRem (∑ j in Finset.range M._size, M.elem i j * v.getD j 0) m + m) := by
  obtain ⟨l, e⟩ := Matrix.modMultiplyVector_entries M v m hm junk
  refine ⟨l, ?_⟩
  intro i hi
  rw [e i hi]
  refine ⟨Int.emod_nonneg _ (by omega), Int.emod_lt_of_pos _ hm, Int.mod_modEq _ _, ?_, ?_⟩
  · intro x hx0 hxm hx
    have := hx
    unfold Int.ModEq at this
    rw [← this]
    exact (Int.emod_eq_of_lt hx0 hxm).symm
  · intro hneg
    rw [← cRem_normalised _ m hm, if_pos hneg]

theorem modMultiplyVector_correct_witness :
    Matrix.modMultiplyVector ⟨2, [[1, -2], [3, 4]]⟩ [1, 2] 5 (fun _ => 0) = [2, 1] ∧
    (Matrix.modMultiplyVector ⟨2, [[1, -2], [3, 4]]⟩ [1, 2] 5 (fun _ => 0)).length
      = (Matrix.mk 2 [[1, -2], [3, 4]])._size :=
  ⟨by decide, (modMultiplyVector_correct ⟨2, [[1, -2], [3, 4]]⟩ (by decide) [1, 2] rfl 5
    (by decide) (fun _ => 0)).1⟩

/-- C7: for a well-formed matrix `M`, an integer `value` and a modulus `m > 0`, after
`modMultiplyScalar(value, m)` the receiver keeps its size and every element `(i, j)` is
the unique integer in `[0, m)` congruent modulo `m` to `value` times the old `M[i][j]`;
`modMultiplyScalar(-1, 5)` on `[[1]]` yields `[[4]]`. -/
theorem modMultiplyScalar_correct (M : Matrix) (hM : M.WF) (value m : Int) (hm : 0 < m) :
    (M.modMultiplyScalar value m)._size = M._size ∧
    (M.modMultiplyScalar value m).WF ∧
    (∀ i j, i < M._size → j < M._size →
      0 ≤ (M.modMultiplyScalar value m).elem i j ∧
      (M.modMultiplyScalar value m).elem i j < m ∧
      (M.modMultiplyScalar value m).elem i j ≡ value * M.elem i j [ZMOD m] ∧
      (∀ x : Int, 0 ≤ x → x < m → x ≡ value * M.elem i j [ZMOD m] →
        x = (M.modMultiplyScalar value m).elem i j)) ∧
    Matrix.modMultiplyScalar ⟨1, [[1]]⟩ (-1) 5 = ⟨1, [[4]]⟩ := by
  obtain ⟨w, s, e⟩ := Matrix.modMultiplyScalar_entries value m hm hM
  refine ⟨s, w, ?_, by decide⟩
  intro i j hi hj
  rw [e i j hi hj, mul_comm (M.elem i j) value]
  refine ⟨Int.emod_nonneg _ (by omega), Int.emod_lt_of_pos _ hm, Int.mod_modEq _ _, ?_⟩
  intro x hx0 hxm hx
  have := hx
  unfold Int.ModEq at this
  rw [← this]
  exact (Int.emod_eq_of_lt hx0 hxm).symm

theorem modMultiplyScalar_correct_witness :
    Matrix.modMultiplyScalar ⟨2, [[1, -2], [3, 4]]⟩ (-3) 7 = ⟨2, [[4, 6], [5, 2]]⟩ ∧
    (Matrix.modMultiplyScalar ⟨2, [[1, -2], [3, 4]]⟩ (-3) 7).WF :=
  ⟨by decide, (modMultiplyScalar_correct ⟨2, [[1, -2], [3, 4]]⟩ (by decide) (-3) 7
    (by decide)).2.1⟩

/-- C8: for every size `n >= 1`, modulus `m > 0` and vector `v` of length `n` with all
entries in `[0, m)`, the matrix built by the constructor with `identity = true` has 1 on
the diagonal and 0 elsewhere, and its `modMultiplyVector(v, m)` is `v`. -/
theorem identity_modMultiplyVector (n : Nat) (_hn : 1 ≤ n) (m : Int) (hm : 0 < m)
    (v : List Int) (hv : v.length = n) (hr : ∀ x ∈ v, 0 ≤ x ∧ x < m)
    (junk : Nat → Nat → Int) (junk2 : Nat → Int) :
    (∀ i j, i < n → j < n →
      (Matrix.new n true junk).elem i j = if i = j then 1 else 0) ∧
    (Matrix.new n true junk).modMultiplyVector v m junk2 = v := by
  refine ⟨fun i j hi hj => Matrix.new_identity_elem n junk i j hi hj, ?_⟩
  obtain ⟨l, e⟩ := Matrix.modMultiplyVector_entries (Matrix.new n true junk) v m hm junk2
  rw [Matrix.new_size] at l e
  apply List.ext_getElem (by rw [l, hv])
  intro i h1 h2
  have hi : i < n := by omega
  have e1 := e i hi
  rw [List.getD_eq_getElem _ _ h1] at e1
  rw [e1]
  have hsum : ∑ j in Finset.range n, (Matrix.new n true junk).elem i j * v.getD j 0
      = v[i] := by
    rw [Finset.sum_eq_single i]
    · rw [Matrix.new_identity_elem n junk i i hi hi, List.getD_eq_getElem _ _ h2]
      simp
    · intro b hb hbi
      rw [Matrix.new_identity_elem n junk i b hi (Finset.mem_range.mp hb)]
      have : ¬ i = b := fun x => hbi x.symm
      simp [this]
    · intro hni
      exact absurd (Finset.mem_range.mpr hi) hni
  rw [hsum]
  obtain ⟨a, b⟩ := hr _ (List.getElem_mem h2)
  exact Int.emod_eq_of_lt a b

theorem identity_modMultiplyVector_witness :
    Matrix.new 3 true (fun _ _ => 7) = ⟨3, [[1, 0, 0], [0, 1, 0], [0, 0, 1]]⟩ ∧
    (Matrix.new 3 true (fun _ _ => 7)).modMultiplyVector [4, 0, 25] 26 (fun _ => 9)
      = [4, 0, 25] :=
  ⟨by decide, (identity_modMultiplyVector 3 (by decide) 26 (by decide) [4, 0, 25] rfl
    (by decide) (fun _ _ => 7) (fun _ => 9)).2⟩

/-- C9: for well-formed matrices `m1` and `m2` of the same size, `(m1 + m2) - m2` has
the size of `m1` and is element-equal to `m1` (so it is `m1`). -/
theorem plus_minus_cancel (m1 m2 : Matrix) (h1 : m1.WF) (_h2 : m2.WF)
    (_hs : m1._size = m2._size) (junk junk2 : Nat → Nat → Int) :
    (Matrix.operator_minus (Matrix.operator_plus m1 m2 junk) m2 junk2)._size = m1._size ∧
    (∀ i j, i < m1._size → j < m1._size →
      (Matrix.operator_minus (Matrix.operator_plus m1 m2 junk) m2 junk2).elem i j
        = m1.elem i j) ∧
    Matrix.operator_minus (Matrix.operator_plus m1 m2 junk) m2 junk2 = m1 := by
  obtain ⟨_, sp, ep⟩ := Matrix.operator_plus_entries m1 m2 junk
  obtain ⟨wm, sm, em⟩ :=
    Matrix.operator_minus_entries (Matrix.operator_plus m1 m2 junk) m2 junk2
  rw [sp] at sm em
  have he : ∀ i j, i < m1._size → j < m1._size →
      (Matrix.operator_minus (Matrix.operator_plus m1 m2 junk) m2 junk2).elem i j
        = m1.elem i j := by
    intro i j hi hj
    rw [em i j hi hj, ep i j hi hj]
    ring
  refine ⟨sm, he, ?_⟩
  apply Matrix.ext_elem wm h1 sm
  intro i j hi hj
  rw [sm] at hi hj
  exact he i j hi hj

theorem plus_minus_cancel_witness :
    Matrix.operator_plus ⟨2, [[1, 2], [3, 4]]⟩ ⟨2, [[5, 6], [7, 8]]⟩ (fun _ _ => 0)
      = ⟨2, [[6, 8], [10, 12]]⟩ ∧
    Matrix.operator_minus
        (Matrix.operator_plus ⟨2, [[1, 2], [3, 4]]⟩ ⟨2, [[5, 6], [7, 8]]⟩ (fun _ _ => 0))
        ⟨2, [[5, 6], [7, 8]]⟩ (fun _ _ => 1)
      = ⟨2, [[1, 2], [3, 4]]⟩ :=
  ⟨by decide, (plus_minus_cancel ⟨2, [[1, 2], [3, 4]]⟩ ⟨2, [[5, 6], [7, 8]]⟩ (by decide)
    (by decide) rfl (fun _ _ => 0) (fun _ _ => 1)).2.2⟩

/-- C10, counterexample: the two operators compute in `int`, so an entry of the result
is not always the integer sum or difference of the operands' entries:
`[[2147483647]] + [[1]]` has entry `-2147483648`, not `2147483647 + 1`, and
`[[-2147483648]] - [[1]]` has entry `2147483647`, not `-2147483648 - 1`. -/
theorem operator_plus_counterexample :
    (MatrixRef.mk 1 [0]).Valid ⟨[[2147483647], [1]]⟩ ∧
    (MatrixRef.mk 1 [1]).Valid ⟨[[2147483647], [1]]⟩ ∧
    ((MatrixRef.operator_plus ⟨1, [0]⟩ ⟨1, [1]⟩ ⟨[[2147483647], [1]]⟩
        (fun _ => 0) (fun _ _ => 0)).2.value
      (MatrixRef.operator_plus ⟨1, [0]⟩ ⟨1, [1]⟩ ⟨[[2147483647], [1]]⟩
        (fun _ => 0) (fun _ _ => 0)).1).elem 0 0 = -2147483648 ∧
    ((MatrixRef.operator_plus ⟨1, [0]⟩ ⟨1, [1]⟩ ⟨[[2147483647], [1]]⟩
        (fun _ => 0) (fun _ _ => 0)).2.value
      (MatrixRef.operator_plus ⟨1, [0]⟩ ⟨1, [1]⟩ ⟨[[2147483647], [1]]⟩
        (fun _ => 0) (fun _ _ => 0)).1).elem 0 0
      ≠ ((MatrixRef.mk 1 [0]).value ⟨[[2147483647], [1]]⟩).elem 0 0
        + ((MatrixRef.mk 1 [1]).value ⟨[[2147483647], [1]]⟩).elem 0 0 ∧
    ((MatrixRef.operator_minus ⟨1, [0]⟩ ⟨1, [1]⟩ ⟨[[-2147483648], [1]]⟩
        (fun _ => 0) (fun _ _ => 0)).2.value
      (MatrixRef.operator_minus ⟨1, [0]⟩ ⟨1, [1]⟩ ⟨[[-2147483648], [1]]⟩
        (fun _ => 0) (fun _ _ => 0)).1).elem 0 0 = 2147483647 ∧
    ((MatrixRef.operator_minus ⟨1, [0]⟩ ⟨1, [1]⟩ ⟨[[-2147483648], [1]]⟩
        (fun _ => 0) (fun _ _ => 0)).2.value
      (MatrixRef.operator_minus ⟨1, [0]⟩ ⟨1, [1]⟩ ⟨[[-2147483648], [1]]⟩
        (fun _ => 0) (fun _ _ => 0)).1).elem 0 0
      ≠ ((MatrixRef.mk 1 [0]).value ⟨[[-2147483648], [1]]⟩).elem 0 0
        - ((MatrixRef.mk 1 [1]).value ⟨[[-2147483648], [1]]⟩).elem 0 0 := by
  decide

/-- C10, amended: for matrices `m1` and `m2` of `int` elements and the same size `n`,
with storage in the store `s`, `m1 + m2` is a matrix of size `n` in fresh storage, `n` rows of `n` integers,
whose entry `(i, j)` is the `int` sum of `m1[i][j]` and `m2[i][j]`, that is
`m1[i][j] + m2[i][j]` whenever that sum is in the range of `int`; `m1 - m2` likewise with
the difference; after either call both operands denote the matrices they denoted before;
`[[1,2],[3,4]] + [[5,6],[7,8]] = [[6,8],[10,12]]`. -/
theorem operator_plus_minus_int (m1 m2 : MatrixRef) (s : Store) (h1 : m1.Valid s)
    (h2 : m2.Valid s) (_hint1 : (m1.value s).AllInt) (_hint2 : (m2.value s).AllInt)
    (n : Nat) (hs1 : m1._size = n) (hs2 : m2._size = n)
    (junkPtr : Nat → Nat) (junk : Nat → Nat → Int) :
    ((MatrixRef.operator_plus m1 m2 s junkPtr junk).2._size = n ∧
      ((MatrixRef.operator_plus m1 m2 s junkPtr junk).2.value
        (MatrixRef.operator_plus m1 m2 s junkPtr junk).1).WF ∧
      (∀ i j, i < n → j < n →
        ((MatrixRef.operator_plus m1 m2 s junkPtr junk).2.value
          (MatrixRef.operator_plus m1 m2 s junkPtr junk).1).elem i j
          = wrapInt ((m1.value s).elem i j + (m2.value s).elem i j) ∧
        (isInt ((m1.value s).elem i j + (m2.value s).elem i j) →
          ((MatrixRef.operator_plus m1 m2 s junkPtr junk).2.value
            (MatrixRef.operator_plus m1 m2 s junkPtr junk).1).elem i j
            = (m1.value s).elem i j + (m2.value s).elem i j)) ∧
      m1.value (MatrixRef.operator_plus m1 m2 s junkPtr junk).1 = m1.value s ∧
      m2.value (MatrixRef.operator_plus m1 m2 s junkPtr junk).1 = m2.value s) ∧
    ((MatrixRef.operator_minus m1 m2 s junkPtr junk).2._size = n ∧
      ((MatrixRef.operator_minus m1 m2 s junkPtr junk).2.value
        (MatrixRef.operator_minus m1 m2 s junkPtr junk).1).WF ∧
      (∀ i j, i < n → j < n →
        ((MatrixRef.operator_minus m1 m2 s junkPtr junk).2.value
          (MatrixRef.operator_minus m1 m2 s junkPtr junk).1).elem i j
          = wrapInt ((m1.value s).elem i j - (m2.value s).elem i j) ∧
        (isInt ((m1.value s).elem i j - (m2.value s).elem i j) →
          ((MatrixRef.operator_minus m1 m2 s junkPtr junk).2.value
            (MatrixRef.operator_minus m1 m2 s junkPtr junk).1).elem i j
            = (m1.value s).elem i j - (m2.value s).elem i j)) ∧
      m1.value (MatrixRef.operator_minus m1 m2 s junkPtr junk).1 = m1.value s ∧
      m2.value (MatrixRef.operator_minus m1 m2 s junkPtr junk).1 = m2.value s) ∧
    (MatrixRef.operator_plus ⟨2, [0, 1]⟩ ⟨2, [2, 3]⟩ ⟨[[1, 2], [3, 4], [5, 6], [7, 8]]⟩
        junkPtr junk).2.value
      (MatrixRef.operator_plus ⟨2, [0, 1]⟩ ⟨2, [2, 3]⟩ ⟨[[1, 2], [3, 4], [5, 6], [7, 8]]⟩
        junkPtr junk).1 = ⟨2, [[6, 8], [10, 12]]⟩ := by
  obtain ⟨p1, p2, p3, p4⟩ := MatrixRef.operator_plus_spec m1 m2 s h1 h2 (by rw [hs1, hs2])
    junkPtr junk
  obtain ⟨q1, q2, q3, q4⟩ := MatrixRef.operator_minus_spec m1 m2 s h1 h2 (by rw [hs1, hs2])
    junkPtr junk
  rw [hs1] at p1 p4 q1 q4
  refine ⟨⟨p1, MatrixRef.value_WF _ _ p2, ?_, MatrixRef.value_frame m1 s _ h1 p3,
      MatrixRef.value_frame m2 s _ h2 p3⟩,
    ⟨q1, MatrixRef.value_WF _ _ q2, ?_, MatrixRef.value_frame m1 s _ h1 q3,
      MatrixRef.value_frame m2 s _ h2 q3⟩, ?_⟩
  · intro i j hi hj
    refine ⟨p4 i j hi hj, fun h => ?_⟩
    rw [p4 i j hi hj, wrapInt_of_isInt h]
  · intro i j hi hj
    refine ⟨q4 i j hi hj, fun h => ?_⟩
    rw [q4 i j hi hj, wrapInt_of_isInt h]
  · obtain ⟨l1, l2, _, l4⟩ := MatrixRef.operator_plus_spec ⟨2, [0, 1]⟩ ⟨2, [2, 3]⟩
      ⟨[[1, 2], [3, 4], [5, 6], [7, 8]]⟩ (by decide) (by decide) rfl junkPtr junk
    apply Matrix.ext_elem (MatrixRef.value_WF _ _ l2) (by decide)
    · exact l1
    · intro i j hi hj
      have hi2 : i < 2 := by
        have : ((MatrixRef.operator_plus ⟨2, [0, 1]⟩ ⟨2, [2, 3]⟩
          ⟨[[1, 2], [3, 4], [5, 6], [7, 8]]⟩ junkPtr junk).2.value
          (MatrixRef.operator_plus ⟨2, [0, 1]⟩ ⟨2, [2, 3]⟩
          ⟨[[1, 2], [3, 4], [5, 6], [7, 8]]⟩ junkPtr junk).1)._size = 2 := l1
        omega
      have hj2 : j < 2 := by
        have : ((MatrixRef.operator_plus ⟨2, [0, 1]⟩ ⟨2, [2, 3]⟩
          ⟨[[1, 2], [3, 4], [5, 6], [7, 8]]⟩ junkPtr junk).2.value
          (MatrixRef.operator_plus ⟨2, [0, 1]⟩ ⟨2, [2, 3]⟩
          ⟨[[1, 2], [3, 4], [5, 6], [7, 8]]⟩ junkPtr junk).1)._size = 2 := l1
        omega
      rw [l4 i j hi2 hj2]
      interval_cases i <;> interval_cases j <;> decide

theorem operator_plus_minus_int_witness :
    (MatrixRef.mk 1 [0]).Valid ⟨[[2147483647], [1]]⟩ ∧
    (MatrixRef.mk 1 [1]).Valid ⟨[[2147483647], [1]]⟩ ∧
    ((MatrixRef.mk 1 [0]).value ⟨[[2147483647], [1]]⟩).AllInt ∧
    ((MatrixRef.mk 1 [1]).value ⟨[[2147483647], [1]]⟩).AllInt ∧
    (MatrixRef.mk 1 [0]).value (MatrixRef.operator_minus ⟨1, [0]⟩ ⟨1, [1]⟩
        ⟨[[2147483647], [1]]⟩ (fun _ => 0) (fun _ _ => 0)).1
      = (MatrixRef.mk 1 [0]).value ⟨[[2147483647], [1]]⟩ ∧
    ((MatrixRef.operator_minus ⟨1, [0]⟩ ⟨1, [1]⟩ ⟨[[2147483647], [1]]⟩
        (fun _ => 0) (fun _ _ => 0)).2.value
      (MatrixRef.operator_minus ⟨1, [0]⟩ ⟨1, [1]⟩ ⟨[[2147483647], [1]]⟩
        (fun _ => 0) (fun _ _ => 0)).1).elem 0 0 = 2147483646 :=
  ⟨by decide, by decide, by decide, by decide,
    (operator_plus_minus_int ⟨1, [0]⟩ ⟨1, [1]⟩ ⟨[[2147483647], [1]]⟩ (by decide) (by decide)
      (by decide) (by decide) 1 rfl rfl (fun _ => 0) (fun _ _ => 0)).2.1.2.2.2.1,
    by decide⟩

/-- C11: the copy constructor yields a matrix of the same size and element-equal to `m`,
without changing `m`; and `modMultiplyScalar(value, modulus)` applied to the copy, for
any value and any non-zero modulus, leaves the size and every element of `m` unchanged
(while the copy becomes `modMultiplyScalar` of the matrix `m` denotes). -/
theorem copy_independent (m : MatrixRef) (s : Store) (hv : m.Valid s)
    (junkPtr : Nat → Nat) (junk : Nat → Nat → Int) (value modulus : Int)
    (_hmod : modulus ≠ 0) :
    (m.copy s junkPtr junk).2._size = m._size ∧
    (∀ i j, i < m._size → j < m._size →
      ((m.copy s junkPtr junk).2.value (m.copy s junkPtr junk).1).elem i j
        = (m.value s).elem i j) ∧
    (m.copy s junkPtr junk).2.value (m.copy s junkPtr junk).1 = m.value s ∧
    m.value (m.copy s junkPtr junk).1 = m.value s ∧
    (m.value ((m.copy s junkPtr junk).2.modMultiplyScalar (m.copy s junkPtr junk).1
        value modulus))._size = m._size ∧
    (∀ i j, i < m._size → j < m._size →
      (m.value ((m.copy s junkPtr junk).2.modMultiplyScalar (m.copy s junkPtr junk).1
        value modulus)).elem i j = (m.value s).elem i j) ∧
    m.value ((m.copy s junkPtr junk).2.modMultiplyScalar (m.copy s junkPtr junk).1
        value modulus) = m.value s ∧
    (m.copy s junkPtr junk).2.value
        ((m.copy s junkPtr junk).2.modMultiplyScalar (m.copy s junkPtr junk).1
          value modulus)
      = (m.value s).modMultiplyScalar value modulus := by
  obtain ⟨c1, c2, c3, c4, c5⟩ := MatrixRef.copy_spec m s hv junkPtr junk
  generalize m.copy s junkPtr junk = r at c1 c2 c3 c4 c5 ⊢
  obtain ⟨s1, c⟩ := r
  simp only at c1 c2 c3 c4 c5 ⊢
  have hcopy : c.value s1 = m.value s := by
    apply Matrix.ext_elem (MatrixRef.value_WF c s1 c2) (MatrixRef.value_WF m s hv)
      (by simp [MatrixRef.value, c1])
    intro i j hi hj
    have hi2 : i < m._size := by rw [← c1]; exact hi
    have hj2 : j < m._size := by rw [← c1]; exact hj
    rw [MatrixRef.value_elem c s1 (by rw [c2.1]; exact hi),
      MatrixRef.value_elem m s (by rw [hv.1]; exact hi2)]
    exact c5 i j hi2 hj2
  have hm1 : m.value s1 = m.value s :=
    MatrixRef.value_congr m s s1 (fun p hp => c4 p (hv.2 p hp).1)
  have hfresh : ∀ i, i < c._size → s.arrays.length ≤ c._matrix.getD i 0 := by
    intro i hi
    rw [c3 i (by rw [← c1]; exact hi)]
    omega
  have hm2 : m.value (c.modMultiplyScalar s1 value modulus) = m.value s := by
    rw [← hm1]
    apply MatrixRef.value_congr
    intro p hp
    exact MatrixRef.modMultiplyScalar_frame c value modulus s.arrays.length hfresh s1 p
      (hv.2 p hp).1
  have hinj : ∀ a b, a < c._size → b < c._size →
      c._matrix.getD a 0 = c._matrix.getD b 0 → a = b := by
    intro a b ha hb hab
    rw [c3 a (by rw [← c1]; exact ha), c3 b (by rw [← c1]; exact hb)] at hab
    omega
  refine ⟨c1, ?_, hcopy, hm1, ?_, ?_, hm2, ?_⟩
  · intro i j _ _
    rw [hcopy]
  · rfl
  · intro i j _ _
    rw [hm2]
  · rw [MatrixRef.modMultiplyScalar_value c value modulus s1 c2 hinj, hcopy]

theorem copy_independent_witness :
    (MatrixRef.mk 2 [1, 0]).value
        ((((MatrixRef.mk 2 [1, 0]).copy ⟨[[1, 2], [3, 4]]⟩ (fun _ => 0) (fun _ _ => 0)).2
          ).modMultiplyScalar
          ((MatrixRef.mk 2 [1, 0]).copy ⟨[[1, 2], [3, 4]]⟩ (fun _ => 0) (fun _ _ => 0)).1
          (-1) (-5))
      = (MatrixRef.mk 2 [1, 0]).value ⟨[[1, 2], [3, 4]]⟩ ∧
    ((MatrixRef.mk 2 [1, 0]).copy ⟨[[1, 2], [3, 4]]⟩ (fun _ => 0) (fun _ _ => 0)).2.value
        ((((MatrixRef.mk 2 [1, 0]).copy ⟨[[1, 2], [3, 4]]⟩ (fun _ => 0) (fun _ _ => 0)).2
          ).modMultiplyScalar
          ((MatrixRef.mk 2 [1, 0]).copy ⟨[[1, 2], [3, 4]]⟩ (fun _ => 0) (fun _ _ => 0)).1
          (-1) (-5))
      = ⟨2, [[-8, -9], [-6, -7]]⟩ :=
  ⟨(copy_independent ⟨2, [1, 0]⟩ ⟨[[1, 2], [3, 4]]⟩ (by decide) (fun _ => 0)
      (fun _ _ => 0) (-1) (-5) (by decide)).2.2.2.2.2.2.1, by decide⟩

/-- C12, as stated, fails: `[[1,2],[3,4]]` is rendered as two lines of space-padded
fields, and the text constructor, taking one white-space-delimited string per row, reads
them back as 1 in row 0 and 2 in row 1; element (1, 0) is 2, not 3. -/
theorem print_parse_counterexample :
    Matrix.operator_out [] ⟨2, [[1, 2], [3, 4]]⟩
      = [' ', ' ', '1', ' ', ' ', '2', '\n', ' ', ' ', '3', ' ', ' ', '4', '\n'] ∧
    (Matrix.newFromFile (Matrix.operator_out [] ⟨2, [[1, 2], [3, 4]]⟩) 2
        (fun _ _ => 0)).1 = ⟨2, [[1, 0], [2, 0]]⟩ ∧
    (Matrix.newFromFile (Matrix.operator_out [] ⟨2, [[1, 2], [3, 4]]⟩) 2
        (fun _ _ => 0)).1.elem 1 0 = 2 ∧
    (Matrix.newFromFile (Matrix.operator_out [] ⟨2, [[1, 2], [3, 4]]⟩) 2
        (fun _ _ => 0)).1 ≠ ⟨2, [[1, 2], [3, 4]]⟩ := by
  refine ⟨by decide, by decide, by decide, by decide⟩

/-- C12, amended: for every well-formed matrix of size 1 whose element is an `int`,
formatting it with `operator<<` and parsing the text back with the text constructor for
size 1 reproduces the matrix.  For size 2 or more it does not in general: when `INT_MIN`
does not occur in the matrix (or occurs beside a maximum found of ten digits), the fields
of a rendered row are separated by spaces and the constructor takes one
white-space-delimited string per row, so the first string read is the text of element
(0, 0) alone and element (0, 1) of the parsed matrix is left as allocated. -/
theorem print_parse_amended (M : Matrix) (hM : M.WF) (hint : M.AllInt)
    (junk : Nat → Nat → Int) :
    (M._size = 1 → (Matrix.newFromFile (Matrix.operator_out [] M) 1 junk).1 = M) ∧
    (2 ≤ M._size → (M.NoIntMin ∨ 1000000000 ≤ M.findMaxMagnitudeInt) →
      (Matrix.newFromFile (Matrix.operator_out [] M) M._size junk).1.elem 0 0 = M.elem 0 0 ∧
      (Matrix.newFromFile (Matrix.operator_out [] M) M._size junk).1.elem 0 1 = junk 0 1) := by
  refine ⟨?_, fun h2 hmin => Matrix.print_parse_first_row M hM hint hmin h2 junk⟩
  intro h1
  have h00 : isInt (M.elem 0 0) := Matrix.AllInt_elem hM hint (by omega) (by omega)
  have hshape : M = ⟨1, [[M.elem 0 0]]⟩ := by
    apply Matrix.ext_elem hM (by simp [Matrix.WF]) h1
    intro i j hi hj
    rw [h1] at hi hj
    interval_cases i
    interval_cases j
    rfl
  rw [hshape]
  exact Matrix.print_parse_one _ h00 junk

theorem print_parse_amended_witness :
    (Matrix.mk 1 [[-2147483648]]).WF ∧ (Matrix.mk 1 [[-2147483648]]).AllInt ∧
    (Matrix.newFromFile (Matrix.operator_out [] ⟨1, [[-2147483648]]⟩) 1 (fun _ _ => 5)).1
      = ⟨1, [[-2147483648]]⟩ ∧
    (Matrix.mk 2 [[1, 2], [3, 4]]).NoIntMin ∧
    (Matrix.newFromFile (Matrix.operator_out [] ⟨2, [[1, 2], [3, 4]]⟩)
        (Matrix.mk 2 [[1, 2], [3, 4]])._size (fun _ _ => 5)).1.elem 0 1 = 5 ∧
    Matrix.operator_out [] ⟨2, [[5, -2147483648], [0, 0]]⟩
      = [' ', ' ', '5', '-', '2', '1', '4', '7', '4', '8', '3', '6', '4', '8', '\n',
         ' ', ' ', '0', ' ', ' ', '0', '\n'] ∧
    (Matrix.newFromFile (Matrix.operator_out [] ⟨2, [[5, -2147483648], [0, 0]]⟩) 2
        (fun _ _ => 7)).1 = ⟨2, [[5, -2147483648], [0, 7]]⟩ :=
  ⟨by decide, by decide,
    (print_parse_amended ⟨1, [[-2147483648]]⟩ (by decide) (by decide) (fun _ _ => 5)).1 rfl,
    by decide,
    ((print_parse_amended ⟨2, [[1, 2], [3, 4]]⟩ (by decide) (by decide) (fun _ _ => 5)).2
      (by decide) (Or.inl (by decide))).2,
    by decide, by decide⟩

/-- C13, as stated, fails: on the file `1 2` / `3 4` (two lines of two integers
separated by a space) and size 2 the constructor stores 1 in row 0 and 2 in row 1, each
`inFile >> line` taking one white-space-delimited string; element (1, 0) is 2, not 3, and
the second column is left as allocated. -/
theorem newFromFile_whitespace_counterexample :
    (Matrix.newFromFile ['1', ' ', '2', '\n', '3', ' ', '4', '\n'] 2 (fun _ _ => 0)).1
      = ⟨2, [[1, 0], [2, 0]]⟩ ∧
    (Matrix.newFromFile ['1', ' ', '2', '\n', '3', ' ', '4', '\n'] 2 (fun _ _ => 0)).1.elem 1 0
      = 2 ∧
    (Matrix.newFromFile ['1', ' ', '2', '\n', '3', ' ', '4', '\n'] 2 (fun _ _ => 0)).1
      ≠ ⟨2, [[1, 2], [3, 4]]⟩ := by
  refine ⟨by decide, by decide, by decide⟩

/-- C13, amended: for every size `n >= 1` and every file of exactly `n` lines, each
holding exactly `n` decimal integers in the range of `int` (an optional sign, then
digits) separated by single commas with no white space in the line, the text constructor
yields the matrix of size `n` whose element `(i, j)` is the `j`-th integer of line `i`.
The lines are separated by one newline; after the last line the file ends or goes on
with white space (`rest`). -/
theorem newFromFile_comma_lines (n : Nat) (hn : 1 ≤ n) (rows : List (List (List Char)))
    (hrows : rows.length = n) (hcols : ∀ r ∈ rows, r.length = n)
    (htok : ∀ r ∈ rows, ∀ t ∈ r, Matrix.isIntText t) (rest : List Char)
    (hrest : rest = [] ∨ ∃ c tail, rest = c :: tail ∧ Matrix.isSpace c = true)
    (junk : Nat → Nat → Int) :
    (Matrix.newFromFile
        (Matrix.joinWith '\n' (rows.map (Matrix.joinWith ',')) ++ rest) n junk).1
      = ⟨n, rows.map fun r => r.map Matrix.tokenValue⟩ ∧
    ∀ i j, i < n → j < n →
      Matrix.decimalValue ((rows.getD i []).getD j [])
        = some ((Matrix.newFromFile
            (Matrix.joinWith '\n' (rows.map (Matrix.joinWith ',')) ++ rest) n junk).1.elem
              i j) ∧
      isInt ((Matrix.newFromFile
        (Matrix.joinWith '\n' (rows.map (Matrix.joinWith ',')) ++ rest) n junk).1.elem
          i j) := by
  have hrest2 : ∀ c, rest.head? = some c → Matrix.isSpace c = true := by
    intro c hc
    rcases hrest with h | ⟨d, tail, h, hd⟩
    · rw [h] at hc; exact absurd hc (by simp)
    · rw [h] at hc
      simp only [List.head?_cons, Option.some.injEq] at hc
      rw [← hc]; exact hd
  obtain ⟨w, s, e⟩ := Matrix.newFromFile_rows n rest hrest2 rows 0 _ []
    (Matrix.alloc_WF n junk) rfl hn hcols htok (by omega) (by simp)
  have hrun : Matrix.newFromFile
      (Matrix.joinWith '\n' (rows.map (Matrix.joinWith ',')) ++ rest) n junk
      = (List.range' 0 rows.length).foldl Matrix.newFromFileRow
          (Matrix.mk n ((List.range n).map fun i => Matrix.allocRow n i junk),
            [] ++ Matrix.joinWith '\n' (rows.map (Matrix.joinWith ',')) ++ rest) := by
    unfold Matrix.newFromFile
    simp only [List.nil_append]
    rw [hrows, List.range_eq_range']
  rw [hrun]
  have he : ∀ i j, i < n → j < n →
      ((List.range' 0 rows.length).foldl Matrix.newFromFileRow
          (Matrix.mk n ((List.range n).map fun i => Matrix.allocRow n i junk),
            [] ++ Matrix.joinWith '\n' (rows.map (Matrix.joinWith ',')) ++ rest)).1.elem i j
        = Matrix.tokenValue ((rows.getD i []).getD j []) := by
    intro i j hi hj
    rw [e i j hj, if_pos ⟨by omega, by omega⟩, Nat.sub_zero]
    have hi2 : i < rows.length := by rw [hrows]; exact hi
    have hj2 : j < (rows.getD i []).length := by
      rw [hcols _ (by rw [List.getD_eq_getElem _ _ hi2]; exact List.getElem_mem hi2)]
      exact hj
    rw [List.getD_eq_getElem _ _ (by rw [List.length_map]; exact hj2),
      List.getD_eq_getElem _ _ hj2, List.getElem_map]
  have hwf : (Matrix.mk n (rows.map fun r => r.map Matrix.tokenValue)).WF := by
    refine ⟨by simp [hrows], ?_⟩
    intro row hrow
    simp only [List.mem_map] at hrow
    obtain ⟨r, hr, rfl⟩ := hrow
    simp [hcols r hr]
  refine ⟨?_, ?_⟩
  · apply Matrix.ext_elem w hwf (by rw [s])
    intro i j hi hj
    rw [s] at hi hj
    rw [he i j hi hj]
    have hi2 : i < rows.length := by rw [hrows]; exact hi
    have hj2 : j < (rows.getD i []).length := by
      rw [hcols _ (by rw [List.getD_eq_getElem _ _ hi2]; exact List.getElem_mem hi2)]
      exact hj
    exact (Matrix.elem_map_tokens n rows i j hi2 hj2).symm
  · intro i j hi hj
    rw [he i j hi hj]
    have hi2 : i < rows.length := by rw [hrows]; exact hi
    have hmem : rows.getD i [] ∈ rows := by
      rw [List.getD_eq_getElem _ _ hi2]; exact List.getElem_mem hi2
    have hj2 : j < (rows.getD i []).length := by
      rw [hcols _ hmem]; exact hj
    have ht : (rows.getD i []).getD j [] ∈ rows.getD i [] := by
      rw [List.getD_eq_getElem _ _ hj2]; exact List.getElem_mem hj2
    exact Matrix.isIntText_value (htok _ hmem _ ht)

theorem newFromFile_comma_lines_witness :
    (∀ r ∈ [[['+', '5'], ['0', '0', '7']],
        [['-', '2', '1', '4', '7', '4', '8', '3', '6', '4', '8'], ['3', '0']]],
      ∀ t ∈ r, Matrix.isIntText t) ∧
    Matrix.joinWith '\n' ([[['+', '5'], ['0', '0', '7']],
        [['-', '2', '1', '4', '7', '4', '8', '3', '6', '4', '8'], ['3', '0']]].map
          (Matrix.joinWith ',')) ++ ['\n']
      = ['+', '5', ',', '0', '0', '7', '\n',
         '-', '2', '1', '4', '7', '4', '8', '3', '6', '4', '8', ',', '3', '0', '\n'] ∧
    (Matrix.newFromFile
        (Matrix.joinWith '\n' ([[['+', '5'], ['0', '0', '7']],
          [['-', '2', '1', '4', '7', '4', '8', '3', '6', '4', '8'], ['3', '0']]].map
            (Matrix.joinWith ',')) ++ ['\n']) 2 (fun _ _ => 7)).1
      = ⟨2, [[5, 7], [-2147483648, 30]]⟩ ∧
    (Matrix.newFromFile ['2', '1', '4', '7', '4', '8', '3', '6', '4', '8', ',', '5', '\n',
        '3', ',', '4', '\n'] 2 (fun _ _ => 7)).1 = ⟨2, [[7, 7], [3, 4]]⟩ :=
  ⟨by decide, by decide,
    (newFromFile_comma_lines 2 (by decide) [[['+', '5'], ['0', '0', '7']],
        [['-', '2', '1', '4', '7', '4', '8', '3', '6', '4', '8'], ['3', '0']]] rfl
      (by decide) (by decide) ['\n'] (Or.inr ⟨'\n', [], rfl, by decide⟩)
      (fun _ _ => 7)).1,
    by decide⟩

/-- C14: `findMaxMagnitude` returns the maximum of `|M[i][j]|` over all elements: the
result is non-negative, bounds every `|M[i][j]|`, is 0 exactly when every element is 0
(in particular when there are no elements), and when non-zero is the absolute value of
some element.  The method is `const`: it is a function of the receiver. -/
theorem findMaxMagnitude_correct (M : Matrix) (_hM : M.WF) :
    0 ≤ M.findMaxMagnitude ∧
    (∀ i j, i < M._size → j < M._size → |M.elem i j| ≤ M.findMaxMagnitude) ∧
    (M.findMaxMagnitude = 0 ↔ ∀ i j, i < M._size → j < M._size → M.elem i j = 0) ∧
    (M.findMaxMagnitude ≠ 0 →
      ∃ i j, i < M._size ∧ j < M._size ∧ |M.elem i j| = M.findMaxMagnitude) := by
  obtain ⟨h1, h2, h3⟩ := Matrix.findMaxMagnitude_outer M M._size M._size
  have hb : ∀ i j, i < M._size → j < M._size → |M.elem i j| ≤ M.findMaxMagnitude := by
    intro i j hi hj
    rw [← Matrix.cAbs_eq_abs]
    exact h2 i j hi hj
  refine ⟨h1, hb, ⟨?_, ?_⟩, ?_⟩
  · intro h0 i j hi hj
    have := hb i j hi hj
    rw [h0] at this
    exact abs_eq_zero.mp (le_antisymm this (abs_nonneg _))
  · intro hz
    rcases h3 with h | ⟨i, j, hi, hj, h⟩
    · exact h
    · have e : M.findMaxMagnitude = Matrix.cAbs (M.elem i j) := h.symm
      rw [e, hz i j hi hj]
      rfl
  · intro hne
    rcases h3 with h | ⟨i, j, hi, hj, h⟩
    · exact absurd h hne
    · exact ⟨i, j, hi, hj, by rw [← Matrix.cAbs_eq_abs]; exact h⟩

theorem findMaxMagnitude_correct_witness :
    Matrix.findMaxMagnitude ⟨2, [[3, -17], [5, 0]]⟩ = 17 ∧
    0 ≤ Matrix.findMaxMagnitude ⟨2, [[3, -17], [5, 0]]⟩ :=
  ⟨by decide, (findMaxMagnitude_correct ⟨2, [[3, -17], [5, 0]]⟩ (by decide)).1⟩

/-- C15, counterexample: the `abs` of `int` leaves `INT_MIN` negative, so it never raises
the maximum: for `[[-2147483648]]` the maximum found is `0`, the width is `3`, and the
element's text has eleven characters, more than `w - 1 = 2`; the line written has eleven
characters before its newline, not `1 * 3`, and the field does not start with a
space. -/
theorem operator_out_counterexample :
    (Matrix.mk 1 [[-2147483648]]).WF ∧
    Matrix.findMaxMagnitudeInt ⟨1, [[-2147483648]]⟩ = 0 ∧
    (Nat.toDigits 10 (Matrix.findMaxMagnitudeInt ⟨1, [[-2147483648]]⟩).natAbs).length + 2
      = 3 ∧
    (Matrix.intText ((Matrix.mk 1 [[-2147483648]]).elem 0 0)).length = 11 ∧
    Matrix.operator_out [] ⟨1, [[-2147483648]]⟩
      = ['-', '2', '1', '4', '7', '4', '8', '3', '6', '4', '8', '\n'] ∧
    (Matrix.putField 3 ((Matrix.mk 1 [[-2147483648]]).elem 0 0)).head? ≠ some ' ' := by
  decide

/-- C15, amended: for a well-formed matrix `M` of size `n` with `int` elements in which
`INT_MIN` does not occur, or occurs beside a maximum found of ten digits, with
`w = (number of decimal digits of findMaxMagnitude(M)) + 2`, the text `operator<<` writes
is the `n` rows in order, row `i` being the fields of `M[i][0..n-1]`, each the decimal text
of the element padded on the left with spaces to width `w`, followed by one newline.  No
element's text (sign included) is longer than `w - 1`, so every field has exactly `w`
characters, starts with a space and holds no newline, every line has `n * w` characters
before its newline, and the text has exactly `n` newlines.  When no element is `INT_MIN`
the maximum found is the maximum of the absolute values. -/
theorem operator_out_format (M : Matrix) (hM : M.WF) (hint : M.AllInt)
    (hmin : M.NoIntMin ∨ 1000000000 ≤ M.findMaxMagnitudeInt)
    (os : List Char) :
    Matrix.operator_out os M
      = os ++ (List.range M._size).flatMap (fun i =>
          ((List.range M._size).flatMap fun j =>
            Matrix.putField ((Nat.toDigits 10 M.findMaxMagnitudeInt.natAbs).length + 2)
              (M.elem i j)) ++ ['\n']) ∧
    (∀ i j, i < M._size → j < M._size →
      (Matrix.intText (M.elem i j)).length
          ≤ ((Nat.toDigits 10 M.findMaxMagnitudeInt.natAbs).length + 2) - 1 ∧
      (Matrix.putField ((Nat.toDigits 10 M.findMaxMagnitudeInt.natAbs).length + 2)
          (M.elem i j)).length
        = (Nat.toDigits 10 M.findMaxMagnitudeInt.natAbs).length + 2 ∧
      (Matrix.putField ((Nat.toDigits 10 M.findMaxMagnitudeInt.natAbs).length + 2)
          (M.elem i j)).head? = some ' ' ∧
      '\n' ∉ Matrix.putField ((Nat.toDigits 10 M.findMaxMagnitudeInt.natAbs).length + 2)
          (M.elem i j)) ∧
    (∀ i, i < M._size →
      ((List.range M._size).flatMap fun j =>
        Matrix.putField ((Nat.toDigits 10 M.findMaxMagnitudeInt.natAbs).length + 2)
          (M.elem i j)).length
        = M._size * ((Nat.toDigits 10 M.findMaxMagnitudeInt.natAbs).length + 2)) ∧
    (Matrix.operator_out [] M).count '\n' = M._size ∧
    (M.NoIntMin → M.findMaxMagnitudeInt = M.findMaxMagnitude) := by
  have hmax := Matrix.intText_findMaxMagnitudeInt M
  have hlen := Matrix.intText_fits M hM hint hmin
  have heq := Matrix.operator_out_eq os M
  have heq0 := Matrix.operator_out_eq [] M
  rw [hmax] at heq heq0
  have hfield : ∀ i j, i < M._size → j < M._size →
      (Matrix.putField ((Nat.toDigits 10 M.findMaxMagnitudeInt.natAbs).length + 2)
        (M.elem i j)).length = (Nat.toDigits 10 M.findMaxMagnitudeInt.natAbs).length + 2 :=
    fun i j hi hj => Matrix.putField_length _ _ (by have := hlen i j hi hj; omega)
  refine ⟨heq, ?_, ?_, ?_, ?_⟩
  · intro i j hi hj
    have := hlen i j hi hj
    exact ⟨by omega, hfield i j hi hj, Matrix.putField_head _ _ (by omega),
      Matrix.putField_no_newline _ _⟩
  · intro i hi
    rw [List.length_flatMap]
    have : ∀ j ∈ List.range M._size,
        (List.length ∘ fun j =>
          Matrix.putField ((Nat.toDigits 10 M.findMaxMagnitudeInt.natAbs).length + 2)
            (M.elem i j)) j = (Nat.toDigits 10 M.findMaxMagnitudeInt.natAbs).length + 2 :=
      fun j hj => hfield i j hi (List.mem_range.mp hj)
    rw [List.map_congr_left this]
    simp
  · rw [heq0, List.nil_append, List.count_flatMap]
    have : ∀ i ∈ List.range M._size,
        (List.count '\n' ∘ fun i =>
          ((List.range M._size).flatMap fun j =>
            Matrix.putField ((Nat.toDigits 10 M.findMaxMagnitudeInt.natAbs).length + 2)
              (M.elem i j)) ++ ['\n']) i = 1 := by
      intro i _
      simp only [Function.comp, List.count_append, List.count_flatMap]
      have hz : ∀ j ∈ List.range M._size,
          (List.count '\n' ∘ fun j =>
            Matrix.putField ((Nat.toDigits 10 M.findMaxMagnitudeInt.natAbs).length + 2)
              (M.elem i j)) j = 0 := by
        intro j _
        exact List.count_eq_zero.mpr (Matrix.putField_no_newline _ _)
      rw [List.map_congr_left hz]
      simp
    rw [List.map_congr_left this]
    simp
  · intro hne
    exact Matrix.findMaxMagnitudeInt_eq M fun i j hi hj =>
      ⟨Matrix.AllInt_elem hM hint hi hj, Matrix.NoIntMin_elem hM hne hi hj⟩

theorem operator_out_format_witness :
    (Matrix.mk 2 [[1, -200], [3, 4]]).WF ∧ (Matrix.mk 2 [[1, -200], [3, 4]]).AllInt ∧
    (Matrix.mk 2 [[1, -200], [3, 4]]).NoIntMin ∧
    Matrix.operator_out [] ⟨2, [[1, -200], [3, 4]]⟩
      = [' ', ' ', ' ', ' ', '1', ' ', '-', '2', '0', '0', '\n',
         ' ', ' ', ' ', ' ', '3', ' ', ' ', ' ', ' ', '4', '\n'] ∧
    (Matrix.operator_out [] ⟨2, [[1, -200], [3, 4]]⟩).count '\n'
      = (Matrix.mk 2 [[1, -200], [3, 4]])._size :=
  ⟨by decide, by decide, by decide, by decide,
    (operator_out_format ⟨2, [[1, -200], [3, 4]]⟩ (by decide) (by decide)
      (Or.inl (by decide)) []).2.2.2.1⟩

/-- C16, as stated, fails: on a 4x4 matrix `findDeterminant` returns an integer (the
value its unassigned local holds, here 7) and `findAdjoint` returns a matrix (the grid as
allocated, here filled with 9); each writes one warning on `cerr` and raises no error. -/
theorem unsupported_size_counterexample :
    Matrix.findDeterminant
        ⟨4, [[1, 2, 3, 4], [5, 6, 7, 8], [9, 10, 11, 12], [13, 14, 15, 16]]⟩ 7 = 7 ∧
    Matrix.findDeterminantCerr
        ⟨4, [[1, 2, 3, 4], [5, 6, 7, 8], [9, 10, 11, 12], [13, 14, 15, 16]]⟩
      = ["Warning: stubbornly refusing to find the determinant of a matrix larger than 3x3."] ∧
    Matrix.findAdjoint
        ⟨4, [[1, 2, 3, 4], [5, 6, 7, 8], [9, 10, 11, 12], [13, 14, 15, 16]]⟩
        (fun _ _ => 9) 7
      = ⟨4, [[9, 9, 9, 9], [9, 9, 9, 9], [9, 9, 9, 9], [9, 9, 9, 9]]⟩ ∧
    Matrix.findAdjointCerr
        ⟨4, [[1, 2, 3, 4], [5, 6, 7, 8], [9, 10, 11, 12], [13, 14, 15, 16]]⟩
      = ["Warning: stubbornly refusing to find the adjoint of a matrix larger than 3x3."] := by
  refine ⟨by decide, by decide, by decide, by decide⟩

/-- C16, amended: for every matrix of size 4 or more `findDeterminant` and `findAdjoint`
raise no error; each writes its warning on `cerr` and returns, `findDeterminant` the
value of its unassigned local and `findAdjoint` a matrix of the same size whose grid is
as allocated. -/
theorem unsupported_size_warns (M : Matrix) (h4 : 4 ≤ M._size)
    (junk : Nat → Nat → Int) (det0 : Int) :
    M.findDeterminant det0 = det0 ∧
    M.findDeterminantCerr
      = ["Warning: stubbornly refusing to find the determinant of a matrix larger than 3x3."] ∧
    M.findAdjoint junk det0 = Matrix.new M._size false junk ∧
    (M.findAdjoint junk det0)._size = M._size ∧
    (M.findAdjoint junk det0).WF ∧
    M.findAdjointCerr
      = ["Warning: stubbornly refusing to find the adjoint of a matrix larger than 3x3."] := by
  have h1 : ¬ M._size = 1 := by omega
  have h2 : ¬ M._size = 2 := by omega
  have h3 : ¬ M._size = 3 := by omega
  have ha : M.findAdjoint junk det0 = Matrix.new M._size false junk := by
    simp [Matrix.findAdjoint, h2, h3]
  refine ⟨by simp [Matrix.findDeterminant, h1, h2, h3],
    by simp [Matrix.findDeterminantCerr, h1, h2, h3], ha, ?_, ?_,
    by simp [Matrix.findAdjointCerr, h2, h3]⟩
  · rw [ha]; exact Matrix.new_size _ _ _
  · rw [ha]; exact Matrix.new_WF _ _ _

theorem unsupported_size_warns_witness :
    Matrix.findDeterminant (Matrix.new 5 true (fun _ _ => 0)) (-3) = -3 ∧
    Matrix.findAdjoint (Matrix.new 5 true (fun _ _ => 0)) (fun i j => i + j) (-3)
      = Matrix.new (Matrix.new 5 true (fun _ _ => 0))._size false (fun i j => i + j) :=
  ⟨(unsupported_size_warns (Matrix.new 5 true (fun _ _ => 0)) (by decide)
      (fun i j => i + j) (-3)).1,
    (unsupported_size_warns (Matrix.new 5 true (fun _ _ => 0)) (by decide)
      (fun i j => i + j) (-3)).2.2.1⟩

/-- C18: every operation keeps the grid square and the size fixed.  For a receiver
whose grid has `size` rows of `size` integers: `modMultiplyScalar`, run with the
arithmetic of `int`, returns for every modulus other than `0` and `-1` and, whenever it
returns, leaves the size unchanged (with modulus `0` and a non-empty grid the first `%=`
traps and there is no result to speak of); the copy constructor and `findAdjoint` (with
exact arithmetic and with that of `int` alike) return a matrix of the same size, `m1 + m2` and `m1 - m2` return a matrix of the size of `m1`,
and `getSubmatrix` returns a matrix of size `size - 1`; each result again has as many
rows as its size and that many integers in every row. -/
theorem operations_keep_shape (M : Matrix) (hM : M.WF) (val mod : Int)
    (junk : Nat → Nat → Int) (det0 : Int) (m2 : Matrix) (_h2 : m2.WF)
    (_hle : M._size ≤ m2._size) (i j : Int) (hi : 0 ≤ i ∧ i < M._size)
    (hj : 0 ≤ j ∧ j < M._size) (o : MatrixRef) (s : Store) (ho : o.Valid s)
    (junkPtr : Nat → Nat) :
    ((mod ≠ 0 → mod ≠ -1 → ∃ M1, M.modMultiplyScalarInt val mod = some M1) ∧
      (∀ M1, M.modMultiplyScalarInt val mod = some M1 → M1._size = M._size ∧ M1.WF) ∧
      (mod = 0 → 0 < M._size → M.modMultiplyScalarInt val mod = none)) ∧
    (((o.copy s junkPtr junk).2.value (o.copy s junkPtr junk).1)._size = (o.value s)._size ∧
      ((o.copy s junkPtr junk).2.value (o.copy s junkPtr junk).1).WF) ∧
    ((M.findAdjoint junk det0)._size = M._size ∧ (M.findAdjoint junk det0).WF ∧
      (M.findAdjointInt junk det0)._size = M._size ∧ (M.findAdjointInt junk det0).WF) ∧
    ((Matrix.operator_plus M m2 junk)._size = M._size ∧
      (Matrix.operator_plus M m2 junk).WF) ∧
    ((Matrix.operator_minus M m2 junk)._size = M._size ∧
      (Matrix.operator_minus M m2 junk).WF) ∧
    ((M.getSubmatrix i j junk)._size = M._size - 1 ∧ (M.getSubmatrix i j junk).WF) := by
  obtain ⟨c1, c2, _⟩ := MatrixRef.copy_spec o s ho junkPtr junk
  obtain ⟨wp, sp, _⟩ := Matrix.operator_plus_entries M m2 junk
  obtain ⟨wm, sm, _⟩ := Matrix.operator_minus_entries M m2 junk
  obtain ⟨hi0, hi1⟩ := hi
  obtain ⟨hj0, hj1⟩ := hj
  lift i to Nat using hi0
  lift j to Nat using hj0
  obtain ⟨sg, wg, _⟩ := Matrix.getSubmatrix_nat (M := M) rfl
    (show i < M._size by exact_mod_cast hi1) (show j < M._size by exact_mod_cast hj1) junk
  exact ⟨⟨Matrix.modMultiplyScalarInt_some M val mod,
      fun M1 h => Matrix.modMultiplyScalarInt_shape M M1 hM val mod h,
      fun h0 hn => h0 ▸ Matrix.modMultiplyScalarInt_zero M val hn⟩,
    ⟨c1, MatrixRef.value_WF _ _ c2⟩,
    ⟨(Matrix.findAdjoint_shape junk det0).1, (Matrix.findAdjoint_shape junk det0).2,
      (Matrix.findAdjointInt_shape junk det0).1, (Matrix.findAdjointInt_shape junk det0).2⟩,
    ⟨sp, wp⟩, ⟨sm, wm⟩, ⟨sg, wg⟩⟩

theorem operations_keep_shape_witness :
    (Matrix.getSubmatrix ⟨2, [[1, 2], [3, 4]]⟩ 0 1 (fun _ _ => 0)).WF ∧
    Matrix.modMultiplyScalarInt ⟨2, [[1, 2], [3, 4]]⟩ 3 5 = some ⟨2, [[3, 1], [4, 2]]⟩ ∧
    (Matrix.mk 2 [[3, 1], [4, 2]]).WF ∧
    Matrix.getSubmatrix ⟨2, [[1, 2], [3, 4]]⟩ 0 1 (fun _ _ => 0) = ⟨1, [[3]]⟩ :=
  ⟨(operations_keep_shape ⟨2, [[1, 2], [3, 4]]⟩ (by decide) 3 5 (fun _ _ => 0) 0
      ⟨2, [[5, 6], [7, 8]]⟩ (by decide) (by decide) 0 1 (by decide) (by decide)
      ⟨2, [1, 0]⟩ ⟨[[1, 2], [3, 4]]⟩ (by decide) (fun _ => 0)).2.2.2.2.2.2,
    by decide,
    ((operations_keep_shape ⟨2, [[1, 2], [3, 4]]⟩ (by decide) 3 5 (fun _ _ => 0) 0
      ⟨2, [[5, 6], [7, 8]]⟩ (by decide) (by decide) 0 1 (by decide) (by decide)
      ⟨2, [1, 0]⟩ ⟨[[1, 2], [3, 4]]⟩ (by decide) (fun _ => 0)).1.2.1
        ⟨2, [[3, 1], [4, 2]]⟩ (by decide)).2,
    by decide⟩

/-- C19: decryption undoes encryption.  For a well-formed key `K` of size 2 or 3, a
modulus `m > 0`, an integer `d` with `d * findDeterminant(K)` congruent to 1 modulo `m`
and a vector `v` of length `size` with entries in `[0, m)`, with `D` the result of
`modMultiplyScalar(d, m)` on `findAdjoint(K)`,
`D.modMultiplyVector(K.modMultiplyVector(v, m), m)` is `v`. -/
theorem hill_decrypt_encrypt (K : Matrix) (_hK : K.WF) (hs : K._size = 2 ∨ K._size = 3)
    (m : Int) (hm : 0 < m) (d det0 : Int) (hd : d * K.findDeterminant det0 ≡ 1 [ZMOD m])
    (v : List Int) (hv : v.length = K._size) (hr : ∀ x ∈ v, 0 ≤ x ∧ x < m)
    (junk : Nat → Nat → Int) (junk1 junk2 : Nat → Int) (det1 : Int) :
    ((K.findAdjoint junk det1).modMultiplyScalar d m).modMultiplyVector
      (K.modMultiplyVector v m junk1) m junk2 = v := by
  obtain ⟨sa, wa⟩ := Matrix.findAdjoint_shape (M := K) junk det1
  obtain ⟨_, sD, eD⟩ := Matrix.modMultiplyScalar_entries d m hm wa
  obtain ⟨lw, ew⟩ := Matrix.modMultiplyVector_entries K v m hm junk1
  obtain ⟨lr, er⟩ := Matrix.modMultiplyVector_entries
    ((K.findAdjoint junk det1).modMultiplyScalar d m) (K.modMultiplyVector v m junk1) m hm
    junk2
  rw [sD, sa] at lr er
  rw [sa] at eD
  apply List.ext_getElem (by rw [lr, hv])
  intro i h1 h2
  have hi : i < K._size := by omega
  have e1 := er i hi
  rw [List.getD_eq_getElem _ _ h1] at e1
  rw [e1]
  have step1 : (∑ k in Finset.range K._size,
        ((K.findAdjoint junk det1).modMultiplyScalar d m).elem i k
          * (K.modMultiplyVector v m junk1).getD k 0)
      = ∑ k in Finset.range K._size,
          (((K.findAdjoint junk det1).elem i k * d) % m)
            * ((∑ j in Finset.range K._size, K.elem k j * v.getD j 0) % m) := by
    apply Finset.sum_congr rfl
    intro k hk
    have hk2 : k < K._size := Finset.mem_range.mp hk
    rw [eD i k hi hk2, ew k hk2]
  rw [step1, Matrix.sum_mul_emod K._size
    (fun k => (K.findAdjoint junk det1).elem i k * d)
    (fun k => ∑ j in Finset.range K._size, K.elem k j * v.getD j 0) m]
  have step2 : (∑ k in Finset.range K._size, (K.findAdjoint junk det1).elem i k * d
        * ∑ j in Finset.range K._size, K.elem k j * v.getD j 0)
      = d * K.findDeterminant det0 * v[i] := by
    have swap : (∑ k in Finset.range K._size, (K.findAdjoint junk det1).elem i k * d
          * ∑ j in Finset.range K._size, K.elem k j * v.getD j 0)
        = ∑ j in Finset.range K._size, d * v.getD j 0
            * ∑ k in Finset.range K._size, (K.findAdjoint junk det1).elem i k * K.elem k j := by
      simp only [Finset.mul_sum]
      rw [Finset.sum_comm]
      apply Finset.sum_congr rfl
      intro j _
      apply Finset.sum_congr rfl
      intro k _
      ring
    rw [swap]
    have inner : ∀ j ∈ Finset.range K._size, d * v.getD j 0
          * ∑ k in Finset.range K._size, (K.findAdjoint junk det1).elem i k * K.elem k j
        = if i = j then d * K.findDeterminant det0 * v.getD j 0 else 0 := by
      intro j hj
      rw [Matrix.findAdjoint_mul_left hs junk det1 det0 hi (Finset.mem_range.mp hj)]
      split
      · ring
      · ring
    rw [Finset.sum_congr rfl inner, Finset.sum_ite_eq, if_pos (Finset.mem_range.mpr hi),
      List.getD_eq_getElem _ _ h2]
  rw [step2]
  obtain ⟨a, b⟩ := hr _ (List.getElem_mem h2)
  have hcong : d * K.findDeterminant det0 * v[i] ≡ v[i] [ZMOD m] := by
    have := hd.mul_right v[i]
    rwa [one_mul] at this
  unfold Int.ModEq at hcong
  rw [hcong]
  exact Int.emod_eq_of_lt a b

theorem hill_decrypt_encrypt_witness :
    Matrix.modMultiplyVector ⟨2, [[3, 3], [2, 5]]⟩ [7, 8] 26 (fun _ => 0) = [19, 2] ∧
    (Matrix.modMultiplyScalar (Matrix.findAdjoint ⟨2, [[3, 3], [2, 5]]⟩ (fun _ _ => 0) 0)
        3 26).modMultiplyVector
      (Matrix.modMultiplyVector ⟨2, [[3, 3], [2, 5]]⟩ [7, 8] 26 (fun _ => 0)) 26
      (fun _ => 0) = [7, 8] :=
  ⟨by decide, hill_decrypt_encrypt ⟨2, [[3, 3], [2, 5]]⟩ (by decide) (Or.inl rfl) 26
    (by decide) 3 0 (by decide) [7, 8] rfl (by decide) (fun _ _ => 0) (fun _ => 0)
    (fun _ => 0) 0⟩

/-- C20: for a well-formed matrix `M`, integers `a`, `b` and a modulus `m > 0`,
`modMultiplyScalar(a, m)` followed by `modMultiplyScalar(b, m)` gives the same size and
the same elements as one `modMultiplyScalar(a*b, m)` on `M`; `modMultiplyScalar(1, m)`
is idempotent, and it changes nothing when every element already lies in `[0, m)`. -/
theorem modMultiplyScalar_compose (M : Matrix) (hM : M.WF) (a b m : Int) (hm : 0 < m) :
    ((M.modMultiplyScalar a m).modMultiplyScalar b m)._size
      = (M.modMultiplyScalar (a * b) m)._size ∧
    (∀ i j, i < M._size → j < M._size →
      ((M.modMultiplyScalar a m).modMultiplyScalar b m).elem i j
        = (M.modMultiplyScalar (a * b) m).elem i j) ∧
    (M.modMultiplyScalar a m).modMultiplyScalar b m = M.modMultiplyScalar (a * b) m ∧
    (M.modMultiplyScalar 1 m).modMultiplyScalar 1 m = M.modMultiplyScalar 1 m ∧
    ((∀ i j, i < M._size → j < M._size → 0 ≤ M.elem i j ∧ M.elem i j < m) →
      M.modMultiplyScalar 1 m = M) := by
  have two : ∀ x y : Int, ∀ i j, i < M._size → j < M._size →
      ((M.modMultiplyScalar x m).modMultiplyScalar y m).elem i j
        = (M.elem i j * (x * y)) % m := by
    intro x y i j hi hj
    obtain ⟨w1, s1, e1⟩ := Matrix.modMultiplyScalar_entries x m hm hM
    obtain ⟨_, _, e2⟩ := Matrix.modMultiplyScalar_entries y m hm w1
    rw [e2 i j (by omega) (by omega), e1 i j hi hj, ← mul_assoc]
    exact (Int.mod_modEq (M.elem i j * x) m).mul_right y
  have shape : ∀ x y : Int, ((M.modMultiplyScalar x m).modMultiplyScalar y m).WF ∧
      ((M.modMultiplyScalar x m).modMultiplyScalar y m)._size = M._size := by
    intro x y
    obtain ⟨w1, s1, _⟩ := Matrix.modMultiplyScalar_entries x m hm hM
    obtain ⟨w2, s2, _⟩ := Matrix.modMultiplyScalar_entries y m hm w1
    exact ⟨w2, by rw [s2, s1]⟩
  obtain ⟨wab, sab, eab⟩ := Matrix.modMultiplyScalar_entries (a * b) m hm hM
  obtain ⟨w1, s1, e1⟩ := Matrix.modMultiplyScalar_entries 1 m hm hM
  have he : ∀ i j, i < M._size → j < M._size →
      ((M.modMultiplyScalar a m).modMultiplyScalar b m).elem i j
        = (M.modMultiplyScalar (a * b) m).elem i j := by
    intro i j hi hj
    rw [two a b i j hi hj, eab i j hi hj]
  refine ⟨by rw [(shape a b).2, sab], he, ?_, ?_, ?_⟩
  · apply Matrix.ext_elem (shape a b).1 wab (by rw [(shape a b).2, sab])
    intro i j hi hj
    rw [(shape a b).2] at hi hj
    exact he i j hi hj
  · apply Matrix.ext_elem (shape 1 1).1 w1 (by rw [(shape 1 1).2, s1])
    intro i j hi hj
    rw [(shape 1 1).2] at hi hj
    rw [two 1 1 i j hi hj, e1 i j hi hj]
    simp
  · intro hr
    apply Matrix.ext_elem w1 hM s1
    intro i j hi hj
    rw [s1] at hi hj
    rw [e1 i j hi hj, mul_one]
    exact Int.emod_eq_of_lt (hr i j hi hj).1 (hr i j hi hj).2

theorem modMultiplyScalar_compose_witness :
    Matrix.modMultiplyScalar (Matrix.modMultiplyScalar ⟨2, [[1, -2], [3, 4]]⟩ 3 7) (-5) 7
      = ⟨2, [[6, 2], [4, 3]]⟩ ∧
    Matrix.modMultiplyScalar (Matrix.modMultiplyScalar ⟨2, [[1, -2], [3, 4]]⟩ 3 7) (-5) 7
      = Matrix.modMultiplyScalar ⟨2, [[1, -2], [3, 4]]⟩ (3 * -5) 7 :=
  ⟨by decide, (modMultiplyScalar_compose ⟨2, [[1, -2], [3, 4]]⟩ (by decide) 3 (-5) 7
    (by decide)).2.2.1⟩

end HillCipher
